import Mathlib

set_option maxHeartbeats 1000000

namespace MCN

/-! Shallow embedding of the MCN-Editor redstone compiler
    (src/Rust/redstone_compiler, src/Rust/mcn-ls).

    Machine integers are modelled as `Nat`/`Int` with explicit reductions
    modulo powers of two at the operations where Rust wraps (`u8`, `i16`
    release-mode arithmetic).  Fallible Rust code (`Result`, `panic!`,
    `expect`, `unwrap`) is modelled with `Except`; panic-class branches
    are a distinguished `panicked` constructor.  Loops whose termination
    the Rust source does not make structural are given a fuel parameter;
    running out of fuel is an explicit failure, so a successful result
    always corresponds to a real terminating run. -/

/-- Source location (frontend `Location`), 0-based line and column. -/
structure Location where
  line : Nat
  col : Nat
deriving DecidableEq

/-- Source span (frontend `Range`): start and end locations. -/
structure Range where
  startLoc : Location
  endLoc : Location
deriving DecidableEq

def Range.default : Range := ⟨⟨0, 0⟩, ⟨0, 0⟩⟩

/-- Modelled from the spec: `Location` ordering used by `Range`
    composition (the `impl Add for Range` lives in a frontend file that is
    not under src/).  Lexicographic on (line, col). -/
def Location.leb (a b : Location) : Bool :=
  a.line < b.line || (a.line == b.line && a.col ≤ b.col)

/-- Modelled from the spec: ranges compose by `a + b = (min_start, max_end)`
    (spec section 3). -/
def Range.add (a b : Range) : Range :=
  ⟨if Location.leb a.startLoc b.startLoc then a.startLoc else b.startLoc,
   if Location.leb a.endLoc b.endLoc then b.endLoc else a.endLoc⟩

/-- Binary operators (frontend `Operator`). -/
inductive Operator where
  | Plus | Minus | Mult | And | Or | Xor
deriving DecidableEq

/-- Modelled from the spec: `Plus, Mult, And, Or, Xor` are commutative;
    `Minus` is not (spec section 3; the impl lives in a frontend file not
    under src/). -/
def Operator.is_commutative : Operator → Bool
  | .Minus => false
  | _ => true

/-- Equality operators (frontend `EqualityOperator`). -/
inductive EqualityOperator where
  | EqualTo | NotEqualTo | GreaterThan | LessThan | GreaterOrEqual | LessOrEqual
deriving DecidableEq

/-- Modelled from the spec: `opposite()` is logical negation
    (spec section 3). -/
def EqualityOperator.opposite : EqualityOperator → EqualityOperator
  | .EqualTo => .NotEqualTo
  | .NotEqualTo => .EqualTo
  | .GreaterThan => .LessOrEqual
  | .LessThan => .GreaterOrEqual
  | .GreaterOrEqual => .LessThan
  | .LessOrEqual => .GreaterThan

/-- Modelled from the spec: `turnaround()` is the operand swap, e.g.
    `<` to `>`; `EqualTo`/`NotEqualTo` are their own turnarounds
    (spec section 3). -/
def EqualityOperator.turnaround : EqualityOperator → EqualityOperator
  | .EqualTo => .EqualTo
  | .NotEqualTo => .NotEqualTo
  | .GreaterThan => .LessThan
  | .LessThan => .GreaterThan
  | .GreaterOrEqual => .LessOrEqual
  | .LessOrEqual => .GreaterOrEqual

/-- Instruction-set variants (backend `InstructionVariant`), from the
    mnemonic table of spec section 6. -/
inductive InstructionVariant where
  | LAL | LAH | LBL | LBH | LA | LB | LCL
  | SVA
  | ADD | SUB | MUL | AND | OR | XOR
  | JMP | JEQ | JNE | JLT | JGT | JLE | JGE
  | JMPD | JEQD | JNED | JLTD | JGTD | JLED | JGED
deriving DecidableEq

/-- Modelled from the spec: `is_jump()` is true for every jump variant
    (spec section 6; the impl lives in a backend file not under src/). -/
def InstructionVariant.is_jump : InstructionVariant → Bool
  | .JMP | .JEQ | .JNE | .JLT | .JGT | .JLE | .JGE => true
  | .JMPD | .JEQD | .JNED | .JLTD | .JGTD | .JLED | .JGED => true
  | _ => false

/-- Modelled from the spec: `disc_jump()` is true for the suffixed
    discontinuous jump variants (spec section 6). -/
def InstructionVariant.disc_jump : InstructionVariant → Bool
  | .JMPD | .JEQD | .JNED | .JLTD | .JGTD | .JLED | .JGED => true
  | _ => false

/-- Modelled from the spec: `to_disc_jump()` maps each plain jump to its
    paired discontinuous variant (spec section 6). -/
def InstructionVariant.to_disc_jump : InstructionVariant → InstructionVariant
  | .JMP => .JMPD
  | .JEQ => .JEQD
  | .JNE => .JNED
  | .JLT => .JLTD
  | .JGT => .JGTD
  | .JLE => .JLED
  | .JGE => .JGED
  | v => v

/-- Modelled from the spec: `from_op` maps equality operators 1:1 to the
    conditional-jump opcodes (spec section 4.6 and 6). -/
def InstructionVariant.from_op : EqualityOperator → InstructionVariant
  | .EqualTo => .JEQ
  | .NotEqualTo => .JNE
  | .LessThan => .JLT
  | .GreaterThan => .JGT
  | .LessOrEqual => .JLE
  | .GreaterOrEqual => .JGE

/-- Machine instruction (backend `Instruction`): variant, optional byte
    argument, and the source range that caused it. -/
structure Instruction where
  variant : InstructionVariant
  arg : Option Nat
  orig_location : Range
deriving DecidableEq

/-- 16-bit two's complement wrap of an integer (Rust release-mode `i16`
    arithmetic). -/
def wrap16 (x : Int) : Int := (x + 32768) % 65536 - 32768

/-- Two's complement 16-bit representative in `[0, 65536)` (`to_le_bytes`
    view of an `i16`). -/
def toU16 (x : Int) : Nat := (x % 65536).toNat

/-- Reinterpret a 16-bit representative as a signed `i16` value. -/
def fromU16 (n : Nat) : Int := if n < 32768 then (n : Int) else (n : Int) - 65536

/-- Sign extension of a byte to an `i16` value. -/
def sext8 (n : Nat) : Int := if n % 256 < 128 then ((n % 256 : Nat) : Int) else ((n % 256 : Nat) : Int) - 256

/-- Low byte of an `i16` (`to_le_bytes()[0]`). -/
def lowByte (x : Int) : Nat := toU16 x % 256

/-- High byte of an `i16` (`to_le_bytes()[1]`). -/
def highByte (x : Int) : Nat := toU16 x / 256

/-- Abstract register contents (backend `RegisterContents`). -/
inductive RegisterContents where
  | Unknown : RegisterContents
  | Number : Int → RegisterContents
  | Variable : Nat → RegisterContents
deriving DecidableEq

/-- Abstract state of registers A and B (backend `ComputerState`). -/
structure ComputerState where
  a : RegisterContents
  b : RegisterContents
deriving DecidableEq

def ComputerState.default : ComputerState := ⟨.Unknown, .Unknown⟩

/-- Modelled from the spec: `Instruction::execute` updates the tracked
    `ComputerState` (the impl lives in a backend file not under src/),
    following the register-state update discipline of spec section 4.5:
    `LAL n` sets `A = Number(n sign-extended)`; `LAH n` combines with a
    known low byte or degrades to `Unknown`; `LA s` sets `A = Variable s`;
    `LBL/LBH/LB` likewise for B; ALU operations set `A = Unknown`;
    `SVA` leaves A unchanged but, so that later loads of the stored slot
    can be elided, records `Variable slot` when A was `Unknown`;
    jumps leave the registers unchanged. -/
def Instruction.execute (i : Instruction) (s : ComputerState) : ComputerState :=
  match i.variant, i.arg with
  | .LAL, some n => { s with a := .Number (sext8 n) }
  | .LAH, some n =>
    match s.a with
    | .Number p => { s with a := .Number (fromU16 (toU16 p % 256 + 256 * (n % 256))) }
    | _ => { s with a := .Unknown }
  | .LBL, some n => { s with b := .Number (sext8 n) }
  | .LBH, some n =>
    match s.b with
    | .Number p => { s with b := .Number (fromU16 (toU16 p % 256 + 256 * (n % 256))) }
    | _ => { s with b := .Unknown }
  | .LA, some v => { s with a := .Variable v }
  | .LB, some v => { s with b := .Variable v }
  | .SVA, some v =>
    match s.a with
    | .Unknown => { s with a := .Variable v }
    | _ => s
  | .ADD, _ | .SUB, _ | .MUL, _ | .AND, _ | .OR, _ | .XOR, _ => { s with a := .Unknown }
  | _, _ => s

/-- Grouped instruction form (backend `Instr`): a single instruction or a
    nested scope of instructions. -/
inductive Instr where
  | code : Instruction → Instr
  | scope : List Instr → Instr

/-- Identifier with its source range (frontend `Ident`). -/
structure Ident where
  symbol : String
  location : Range
deriving DecidableEq

mutual

/-- An expression: a kind tagged with its source range
    (frontend `Expression`). -/
inductive Expression where
  | mk : ExpressionType → Range → Expression

/-- Expression kinds (frontend `ExpressionType`). -/
inductive ExpressionType where
  | NumericLiteral : Int → ExpressionType
  | Identifier : String → ExpressionType
  | Debug : ExpressionType
  | Pass : ExpressionType
  | BinaryExpr : Expression → Expression → Operator → ExpressionType
  | EqExpr : Expression → Expression → EqualityOperator → ExpressionType
  | Assignment : Ident → Expression → ExpressionType
  | IAssignment : Ident → Expression → Operator → ExpressionType
  | Call : Expression → List Expression → ExpressionType
  | Member : Expression → Ident → ExpressionType
  | VarDeclaration : Ident → ExpressionType
  | InlineDeclaration : Ident → Expression → ExpressionType
  | Use : List Ident → ExpressionType
  | Conditional : Expression → List Expression → List (Expression × List Expression) →
      Option (List Expression) → ExpressionType
  | EndlessLoop : List Expression → ExpressionType
  | WhileLoop : Expression → List Expression → ExpressionType

end

def Expression.typ : Expression → ExpressionType
  | .mk t _ => t

def Expression.location : Expression → Range
  | .mk _ r => r

/-- Association-list lookup with string keys, mirroring `HashMap::get`. -/
def alookup {α : Type} : List (String × α) → String → Option α
  | [], _ => none
  | p :: rest, k => if p.1 == k then some p.2 else alookup rest k

/-- Association-list insert with string keys, mirroring `HashMap::insert`:
    replace the binding when the key is present, add it otherwise. -/
def ainsert {α : Type} (l : List (String × α)) (k : String) (v : α) : List (String × α) :=
  if l.any (fun p => p.1 == k) then
    l.map (fun p => if p.1 == k then (k, v) else p)
  else
    l ++ [(k, v)]

/-- The `jump_marks` table: mark id to resolved instruction index, both
    bytes.  A `HashMap<u8, u8>` is modelled as an association list whose
    key order stands for the unspecified iteration order. -/
abbrev Marks : Type := List (Nat × Nat)

/-- Lookup in the jump-mark table, mirroring `HashMap::get`. -/
def mlookup : Marks → Nat → Option Nat
  | [], _ => none
  | p :: rest, k => if p.1 == k then some p.2 else mlookup rest k

/-- Insert in the jump-mark table, mirroring `HashMap::insert`. -/
def minsert (m : Marks) (k : Nat) (v : Nat) : Marks :=
  if List.any m (fun p => p.1 == k) then
    List.map (fun p => if p.1 == k then (k, v) else p) m
  else
    m ++ [(k, v)]

def mkeys (m : Marks) : List Nat := List.map (fun p : Nat × Nat => p.1) m

def mvalues (m : Marks) : List Nat := List.map (fun p : Nat × Nat => p.2) m

def mlen (m : Marks) : Nat := List.length m

/-- Per-lexical-scope data (backend `Scope`).  The Rust field
    `variables` is spelled `vars` because `variables` is reserved in
    Lean; likewise for the compiler's occupancy bitmap below. -/
structure Scope where
  vars : List (String × Nat)
  inline_variables : List (String × Int)
  instructions : List Instr
  state : ComputerState

def Scope.default : Scope := ⟨[], [], [], ComputerState.default⟩

/-- A fresh scope created with an inherited register state
    (`Scope::with_state`). -/
def Scope.with_state (st : ComputerState) : Scope := ⟨[], [], [], st⟩

/-- The number of variable slots (`VAR_SLOTS`). -/
def VAR_SLOTS : Nat := 32

/-- Compiler state (backend `Compiler`).  The non-empty `Vec1<Scope>` stack
    is modelled as the innermost scope `cur` plus the enclosing scopes
    `outer`, listed inside-out; the global scope is the last element of
    `cur :: outer`.  The opaque `module_state` store (`Box<dyn Any>`) is
    not representable and carries no information for the embedded module
    registry, so it is omitted. -/
structure Compiler where
  cur : Scope
  outer : List Scope
  main_scope : List Instr
  modules : List String
  jump_marks : Marks
  vars : List Bool

def Compiler.new : Compiler :=
  ⟨Scope.default, [], [], [], [], List.replicate VAR_SLOTS false⟩

/-- The scope stack from innermost to global (`scopes.iter().rev()`). -/
def Compiler.scope_list (c : Compiler) : List Scope := c.cur :: c.outer

/-- The bottom (global) scope (`self.scopes.first()`). -/
def Compiler.global (c : Compiler) : Scope := c.outer.getLastD c.cur

def Compiler.is_root_scope (c : Compiler) : Bool := c.outer.isEmpty

mutual

/-- Number of `Code` leaves under one `Instr`. -/
def instr_count : Instr → Nat
  | .code _ => 1
  | .scope s => scope_count s

/-- Number of `Code` leaves in an instruction tree; `Compiler::scope_len`
    without the `u8` wrap. -/
def scope_count : List Instr → Nat
  | [] => 0
  | i :: rest => instr_count i + scope_count rest

end

/-- `Compiler::scope_len`: the `u8` sum of `Code` leaves (wrapping). -/
def scope_len (s : List Instr) : Nat := scope_count s % 256

/-- Errors of the compiler and parser (`ErrorType` of both crates). -/
inductive ErrType where
  | InvalidAssignment | InvalidDeclartion | InvalidModuleName | InvalidDot
  | MissingEnd | MissingEquals | MissingOpenParen | MissingClosingParen
  | ExpectedParen | EmptyBlock | FunctionChaining | UnexpectedOther | Eof
  | NonexistentVar : String → ErrType
  | NonexistentInlineVar : String → ErrType
  | NonexistentModule : String → ErrType
  | UnlodadedModule : String → ErrType
  | UnknownMethod : String → ErrType
  | UseOutsideGlobalScope | TooManyVars | ForbiddenInline
  | EqInNormalExpr | NormalInEqExpr | NoConstants
  | SomethingElseWentWrong : String → ErrType
deriving DecidableEq

/-- A compile-time failure: a surfaced `Error { typ, location }` or a
    panic-class branch (`panic!`, `expect`, `unwrap`). -/
inductive CErr where
  | err : ErrType → Range → CErr
  | panicked : String → CErr
deriving DecidableEq

instance instDecEqExcept {ε α : Type} [DecidableEq ε] [DecidableEq α] :
    DecidableEq (Except ε α) := fun x y =>
  match x, y with
  | .ok a, .ok b =>
    if h : a = b then isTrue (by rw [h]) else isFalse (fun hc => h (Except.ok.inj hc))
  | .error a, .error b =>
    if h : a = b then isTrue (by rw [h]) else isFalse (fun hc => h (Except.error.inj hc))
  | .ok _, .error _ => isFalse (fun hc => Except.noConfusion hc)
  | .error _, .ok _ => isFalse (fun hc => Except.noConfusion hc)

/-- Modelled from the spec: the module registry (`backend::module`, not
    under src/).  The spec leaves the registry contents pluggable and
    names no concrete module, so the registry is modelled as empty:
    `exist` is false for every name.  Programs using modules therefore
    fail with `NonexistentModule`, which keeps every claim about
    successful compilations meaningful. -/
def module_exist (_name : String) : Bool := false

/-- Modelled from the spec: a module's `init` hook may seed module state
    and emit instructions; with an empty registry it is unreachable and
    the identity is used. -/
def module_init (_name : String) (_loc : Range) (c : Compiler) : Except CErr Compiler :=
  .ok c

/-- `Compiler::insert_inline_var`. -/
def insert_inline_var (c : Compiler) (symbol : String) (value : Int) : Compiler :=
  { c with cur := { c.cur with inline_variables := ainsert c.cur.inline_variables symbol value } }

/-- Innermost-first inline-variable lookup used by
    `Compiler::get_inline_var`. -/
def lookup_inline_scopes : List Scope → String → Option Int
  | [], _ => none
  | s :: rest, symbol =>
    match alookup s.inline_variables symbol with
    | some v => some v
    | none => lookup_inline_scopes rest symbol

/-- `Compiler::get_inline_var`. -/
def get_inline_var (c : Compiler) (symbol : String) (location : Range) : Except CErr Int :=
  match lookup_inline_scopes c.scope_list symbol with
  | some v => .ok v
  | none => .error (.err (.NonexistentInlineVar symbol) location)

/-- Index of the first `false` entry (`iter().position(|slot| !*slot)`). -/
def lowest_free : List Bool → Option Nat
  | [] => none
  | b :: rest =>
    if b = false then some 0
    else
      match lowest_free rest with
      | none => none
      | some i => some (i + 1)

/-- `Compiler::get_next_available_slot`: lowest free slot, marked used. -/
def get_next_available_slot (c : Compiler) : Option (Nat × Compiler) :=
  match lowest_free c.vars with
  | none => none
  | some index => some (index, { c with vars := c.vars.set index true })

/-- Innermost-first variable lookup used by `get_var`/`insert_var`. -/
def lookup_var_scopes : List Scope → String → Option Nat
  | [], _ => none
  | s :: rest, symbol =>
    match alookup s.vars symbol with
    | some v => some v
    | none => lookup_var_scopes rest symbol

/-- `Compiler::get_var_noerror`. -/
def get_var_noerror (c : Compiler) (symbol : String) : Option Nat :=
  lookup_var_scopes c.scope_list symbol

/-- `Compiler::get_var`. -/
def get_var (c : Compiler) (symbol : String) (location : Range) : Except CErr Nat :=
  match get_var_noerror c symbol with
  | some v => .ok v
  | none => .error (.err (.NonexistentVar symbol) location)

/-- `Compiler::insert_var`: reuse the slot of a visible binding, else
    allocate a fresh slot and bind it in the innermost scope. -/
def insert_var (c : Compiler) (symbol : String) (location : Range) : Except CErr (Nat × Compiler) :=
  match get_var_noerror c symbol with
  | some v => .ok (v, c)
  | none =>
    match get_next_available_slot c with
    | none => .error (.err .TooManyVars location)
    | some (slot, c1) =>
      .ok (slot, { c1 with cur := { c1.cur with vars := ainsert c1.cur.vars symbol slot } })

/-- `Compiler::insert_temp_var`: allocate a slot without binding it. -/
def insert_temp_var (c : Compiler) (location : Range) : Except CErr (Nat × Compiler) :=
  match get_next_available_slot c with
  | none => .error (.err .TooManyVars location)
  | some r => .ok r

/-- `Compiler::cleanup_temp_var`. -/
def cleanup_temp_var (c : Compiler) (index : Nat) : Compiler :=
  { c with vars := c.vars.set index false }

/-- `Compiler::push_instr`: execute the instruction against the innermost
    scope's register state and append it to that scope. -/
def push_instr (c : Compiler) (instr : Instruction) : Compiler :=
  { c with cur := { c.cur with
      state := instr.execute c.cur.state,
      instructions := c.cur.instructions ++ [Instr.code instr] } }

/-- `Compiler::insert_jump_mark`: the fresh id is the current map size as
    a `u8`; it is bound to 0. -/
def insert_jump_mark (c : Compiler) : Nat × Compiler :=
  let id := mlen c.jump_marks % 256
  (id, { c with jump_marks := minsert c.jump_marks id 0 })

/-- Rebinding of a jump mark (`self.jump_marks.insert(id, v)`). -/
def bind_jump_mark (c : Compiler) (id : Nat) (v : Nat) : Compiler :=
  { c with jump_marks := minsert c.jump_marks id v }

/-- `Compiler::pop_scope`: append the popped scope's instructions to the
    parent as a nested `Instr::Scope` and free the popped scope's slots.
    The `unwrap` on an empty stack is a panic. -/
def pop_scope (c : Compiler) : Except CErr Compiler :=
  match c.outer with
  | [] => .error (.panicked "pop on the root scope")
  | parent :: rest =>
    .ok { c with
      cur := { parent with instructions := parent.instructions ++ [Instr.scope c.cur.instructions] },
      outer := rest,
      vars := c.cur.vars.foldl (fun bm kv => bm.set kv.2 false) c.vars }

/-- Push a fresh scope frame with an inherited state (the first half of
    `Compiler::push_scope`, before the body is evaluated). -/
def push_frame (c : Compiler) (state : ComputerState) : Compiler :=
  { c with cur := Scope.with_state state, outer := c.cur :: c.outer }

/-- `Compiler::save_to`: emit `SVA slot`. -/
def save_to (c : Compiler) (slot : Nat) (location : Range) : Compiler :=
  push_instr c ⟨.SVA, some slot, location⟩

/-- `Compiler::put_op`: emit the ALU instruction for a binary operator. -/
def put_op (c : Compiler) (operator : Operator) (location : Range) : Compiler :=
  match operator with
  | .Plus => push_instr c ⟨.ADD, none, location⟩
  | .Minus => push_instr c ⟨.SUB, none, location⟩
  | .Mult => push_instr c ⟨.MUL, none, location⟩
  | .And => push_instr c ⟨.AND, none, location⟩
  | .Or => push_instr c ⟨.OR, none, location⟩
  | .Xor => push_instr c ⟨.XOR, none, location⟩

/-- `Compiler::put_a_number`: elide when A already tracks the value, else
    emit `LAL low` and, when the high byte is nonzero, `LAH high`. -/
def put_a_number (c : Compiler) (value : Int) (location : Range) : Compiler :=
  if c.cur.state.a = .Number value then c
  else
    let c1 := push_instr c ⟨.LAL, some (lowByte value), location⟩
    if highByte value ≠ 0 then push_instr c1 ⟨.LAH, some (highByte value), location⟩ else c1

/-- `Compiler::put_b_number`. -/
def put_b_number (c : Compiler) (value : Int) (location : Range) : Compiler :=
  if c.cur.state.b = .Number value then c
  else
    let c1 := push_instr c ⟨.LBL, some (lowByte value), location⟩
    if highByte value ≠ 0 then push_instr c1 ⟨.LBH, some (highByte value), location⟩ else c1

/-- `Compiler::is_in_a`. -/
def is_in_a (c : Compiler) (e : Expression) : Bool :=
  match e.typ with
  | .NumericLiteral v => c.cur.state.a = .Number v
  | .Identifier symbol =>
    match get_var_noerror c symbol with
    | some v => c.cur.state.a = .Variable v
    | none => false
  | _ => false

/-- `Compiler::is_in_b`. -/
def is_in_b (c : Compiler) (e : Expression) : Bool :=
  match e.typ with
  | .NumericLiteral v => c.cur.state.b = .Number v
  | .Identifier symbol =>
    match get_var_noerror c symbol with
    | some v => c.cur.state.b = .Variable v
    | none => false
  | _ => false

/-- `Compiler::can_put_into_a`. -/
def can_put_into_a : Expression → Bool
  | .mk (.NumericLiteral _) _ => true
  | .mk (.Identifier _) _ => true
  | .mk (.Assignment _ value) _ => can_put_into_a value
  | _ => false

/-- `Compiler::can_put_into_b`. -/
def can_put_into_b (e : Expression) : Bool :=
  match e.typ with
  | .NumericLiteral _ => true
  | .Identifier _ => true
  | _ => false

/-- `Compiler::try_eval_const`: constant folding over literals, inline
    variables and binary expressions; `i16` arithmetic wraps in release
    mode.  Bitwise operators act on the 16-bit two's complement
    representations. -/
def try_eval_const (c : Compiler) : Expression → Except Range Int
  | .mk (.Identifier name) location =>
    match lookup_inline_scopes c.scope_list name with
    | some v => .ok v
    | none => .error location
  | .mk (.BinaryExpr left right operator) _ =>
    match try_eval_const c left with
    | .error l => .error l
    | .ok lv =>
      match try_eval_const c right with
      | .error l => .error l
      | .ok rv =>
        .ok (match operator with
          | .Plus => wrap16 (lv + rv)
          | .Minus => wrap16 (lv - rv)
          | .Mult => wrap16 (lv * rv)
          | .And => fromU16 (Nat.land (toU16 lv) (toU16 rv))
          | .Or => fromU16 (Nat.lor (toU16 lv) (toU16 rv))
          | .Xor => fromU16 (Nat.xor (toU16 lv) (toU16 rv)))
  | .mk (.NumericLiteral value) _ => .ok value
  | .mk _ location => .error location

/-- `Compiler::try_get_constant`. -/
def try_get_constant (c : Compiler) (value : Expression) : Option Int :=
  match value.typ with
  | .NumericLiteral v => some v
  | .Identifier symbol => lookup_inline_scopes c.scope_list symbol
  | .BinaryExpr _ _ _ =>
    match try_eval_const c value with
    | .ok v => some v
    | .error _ => none
  | _ => none

/-- The free function `eval_condition`: destructure an `EqExpr`. -/
def eval_condition (condition : Expression) :
    Except CErr (Expression × Expression × EqualityOperator) :=
  match condition with
  | .mk (.EqExpr left right operator) _ => .ok (left, right, operator)
  | .mk _ location => .error (.err .NormalInEqExpr location)

/-- `Compiler::switch`: move A into B through a temporary slot. -/
def switch (c : Compiler) (location : Range) : Except CErr Compiler :=
  match insert_temp_var c location with
  | .error e => .error e
  | .ok (temp, c1) =>
    let c2 := save_to c1 temp location
    let c3 := push_instr c2 ⟨.LB, some temp, location⟩
    .ok (cleanup_temp_var c3 temp)

/-- `Compiler::put_into_b`: a literal or identifier into register B,
    eliding the load when B already tracks it. -/
def put_into_b (c : Compiler) (e : Expression) : Except CErr Compiler :=
  match e with
  | .mk (.NumericLiteral value) location => .ok (put_b_number c value location)
  | .mk (.Identifier symbol) location =>
    match get_inline_var c symbol location with
    | .ok value => .ok (put_b_number c value location)
    | .error _ =>
      match get_var c symbol location with
      | .error e2 => .error e2
      | .ok var =>
        if c.cur.state.b = .Variable var then .ok c
        else .ok (push_instr c ⟨.LB, some var, location⟩)
  | .mk _ location =>
    .error (.err (.SomethingElseWentWrong "put_b called on wrong expression") location)

/-- `HashSet::insert` on the loaded-modules set. -/
def modules_insert (l : List String) (s : String) : List String :=
  if l.contains s then l else l ++ [s]

/-- The loop body of the `Use` statement case of `eval_statement`. -/
def use_loop : List Ident → Range → Compiler → Except CErr Compiler
  | [], _, c => .ok c
  | m :: rest, location, c =>
    if !c.is_root_scope then .error (.err .UseOutsideGlobalScope location)
    else if !(module_exist m.symbol) then
      .error (.err (.NonexistentModule m.symbol) location)
    else
      match module_init m.symbol location c with
      | .error e => .error e
      | .ok c1 => use_loop rest location { c1 with modules := modules_insert c1.modules m.symbol }

/-- `Compiler::eval_call`.  The module registry is modelled as empty, so
    the `call` dispatch itself is unreachable; the `Debug`-formatted
    strings inside the two shape errors are not modelled. -/
def eval_call (c : Compiler) (function : Expression) (_args : List Expression) :
    Except CErr Compiler :=
  match function with
  | .mk (.Member object _property) floc =>
    match object.typ with
    | .Identifier symbol =>
      if c.modules.contains symbol then
        .error (.panicked "module call with empty registry")
      else
        .error (.err (.UnlodadedModule symbol) floc)
    | _ => .error (.err (.NonexistentModule "object") floc)
  | .mk _ floc => .error (.err (.UnknownMethod "function") floc)

def is_identifier_expr (e : Expression) : Bool :=
  match e.typ with
  | .Identifier _ => true
  | _ => false

def is_literal_expr (e : Expression) : Bool :=
  match e.typ with
  | .NumericLiteral _ => true
  | _ => false

mutual

/-- `Compiler::eval_statement`.  The fuel decreases on every recursive
    call; a successful result is fuel-independent above the first
    sufficient value. -/
def eval_statement : Nat → Expression → Compiler → Except CErr Compiler
  | 0, _, _ => .error (.panicked "out of fuel")
  | fuel + 1, .mk typ location, c =>
    match typ with
    | .InlineDeclaration ident value =>
      match try_eval_const c value with
      | .error loc => .error (.err .ForbiddenInline loc)
      | .ok v => .ok (insert_inline_var c ident.symbol v)
    | .Use modules => use_loop modules location c
    | .VarDeclaration ident =>
      match insert_var c ident.symbol location with
      | .error e => .error e
      | .ok (_, c1) => .ok c1
    | .Pass => .ok c
    | .EndlessLoop body =>
      let mark := scope_len c.global.instructions
      let idc := insert_jump_mark c
      let c2 := bind_jump_mark idc.2 idc.1 mark
      match push_scope fuel body ComputerState.default c2 with
      | .error e => .error e
      | .ok c3 =>
        match pop_scope c3 with
        | .error e => .error e
        | .ok c4 => .ok (push_instr c4 ⟨.JMP, some idc.1, location⟩)
    | .WhileLoop condition body =>
      match eval_condition condition with
      | .error e => .error e
      | .ok (left, right, operator) =>
        let sic := insert_jump_mark c
        let eic := insert_jump_mark sic.2
        match put_comparison fuel left right operator.opposite location eic.1 eic.2 with
        | .error e => .error e
        | .ok c3 =>
          let start := scope_len c3.global.instructions
          let c4 := bind_jump_mark c3 sic.1 start
          match push_scope fuel body c4.cur.state c4 with
          | .error e => .error e
          | .ok c5 =>
            match put_comparison fuel left right operator location sic.1 c5 with
            | .error e => .error e
            | .ok c6 =>
              match pop_scope c6 with
              | .error e => .error e
              | .ok c7 => .ok (bind_jump_mark c7 eic.1 (scope_len c7.global.instructions))
    | .Conditional condition body paths alternate =>
      eval_conditional fuel condition body paths alternate c
    | _ => eval_expr fuel (.mk typ location) c

/-- `Compiler::eval_conditional` (the Rust `Result<Result<_,_>,_>` nesting
    is always `Ok(Ok(()))` and is collapsed). -/
def eval_conditional (fuel : Nat) (condition : Expression) (body : List Expression)
    (paths : List (Expression × List Expression)) (alternate : Option (List Expression))
    (c : Compiler) : Except CErr Compiler :=
  match fuel with
  | 0 => .error (.panicked "out of fuel")
  | fuel + 1 =>
    let location := condition.location
    match eval_condition condition with
    | .error e => .error e
    | .ok (left, right, operator) =>
      let eic := insert_jump_mark c
      let nic := insert_jump_mark eic.2
      match put_comparison fuel left right operator.opposite location nic.1 nic.2 with
      | .error e => .error e
      | .ok c3 =>
        let last_state := c3.cur.state
        match push_scope fuel body last_state c3 with
        | .error e => .error e
        | .ok c4 =>
          let c5 := if !paths.isEmpty || alternate.isSome then
              push_instr c4 ⟨.JMP, some eic.1, location⟩
            else c4
          match pop_scope c5 with
          | .error e => .error e
          | .ok c6 =>
            let c7 := bind_jump_mark c6 nic.1 (scope_len c6.global.instructions)
            match cond_paths fuel paths eic.1 alternate.isSome last_state c7 with
            | .error e => .error e
            | .ok (last_state2, c8) =>
              match alternate with
              | some abody =>
                match push_scope fuel abody last_state2 c8 with
                | .error e => .error e
                | .ok c9 =>
                  match pop_scope c9 with
                  | .error e => .error e
                  | .ok c10 =>
                    .ok (bind_jump_mark c10 eic.1 (scope_len c10.global.instructions))
              | none => .ok (bind_jump_mark c8 eic.1 (scope_len c8.global.instructions))

/-- The `paths` loop of `eval_conditional`.  The Rust condition
    `index != path_len - 1 || alternate.is_some()` is rendered as
    `rest is nonempty or has_alt`; the running `last_state` is carried
    explicitly. -/
def cond_paths : Nat → List (Expression × List Expression) → Nat → Bool → ComputerState →
    Compiler → Except CErr (ComputerState × Compiler)
  | 0, _, _, _, _, _ => .error (.panicked "out of fuel")
  | _ + 1, [], _, _, last_state, c => .ok (last_state, c)
  | fuel + 1, (condition, body) :: rest, end_id, has_alt, _, c =>
    let location := condition.location
    match eval_condition condition with
    | .error e => .error e
    | .ok (left, right, operator) =>
      let nic := insert_jump_mark c
      match put_comparison fuel left right operator.opposite location nic.1 nic.2 with
      | .error e => .error e
      | .ok c2 =>
        let st := c2.cur.state
        match push_scope fuel body st c2 with
        | .error e => .error e
        | .ok c3 =>
          let c4 := if !rest.isEmpty || has_alt then
              push_instr c3 ⟨.JMP, some end_id, location⟩
            else c3
          match pop_scope c4 with
          | .error e => .error e
          | .ok c5 =>
            let c6 := bind_jump_mark c5 nic.1 (scope_len c5.global.instructions)
            cond_paths fuel rest end_id has_alt st c6

/-- `Compiler::push_scope`: push a fresh frame with the given state and
    evaluate the body statements in it (fail-fast), without popping. -/
def push_scope (fuel : Nat) (body : List Expression) (state : ComputerState)
    (c : Compiler) : Except CErr Compiler :=
  match fuel with
  | 0 => .error (.panicked "out of fuel")
  | fuel + 1 => run_body fuel body (push_frame c state)

/-- The `try_for_each` statement loop inside `push_scope`. -/
def run_body : Nat → List Expression → Compiler → Except CErr Compiler
  | 0, _, _ => .error (.panicked "out of fuel")
  | _ + 1, [], c => .ok c
  | fuel + 1, line :: rest, c =>
    match eval_statement fuel line c with
    | .error e => .error e
    | .ok c1 => run_body fuel rest c1

/-- `Compiler::put_comparison`: place the operands with `put_ab`, turn
    the operator around when they were swapped, and emit the
    conditional jump to `jump_to`. -/
def put_comparison (fuel : Nat) (left right : Expression) (operator : EqualityOperator)
    (location : Range) (jump_to : Nat) (c : Compiler) : Except CErr Compiler :=
  match fuel with
  | 0 => .error (.panicked "out of fuel")
  | fuel + 1 =>
    match put_ab fuel left right true c with
    | .error e => .error e
    | .ok (swapped, c1) =>
      let op := if swapped then operator.turnaround else operator
      .ok (push_instr c1 ⟨InstructionVariant.from_op op, some jump_to, location⟩)

/-- `Compiler::eval_expr`. -/
def eval_expr : Nat → Expression → Compiler → Except CErr Compiler
  | 0, _, _ => .error (.panicked "out of fuel")
  | fuel + 1, .mk typ location, c =>
    match typ with
    | .NumericLiteral v => put_into_a fuel (.mk (.NumericLiteral v) location) c
    | .Identifier s => put_into_a fuel (.mk (.Identifier s) location) c
    | .BinaryExpr left right operator => eval_binary_expr fuel left right operator location c
    | .Assignment ident value => eval_assignment fuel ident.symbol value c
    | .IAssignment ident value operator => eval_iassignment fuel ident value operator c
    | .Call function args => eval_call c function args
    | .EqExpr _ _ _ => .error (.err .EqInNormalExpr location)
    | .Debug => .ok (push_instr c ⟨.LAL, some 17, location⟩)
    | .Member _ _ => .error (.err .NoConstants location)
    | _ => .error (.panicked "unsupported expression")

/-- `Compiler::eval_binary_expr`. -/
def eval_binary_expr (fuel : Nat) (left right : Expression) (operator : Operator)
    (location : Range) (c : Compiler) : Except CErr Compiler :=
  match fuel with
  | 0 => .error (.panicked "out of fuel")
  | fuel + 1 =>
    match put_ab fuel left right operator.is_commutative c with
    | .error e => .error e
    | .ok (_, c1) => .ok (put_op c1 operator location)

/-- `Compiler::put_ab`: arrange `left` in A and `right` in B, possibly
    swapped for a commutative operator; returns whether they were
    swapped. -/
def put_ab : Nat → Expression → Expression → Bool → Compiler → Except CErr (Bool × Compiler)
  | 0, _, _, _, _ => .error (.panicked "out of fuel")
  | fuel + 1, left, right, is_commutative, c =>
    match can_put_into_a left, can_put_into_b right with
    | true, true =>
      if is_commutative && (is_in_a c right || is_in_b c left ||
          (is_identifier_expr right && is_literal_expr left)) then
        match put_into_a fuel right c with
        | .error e => .error e
        | .ok c1 =>
          match put_into_b c1 left with
          | .error e => .error e
          | .ok c2 => .ok (true, c2)
      else
        match put_into_a fuel left c with
        | .error e => .error e
        | .ok c1 =>
          match put_into_b c1 right with
          | .error e => .error e
          | .ok c2 => .ok (false, c2)
    | true, false =>
      match eval_expr fuel right c with
      | .error e => .error e
      | .ok c1 =>
        if is_commutative && can_put_into_b left then
          match put_into_b c1 left with
          | .error e => .error e
          | .ok c2 => .ok (true, c2)
        else
          let step : Except CErr Compiler :=
            match right with
            | .mk (.Assignment ident _) rloc =>
              match get_var c1 ident.symbol Range.default with
              | .ok v => .ok (push_instr c1 ⟨.LB, some v, rloc⟩)
              | .error _ => .error (.panicked "unwrap on get_var")
            | _ => switch c1 left.location
          match step with
          | .error e => .error e
          | .ok c2 =>
            match put_into_a fuel left c2 with
            | .error e => .error e
            | .ok c3 => .ok (false, c3)
    | false, true =>
      match eval_expr fuel left c with
      | .error e => .error e
      | .ok c1 =>
        match put_into_b c1 right with
        | .error e => .error e
        | .ok c2 => .ok (false, c2)
    | false, false =>
      match eval_expr fuel right c with
      | .error e => .error e
      | .ok c1 =>
        match right with
        | .mk (.Assignment ident _) rloc =>
          match eval_expr fuel left c1 with
          | .error e => .error e
          | .ok c2 =>
            match get_var c2 ident.symbol Range.default with
            | .ok v => .ok (false, push_instr c2 ⟨.LB, some v, rloc⟩)
            | .error _ => .error (.panicked "unwrap on get_var")
        | _ =>
          match insert_temp_var c1 left.location with
          | .error e => .error e
          | .ok (temp, c2) =>
            let c3 := push_instr c2 ⟨.SVA, some temp, left.location⟩
            match eval_expr fuel left c3 with
            | .error e => .error e
            | .ok c4 =>
              let c5 := push_instr c4 ⟨.LB, some temp, left.location⟩
              .ok (false, cleanup_temp_var c5 temp)

/-- `Compiler::eval_assignment`. -/
def eval_assignment (fuel : Nat) (symbol : String) (value : Expression)
    (c : Compiler) : Except CErr Compiler :=
  match fuel with
  | 0 => .error (.panicked "out of fuel")
  | fuel + 1 =>
    match eval_expr fuel value c with
    | .error e => .error e
    | .ok c1 =>
      match insert_var c1 symbol value.location with
      | .error e => .error e
      | .ok (slot, c2) => .ok (push_instr c2 ⟨.SVA, some slot, value.location⟩)

/-- `Compiler::eval_iassignment`. -/
def eval_iassignment (fuel : Nat) (ident : Ident) (value : Expression)
    (operator : Operator) (c : Compiler) : Except CErr Compiler :=
  match fuel with
  | 0 => .error (.panicked "out of fuel")
  | fuel + 1 =>
    match eval_expr fuel value c with
    | .error e => .error e
    | .ok c1 =>
      match put_into_b c1 (.mk (.Identifier ident.symbol) value.location) with
      | .error e => .error e
      | .ok c2 =>
        let c3 := put_op c2 operator value.location
        match get_var c3 ident.symbol value.location with
        | .error e => .error e
        | .ok slot => .ok (save_to c3 slot value.location)

/-- `Compiler::put_into_a`: a literal, identifier or puttable assignment
    into register A, eliding the load when A already tracks it. -/
def put_into_a : Nat → Expression → Compiler → Except CErr Compiler
  | 0, _, _ => .error (.panicked "out of fuel")
  | fuel + 1, e, c =>
    match e with
    | .mk (.NumericLiteral value) location => .ok (put_a_number c value location)
    | .mk (.Identifier symbol) location =>
      match get_inline_var c symbol location with
      | .ok value => .ok (put_a_number c value location)
      | .error _ =>
        match get_var c symbol location with
        | .error e2 => .error e2
        | .ok var =>
          if c.cur.state.a = .Variable var then .ok c
          else .ok (push_instr c ⟨.LA, some var, location⟩)
    | .mk (.Assignment _ _) location =>
      if can_put_into_a e then eval_expr fuel e c
      else .error (.err (.SomethingElseWentWrong "put_a") location)
    | .mk _ location =>
      .error (.err (.SomethingElseWentWrong "put_a called on wrong expression") location)

end

/-- The statement loop of `Compiler::generate_assembly`: evaluate every
    top-level statement, collecting the surfaced errors; a panic aborts.
    On a statement error the Rust compiler keeps the partially mutated
    state; since any error aborts compilation, the claims here quantify
    only over runs whose error list is empty, where both renderings
    agree, and the partial state is not modelled. -/
def run_statements : Nat → List Expression → Compiler →
    Except String (List (ErrType × Range) × Compiler)
  | 0, _, _ => .error "out of fuel"
  | _ + 1, [], c => .ok ([], c)
  | fuel + 1, line :: rest, c =>
    match eval_statement fuel line c with
    | .ok c1 =>
      match run_statements fuel rest c1 with
      | .error s => .error s
      | .ok (errs, c2) => .ok (errs, c2)
    | .error (.err t r) =>
      match run_statements fuel rest c with
      | .error s => .error s
      | .ok (errs, c2) => .ok ((t, r) :: errs, c2)
    | .error (.panicked s) => .error s

mutual

/-- Depth-first flattening of one `Instr`. -/
def instr_flatten : Instr → List Instruction
  | .code i => [i]
  | .scope s => flatten_scope s

/-- `Compiler::flatten_scope`: depth-first flattening of the instruction
    trees into a flat instruction vector. -/
def flatten_scope : List Instr → List Instruction
  | [] => []
  | i :: rest => instr_flatten i ++ flatten_scope rest

end

/-- `Compiler::move_jump_marks`: add `by` (with `u8` wrap) to every mark
    value at or above `from`. -/
def move_jump_marks (marks : Marks) (frm : Nat) (by_ : Nat) : Marks :=
  marks.map (fun kv => if kv.2 ≥ frm then (kv.1, (kv.2 + by_) % 256) else kv)

/-- One left-to-right sweep of the `while i < instructions.len()` loop in
    `Compiler::insert_disc_jumps`, carried out from absolute index `i`.
    A plain jump whose page (`i / 64`) differs from its target's page
    (`marks[mark] / 64`, the mark value being a `u8`) is rewritten to its
    discontinuous variant with an `LCL target_page` inserted before it,
    and marks at or above the insertion index (taken `as u8`) are shifted;
    the sweep then continues after the rewritten jump.  Returns the new
    instructions, the new marks and whether anything changed.  The two
    `expect`s are panics. -/
def disc_pass : Nat → Marks → List Instruction → Except String (List Instruction × Marks × Bool)
  | _, marks, [] => .ok ([], marks, false)
  | i, marks, instr :: rest =>
    if instr.variant.is_jump && !instr.variant.disc_jump then
      match instr.arg with
      | none => .error "Jump instruction doesn't have arg"
      | some mark =>
        match mlookup marks mark with
        | none => .error "Invalid jump mark"
        | some target =>
          if i / 64 ≠ target / 64 then
            let moved := move_jump_marks marks (i % 256) 1
            let lcl : Instruction := ⟨.LCL, some (target / 64), instr.orig_location⟩
            let instr2 : Instruction := { instr with variant := instr.variant.to_disc_jump }
            match disc_pass (i + 2) moved rest with
            | .error s => .error s
            | .ok (rest2, marks2, _) => .ok (lcl :: instr2 :: rest2, marks2, true)
          else
            match disc_pass (i + 1) marks rest with
            | .error s => .error s
            | .ok (rest2, marks2, changed) => .ok (instr :: rest2, marks2, changed)
    else
      match disc_pass (i + 1) marks rest with
      | .error s => .error s
      | .ok (rest2, marks2, changed) => .ok (instr :: rest2, marks2, changed)

/-- `Compiler::insert_disc_jumps`: iterate `disc_pass` to a fixed point.
    The Rust `loop` carries no fuel; fuel exhaustion is an explicit
    failure, so a successful result is a real fixed point. -/
def insert_disc_jumps : Nat → List Instruction → Marks → Except String (List Instruction × Marks)
  | 0, _, _ => .error "out of fuel"
  | fuel + 1, instructions, marks =>
    match disc_pass 0 marks instructions with
    | .error s => .error s
    | .ok (instructions2, marks2, true) => insert_disc_jumps fuel instructions2 marks2
    | .ok (instructions2, marks2, false) => .ok (instructions2, marks2)

/-- `Compiler::replace_jump_marks`: replace every jump's mark id by the
    mark's resolved index; the `expect`s are panics. -/
def replace_jump_marks : List Instruction → Marks → Except String (List Instruction)
  | [], _ => .ok []
  | instr :: rest, marks =>
    if instr.variant.is_jump then
      match instr.arg with
      | none => .error "jump does not have arg"
      | some mark =>
        match mlookup marks mark with
        | none => .error "Invalid jump mark"
        | some v =>
          match replace_jump_marks rest marks with
          | .error s => .error s
          | .ok rest2 => .ok ({ instr with arg := some v } :: rest2)
    else
      match replace_jump_marks rest marks with
      | .error s => .error s
      | .ok rest2 => .ok (instr :: rest2)

/-- `Compiler::get_instructions`: push the detached global scope into
    `main_scope`, flatten, insert page jumps, resolve marks. -/
def get_instructions (fuel : Nat) (c : Compiler) : Except String (List Instruction) :=
  match insert_disc_jumps fuel
      (flatten_scope (c.main_scope ++ [Instr.scope c.global.instructions])) c.jump_marks with
  | .error s => .error s
  | .ok (instructions2, marks2) => replace_jump_marks instructions2 marks2

/-- Result of `compile_program`: instructions, a surfaced error list, or
    a panic. -/
inductive CompileResult where
  | ok : List Instruction → CompileResult
  | errs : List (ErrType × Range) → CompileResult
  | panicked : String → CompileResult
deriving DecidableEq

/-- `compile_program` / `Compiler::generate_assembly`. -/
def compile_program (fuel : Nat) (ast : List Expression) : CompileResult :=
  match run_statements fuel ast Compiler.new with
  | .error s => .panicked s
  | .ok (errs, c) =>
    if errs.isEmpty then
      match get_instructions fuel c with
      | .error s => .panicked s
      | .ok instructions => .ok instructions
    else .errs errs

/-! The front-end parser (src/Rust/redstone_compiler/src/frontend/parser.rs).
    The token deque is threaded explicitly; `self.eat()` / `self.at()` on an
    exhausted deque is the panic `Eof before Stream ends`. -/

/-- Token kinds (frontend `TokenType`). -/
inductive TokenType where
  | Identifier : String → TokenType
  | Number : Int → TokenType
  | Inline | If | Elif | Else | End | Pass | Use | Var | Forever | While | Debug
  | BinaryOperator : Operator → TokenType
  | IOperator : Operator → TokenType
  | EqOperator : EqualityOperator → TokenType
  | Equals | Dot | Comma | OpenParen | OpenFuncParen | CloseParen | Eof
deriving DecidableEq

/-- A token with its source range (frontend `Token`). -/
structure Token where
  typ : TokenType
  location : Range
deriving DecidableEq

/-- Result of running a parse function on a token deque: success and
    remaining tokens, a surfaced error (tokens consumed so far stay
    consumed, as with the mutated Rust deque), or a panic. -/
inductive PRes (α : Type) where
  | ok : α → List Token → PRes α
  | fail : ErrType → Range → List Token → PRes α
  | panicked : String → PRes α

/-- A parse computation over the token deque. -/
def PM (α : Type) : Type := List Token → PRes α

def PM.pure {α : Type} (a : α) : PM α := fun ts => .ok a ts

def PM.bind {α β : Type} (x : PM α) (f : α → PM β) : PM β := fun ts =>
  match x ts with
  | .ok a ts2 => f a ts2
  | .fail e r ts2 => .fail e r ts2
  | .panicked s => .panicked s

instance : Monad PM where
  pure := PM.pure
  bind := PM.bind

/-- Surface a parser error (the `err!` macro). -/
def pfail {α : Type} (e : ErrType) (r : Range) : PM α := fun ts => .fail e r ts

/-- `Parser::eat`: pop the front token; panics when the deque is empty. -/
def eat_tok : PM Token
  | [] => .panicked "Eof before Stream ends"
  | t :: rest => .ok t rest

/-- `Parser::at`: peek at the front token; panics when the deque is
    empty. -/
def at_tok : PM Token
  | [] => .panicked "Eof before Stream ends"
  | t :: rest => .ok t (t :: rest)

/-- `Parser::eat_if`: eat and validate; the error carries the token's own
    location. -/
def eat_if (validator : TokenType → Bool) (e : ErrType) : PM Token
  | [] => .panicked "Eof before Stream ends"
  | t :: rest => if validator t.typ then .ok t rest else .fail e t.location rest

/-- `Parser::eat_if_or`: eat and validate; the error carries the given
    location. -/
def eat_if_or (validator : TokenType → Bool) (e : ErrType) (location : Range) : PM Token
  | [] => .panicked "Eof before Stream ends"
  | t :: rest => if validator t.typ then .ok t rest else .fail e location rest

/-- `Parser::parse_var_declaration`. -/
def parse_var_declaration : PM Expression := do
  let tok ← eat_tok
  let t ← eat_tok
  match t.typ with
  | .Identifier symbol =>
    pure (.mk (.VarDeclaration ⟨symbol, t.location⟩) (tok.location.add t.location))
  | _ => pfail .InvalidDeclartion t.location

/-- The dotted-path loop of `Parser::parse_use_statement`. -/
def use_dots : Nat → PM (List Ident)
  | 0 => fun _ => .panicked "out of fuel"
  | fuel + 1 => do
    let t ← at_tok
    if t.typ == .Dot then do
      let _ ← eat_tok
      let t2 ← eat_tok
      match t2.typ with
      | .Identifier s => do
        let rest ← use_dots fuel
        pure (⟨s, t2.location⟩ :: rest)
      | _ => pfail .InvalidModuleName t2.location
    else pure []

/-- `Parser::parse_use_statement`. -/
def parse_use_statement (fuel : Nat) : PM Expression := do
  let tok ← eat_tok
  let t ← eat_tok
  match t.typ with
  | .Identifier symbol => do
    let rest ← use_dots fuel
    let imports := (⟨symbol, t.location⟩ : Ident) :: rest
    pure (.mk (.Use imports) (tok.location.add (imports.getLastD ⟨symbol, t.location⟩).location))
  | _ => pfail .InvalidModuleName t.location

mutual

/-- `Parser::parse_statement`. -/
def parse_statement : Nat → PM Expression
  | 0 => fun _ => .panicked "out of fuel"
  | fuel + 1 => do
    let current ← at_tok
    match current.typ with
    | .Inline => parse_inline_declaration fuel
    | .If => parse_conditional fuel
    | .Pass => do
      let token ← eat_tok
      pure (.mk .Pass token.location)
    | .Use => parse_use_statement fuel
    | .Var => parse_var_declaration
    | .Forever => parse_endless fuel
    | .While => parse_while fuel
    | _ => parse_expression fuel

/-- `Parser::parse_conditional`.  Note that the branch loop fires on
    `Elif` and also on `Eof`. -/
def parse_conditional : Nat → PM Expression
  | 0 => fun _ => .panicked "out of fuel"
  | fuel + 1 => do
    let tok ← eat_tok
    let start := tok.location
    let first ← parse_conditional_branch fuel
    let paths ← elif_loop fuel
    let alternate ← else_part fuel start
    let endTok ← eat_if_or (fun ty => ty == .End) .MissingEnd start
    pure (.mk (.Conditional first.1 first.2 paths alternate) (start.add endTok.location))

/-- The `while matches!(self.at().typ, Elif | Eof)` loop of
    `parse_conditional`. -/
def elif_loop : Nat → PM (List (Expression × List Expression))
  | 0 => fun _ => .panicked "out of fuel"
  | fuel + 1 => do
    let t ← at_tok
    if t.typ == .Elif || t.typ == .Eof then do
      let _ ← eat_tok
      let branch ← parse_conditional_branch fuel
      let rest ← elif_loop fuel
      pure (branch :: rest)
    else pure []

/-- The `else` arm of `parse_conditional`. -/
def else_part : Nat → Range → PM (Option (List Expression))
  | 0, _ => fun _ => .panicked "out of fuel"
  | fuel + 1, start => do
    let t ← at_tok
    if t.typ == .Else then do
      let _ ← eat_tok
      let body ← block_body_loop fuel
      let t2 ← at_tok
      if body.isEmpty then pfail .EmptyBlock (start.add t2.location)
      else pure (some body)
    else pure none

/-- `Parser::parse_conditional_branch`. -/
def parse_conditional_branch : Nat → PM (Expression × List Expression)
  | 0 => fun _ => .panicked "out of fuel"
  | fuel + 1 => do
    let condition ← parse_expression fuel
    let startTok ← at_tok
    let body ← branch_body_loop fuel
    let endTok ← at_tok
    if body.isEmpty then pfail .EmptyBlock (startTok.location.add endTok.location)
    else pure (condition, body)

/-- The statement loop of `parse_conditional_branch`, stopping at
    `Elif`, `Else`, `End` or `Eof`. -/
def branch_body_loop : Nat → PM (List Expression)
  | 0 => fun _ => .panicked "out of fuel"
  | fuel + 1 => do
    let t ← at_tok
    match t.typ with
    | .Elif | .Else | .End | .Eof => pure []
    | _ => do
      let e ← parse_statement fuel
      let rest ← branch_body_loop fuel
      pure (e :: rest)

/-- The statement loop of `parse_endless`, `parse_while` and the `else`
    arm, stopping at `End` or `Eof`. -/
def block_body_loop : Nat → PM (List Expression)
  | 0 => fun _ => .panicked "out of fuel"
  | fuel + 1 => do
    let t ← at_tok
    match t.typ with
    | .End | .Eof => pure []
    | _ => do
      let e ← parse_statement fuel
      let rest ← block_body_loop fuel
      pure (e :: rest)

/-- `Parser::parse_endless`. -/
def parse_endless : Nat → PM Expression
  | 0 => fun _ => .panicked "out of fuel"
  | fuel + 1 => do
    let tok ← eat_tok
    let start := tok.location
    let body ← block_body_loop fuel
    let endTok ← eat_if_or (fun ty => ty == .End) .MissingEnd start
    if body.isEmpty then do
      let t ← at_tok
      pfail .EmptyBlock (start.add t.location)
    else pure (.mk (.EndlessLoop body) (start.add endTok.location))

/-- `Parser::parse_while`. -/
def parse_while : Nat → PM Expression
  | 0 => fun _ => .panicked "out of fuel"
  | fuel + 1 => do
    let tok ← eat_tok
    let start := tok.location
    let condition ← parse_expression fuel
    let body ← block_body_loop fuel
    let endTok ← eat_if_or (fun ty => ty == .End) .MissingEnd start
    if body.isEmpty then do
      let t ← at_tok
      pfail .EmptyBlock (start.add t.location)
    else pure (.mk (.WhileLoop condition body) (start.add endTok.location))

/-- `Parser::parse_inline_declaration`. -/
def parse_inline_declaration : Nat → PM Expression
  | 0 => fun _ => .panicked "out of fuel"
  | fuel + 1 => do
    let tok ← eat_tok
    let start := tok.location
    let t ← eat_tok
    match t.typ with
    | .Identifier ident => do
      let _ ← eat_if (fun ty => ty == .Equals) .MissingEquals
      let value ← parse_expression fuel
      pure (.mk (.InlineDeclaration ⟨ident, t.location⟩ value) (start.add value.location))
    | _ => pfail .InvalidAssignment t.location

/-- `Parser::parse_expression`. -/
def parse_expression : Nat → PM Expression
  | 0 => fun _ => .panicked "out of fuel"
  | fuel + 1 => parse_assignment fuel

/-- `Parser::parse_assignment`. -/
def parse_assignment : Nat → PM Expression
  | 0 => fun _ => .panicked "out of fuel"
  | fuel + 1 => do
    let left ← parse_i_assignment fuel
    let t ← at_tok
    if t.typ == .Equals then
      match left with
      | .mk (.Identifier name) lloc => do
        let _ ← eat_tok
        let value ← parse_assignment fuel
        pure (.mk (.Assignment ⟨name, lloc⟩ value) (lloc.add value.location))
      | _ => pfail .InvalidAssignment t.location
    else pure left

/-- `Parser::parse_i_assignment`. -/
def parse_i_assignment : Nat → PM Expression
  | 0 => fun _ => .panicked "out of fuel"
  | fuel + 1 => do
    let left ← parse_eq_expression fuel
    let t ← at_tok
    match t.typ with
    | .IOperator operator =>
      match left with
      | .mk (.Identifier name) lloc => do
        let _ ← eat_tok
        let value ← parse_i_assignment fuel
        pure (.mk (.IAssignment ⟨name, lloc⟩ value operator) (lloc.add value.location))
      | _ => pfail .InvalidAssignment left.location
    | _ => pure left

/-- `Parser::parse_eq_expression`. -/
def parse_eq_expression : Nat → PM Expression
  | 0 => fun _ => .panicked "out of fuel"
  | fuel + 1 => do
    let left ← parse_additive fuel
    eq_loop fuel left

/-- The chaining loop of `parse_eq_expression`. -/
def eq_loop : Nat → Expression → PM Expression
  | 0, _ => fun _ => .panicked "out of fuel"
  | fuel + 1, left => do
    let t ← at_tok
    match t.typ with
    | .EqOperator operator => do
      let _ ← eat_tok
      let right ← parse_additive fuel
      eq_loop fuel (.mk (.EqExpr left right operator) (left.location.add right.location))
    | _ => pure left

/-- `Parser::parse_additive`. -/
def parse_additive : Nat → PM Expression
  | 0 => fun _ => .panicked "out of fuel"
  | fuel + 1 => do
    let left ← parse_multiplicative fuel
    additive_loop fuel left

/-- The chaining loop of `parse_additive` (`Plus`/`Minus` only). -/
def additive_loop : Nat → Expression → PM Expression
  | 0, _ => fun _ => .panicked "out of fuel"
  | fuel + 1, left => do
    let t ← at_tok
    match t.typ with
    | .BinaryOperator operator =>
      if operator == .Plus || operator == .Minus then do
        let _ ← eat_tok
        let right ← parse_multiplicative fuel
        additive_loop fuel (.mk (.BinaryExpr left right operator) (left.location.add right.location))
      else pure left
    | _ => pure left

/-- `Parser::parse_multiplicative`. -/
def parse_multiplicative : Nat → PM Expression
  | 0 => fun _ => .panicked "out of fuel"
  | fuel + 1 => do
    let left ← parse_call_member fuel
    multiplicative_loop fuel left

/-- The chaining loop of `parse_multiplicative` (`Mult` only). -/
def multiplicative_loop : Nat → Expression → PM Expression
  | 0, _ => fun _ => .panicked "out of fuel"
  | fuel + 1, left => do
    let t ← at_tok
    match t.typ with
    | .BinaryOperator operator =>
      if operator == .Mult then do
        let _ ← eat_tok
        let right ← parse_call_member fuel
        multiplicative_loop fuel (.mk (.BinaryExpr left right operator) (left.location.add right.location))
      else pure left
    | _ => pure left

/-- `Parser::parse_call_member`. -/
def parse_call_member : Nat → PM Expression
  | 0 => fun _ => .panicked "out of fuel"
  | fuel + 1 => do
    let member ← parse_member fuel
    let t ← at_tok
    if t.typ == .OpenFuncParen then parse_call fuel member
    else pure member

/-- `Parser::parse_call`. -/
def parse_call : Nat → Expression → PM Expression
  | 0, _ => fun _ => .panicked "out of fuel"
  | fuel + 1, caller => do
    let ae ← parse_args fuel
    let t ← at_tok
    if t.typ == .OpenFuncParen then pfail .FunctionChaining t.location
    else pure (.mk (.Call caller ae.1) (caller.location.add ae.2))

/-- `Parser::parse_args`. -/
def parse_args : Nat → PM (List Expression × Range)
  | 0 => fun _ => .panicked "out of fuel"
  | fuel + 1 => do
    let startTok ← eat_if (fun ty => ty == .OpenFuncParen) .MissingOpenParen
    let t ← at_tok
    let args ← if t.typ == .CloseParen then pure [] else parse_arguments_list fuel
    let endTok ← eat_if (fun ty => ty == .CloseParen) .MissingClosingParen
    pure (args, startTok.location.add endTok.location)

/-- `Parser::parse_arguments_list`. -/
def parse_arguments_list : Nat → PM (List Expression)
  | 0 => fun _ => .panicked "out of fuel"
  | fuel + 1 => do
    let first ← parse_expression fuel
    let rest ← args_loop fuel
    pure (first :: rest)

/-- The comma loop of `parse_arguments_list`. -/
def args_loop : Nat → PM (List Expression)
  | 0 => fun _ => .panicked "out of fuel"
  | fuel + 1 => do
    let t ← at_tok
    if t.typ == .Comma then do
      let _ ← eat_tok
      let e ← parse_expression fuel
      let rest ← args_loop fuel
      pure (e :: rest)
    else pure []

/-- `Parser::parse_member`. -/
def parse_member : Nat → PM Expression
  | 0 => fun _ => .panicked "out of fuel"
  | fuel + 1 => do
    let object ← parse_primary fuel
    member_loop fuel object

/-- The dot loop of `parse_member`. -/
def member_loop : Nat → Expression → PM Expression
  | 0, _ => fun _ => .panicked "out of fuel"
  | fuel + 1, object => do
    let t ← at_tok
    if t.typ == .Dot then do
      let dotTok ← eat_tok
      let property ← parse_primary fuel
      match property with
      | .mk (.Identifier name) ploc =>
        member_loop fuel (.mk (.Member object ⟨name, ploc⟩) (object.location.add ploc))
      | _ => pfail .InvalidDot dotTok.location
    else pure object

/-- `Parser::parse_primary`. -/
def parse_primary : Nat → PM Expression
  | 0 => fun _ => .panicked "out of fuel"
  | fuel + 1 => do
    let token ← eat_tok
    match token.typ with
    | .Identifier name => pure (.mk (.Identifier name) token.location)
    | .Number value => pure (.mk (.NumericLiteral value) token.location)
    | .Debug => pure (.mk .Debug token.location)
    | .OpenParen => do
      let value ← parse_expression fuel
      let _ ← eat_if (fun ty => ty == .CloseParen) .ExpectedParen
      pure value
    | .Eof => pfail .Eof token.location
    | _ => pfail .UnexpectedOther token.location

end

/-- Result of `Parser::produce_ast`. -/
inductive ParseResult where
  | ok : List Expression → ParseResult
  | errs : List (ErrType × Range) → ParseResult
  | panicked : String → ParseResult

/-- The statement loop of `Parser::produce_ast`: parse statements while
    the deque is nonempty and not at `Eof`, collecting errors and
    continuing after each. -/
def produce_ast_loop : Nat → List Token → List Expression → List (ErrType × Range) →
    Except String (List Expression × List (ErrType × Range))
  | 0, _, _, _ => .error "out of fuel"
  | _ + 1, [], body, errors => .ok (body, errors)
  | fuel + 1, t :: rest, body, errors =>
    if t.typ = .Eof then .ok (body, errors)
    else
      match parse_statement fuel (t :: rest) with
      | .ok e ts2 => produce_ast_loop fuel ts2 (body ++ [e]) errors
      | .fail et r ts2 => produce_ast_loop fuel ts2 body (errors ++ [(et, r)])
      | .panicked s => .error s

/-- `Parser::produce_ast`. -/
def produce_ast (fuel : Nat) (tokens : List Token) : ParseResult :=
  match produce_ast_loop fuel tokens [] [] with
  | .error s => .panicked s
  | .ok (body, []) => .ok body
  | .ok (_, e :: es) => .errs (e :: es)

/-! Concrete programs used by several claims. -/

def rdef : Range := Range.default

def elit (n : Int) : Expression := .mk (.NumericLiteral n) rdef

def eid (s : String) : Expression := .mk (.Identifier s) rdef

def edebug : Expression := .mk .Debug rdef

/-- The AST of `var a; var b; a = 1; b = 2; a = a + b`. -/
def prog_scenario3 : List Expression :=
  [.mk (.VarDeclaration ⟨"a", rdef⟩) rdef,
   .mk (.VarDeclaration ⟨"b", rdef⟩) rdef,
   .mk (.Assignment ⟨"a", rdef⟩ (elit 1)) rdef,
   .mk (.Assignment ⟨"b", rdef⟩ (elit 2)) rdef,
   .mk (.Assignment ⟨"a", rdef⟩ (.mk (.BinaryExpr (eid "a") (eid "b") .Plus) rdef)) rdef]

/-- The slots bound to `a` and `b` after compiling `prog_scenario3`. -/
def prog3_slots : Option Nat × Option Nat :=
  match run_statements 1000 prog_scenario3 Compiler.new with
  | .ok (_, c) => (get_var_noerror c "a", get_var_noerror c "b")
  | .error _ => (none, none)

/-- The AST of `if 1 == 2 debug end`. -/
def prog_if_debug : List Expression :=
  [.mk (.Conditional (.mk (.EqExpr (elit 1) (elit 2) .EqualTo) rdef) [edebug] [] none) rdef]

/-- The AST of `if 1 == 2 <124 debug statements> end`: the conditional
    jump's resolved target (127 before the page pass) sits on the last
    index of page 1. -/
def prog_if_page : List Expression :=
  [.mk (.Conditional (.mk (.EqExpr (elit 1) (elit 2) .EqualTo) rdef)
      (List.replicate 124 edebug) [] none) rdef]

/-- The final stream of `prog_if_page`, when compilation succeeds. -/
def c5_output : Option (List Instruction) :=
  match compile_program 2000 prog_if_page with
  | .ok l => some l
  | _ => none

/-- The token stream of `if 1 == 1 pass` with no `end` (unterminated
    conditional, branch body ended by `Eof`). -/
def c8_tokens : List Token :=
  [⟨.If, rdef⟩, ⟨.Number 1, rdef⟩, ⟨.EqOperator .EqualTo, rdef⟩, ⟨.Number 1, rdef⟩,
   ⟨.Pass, rdef⟩, ⟨.Eof, rdef⟩]

/-- Integer denotation of the three arithmetic operators, used to state
    the constant-folding claim. -/
def arith_denote : Operator → Int → Int → Int
  | .Plus, a, b => a + b
  | .Minus, a, b => a - b
  | .Mult, a, b => a * b
  | _, _, _ => 0

/-- Looking up a key right after inserting it yields the inserted
    value. -/
theorem alookup_ainsert_self {α : Type} (l : List (String × α)) (k : String) (v : α) :
    alookup (ainsert l k v) k = some v := by
  unfold ainsert
  by_cases h : l.any (fun p => p.1 == k)
  · simp only [h, if_true]
    induction l with
    | nil => simp at h
    | cons hd tl ih =>
      by_cases hhd : hd.1 == k
      · simp [alookup, hhd]
      · simp only [List.any_cons, Bool.or_eq_true] at h
        rcases h with h | h
        · exact absurd h (by simp [hhd])
        · simpa [alookup, hhd] using ih h
  · simp only [h, if_false]
    induction l with
    | nil => simp [alookup]
    | cons hd tl ih =>
      simp only [List.any_cons, Bool.or_eq_true, not_or] at h
      simp only [List.cons_append, alookup, Bool.not_eq_true] at *
      rw [if_neg]
      · exact ih h.2
      · simp [h.1]

/-! Bitmap and jump-mark helper lemmas for the compiler invariants. -/

theorem getD_set_false_self : ∀ (l : List Bool) (i : Nat), (l.set i false).getD i false = false := by
  intro l
  induction l with
  | nil => intro i; simp [List.set]
  | cons hd tl ih =>
    intro i
    cases i with
    | zero => simp [List.set, List.getD]
    | succ j => simpa [List.set, List.getD] using ih j

theorem getD_set_true_self : ∀ (l : List Bool) (i : Nat), i < l.length →
    (l.set i true).getD i false = true := by
  intro l
  induction l with
  | nil => intro i h; simp at h
  | cons hd tl ih =>
    intro i h
    cases i with
    | zero => simp [List.set, List.getD]
    | succ j =>
      simp only [List.length_cons, Nat.succ_lt_succ_iff] at h
      simpa [List.set, List.getD] using ih j h

theorem getD_set_ne : ∀ (l : List Bool) (i j : Nat) (v : Bool), i ≠ j →
    (l.set i v).getD j false = l.getD j false := by
  intro l
  induction l with
  | nil => intro i j v _; simp [List.set]
  | cons hd tl ih =>
    intro i j v hne
    cases i with
    | zero =>
      cases j with
      | zero => exact absurd rfl hne
      | succ j2 => simp [List.set, List.getD]
    | succ i2 =>
      cases j with
      | zero => simp [List.set, List.getD]
      | succ j2 =>
        simpa [List.set, List.getD] using ih i2 j2 v (fun hc => hne (by rw [hc]))

theorem getD_false_of_ge : ∀ (l : List Bool) (i : Nat), l.length ≤ i → l.getD i false = false := by
  intro l
  induction l with
  | nil => intro i _; simp [List.getD]
  | cons hd tl ih =>
    intro i h
    cases i with
    | zero => simp at h
    | succ j =>
      simp only [List.length_cons, Nat.succ_le_succ_iff] at h
      simpa [List.getD] using ih j h

theorem getD_replicate_false : ∀ (n i : Nat), (List.replicate n false).getD i false = false := by
  intro n
  induction n with
  | zero => intro i; simp [List.getD]
  | succ m ih =>
    intro i
    cases i with
    | zero => simp [List.replicate, List.getD]
    | succ j => simpa [List.replicate, List.getD] using ih j

/-- The lowest set (`true`) slot can be cleared, decrementing the count
    of `true` entries by one. -/
theorem count_set_false : ∀ (l : List Bool) (i : Nat), i < l.length →
    l.getD i false = true → l.count true = (l.set i false).count true + 1 := by
  intro l
  induction l with
  | nil => intro i h; simp at h
  | cons hd tl ih =>
    intro i h hv
    cases i with
    | zero =>
      simp only [List.getD, List.getElem?_cons_zero, Option.getD_some] at hv
      subst hv
      simp [List.set, List.count_cons]
    | succ j =>
      simp only [List.length_cons, Nat.succ_lt_succ_iff] at h
      simp only [List.getD, List.getElem?_cons_succ] at hv
      have := ih j h (by simpa [List.getD] using hv)
      simp only [List.set, List.count_cons]
      omega

/-- Clearing a set of slots leaves exactly the slots outside it. -/
theorem getD_clear_many :
    ∀ (L : List (String × Nat)) (bm : List Bool) (i : Nat),
      (L.foldl (fun b kv => b.set kv.2 false) bm).getD i false
        = if i ∈ L.map (fun kv => kv.2) then false else bm.getD i false := by
  intro L
  induction L with
  | nil => intro bm i; simp
  | cons hd tl ih =>
    intro bm i
    simp only [List.foldl_cons, List.map_cons, List.mem_cons]
    rw [ih]
    by_cases hmem : i ∈ tl.map (fun kv => kv.2)
    · rw [if_pos hmem, if_pos (Or.inr hmem)]
    · rw [if_neg hmem]
      by_cases hhd : i = hd.2
      · rw [if_pos (Or.inl hhd), hhd]
        exact getD_set_false_self bm hd.2
      · rw [if_neg (fun hc => hc.elim hhd hmem)]
        exact getD_set_ne bm hd.2 i false (fun hc => hhd hc.symm)

theorem clear_many_length :
    ∀ (L : List (String × Nat)) (bm : List Bool),
      (L.foldl (fun b kv => b.set kv.2 false) bm).length = bm.length := by
  intro L
  induction L with
  | nil => intro bm; rfl
  | cons hd tl ih => intro bm; rw [List.foldl_cons, ih, List.length_set]

/-- A bitmap matching a duplicate-free slot list has exactly that many
    `true` entries. -/
theorem count_true_of_slots :
    ∀ (S : List Nat) (bm : List Bool), S.Nodup → (∀ s ∈ S, s < bm.length) →
      (∀ i, i < bm.length → (bm.getD i false = true ↔ i ∈ S)) →
      bm.count true = S.length := by
  intro S
  induction S with
  | nil =>
    intro bm _ _ hiff
    simp only [List.length_nil]
    by_contra hne
    have hmem : true ∈ bm := by
      have : 0 < bm.count true := Nat.pos_of_ne_zero hne
      exact List.count_pos_iff.mp (by omega)
    obtain ⟨j, hj, hval⟩ := List.mem_iff_getElem.mp hmem
    have : bm.getD j false = true := by
      rw [List.getD_eq_getElem?_getD]
      rw [List.getElem?_eq_getElem hj]
      simpa using hval
    exact absurd ((hiff j hj).mp this) (List.not_mem_nil j)
  | cons s S2 ih =>
    intro bm hnd hlt hiff
    have hs : s < bm.length := hlt s (List.mem_cons_self s S2)
    have hsv : bm.getD s false = true := (hiff s hs).mpr (List.mem_cons_self s S2)
    simp only [List.nodup_cons] at hnd
    have hlen : (bm.set s false).length = bm.length := List.length_set bm s false
    have := ih (bm.set s false) hnd.2
      (by intro x hx; rw [hlen]; exact hlt x (List.mem_cons_of_mem s hx))
      (by
        intro i hi
        rw [hlen] at hi
        by_cases hisi : i = s
        · subst hisi
          rw [getD_set_false_self]
          constructor
          · intro hc; cases hc
          · intro hc; exact absurd hc hnd.1
        · rw [getD_set_ne bm s i false (fun hc => hisi hc.symm)]
          rw [hiff i hi]
          simp [hisi])
    rw [count_set_false bm s hs hsv, this]
    simp

theorem many_iff_mem_mkeys (m : Marks) (k : Nat) :
    (m.any (fun p => p.1 == k)) = true ↔ k ∈ mkeys m := by
  induction m with
  | nil => simp [mkeys]
  | cons hd tl ih =>
    by_cases h : hd.1 = k
    · simp [mkeys, h]
    · have h2 : (hd.1 == k) = false := by simp [h]
      simp only [List.any_cons, h2, Bool.false_or, mkeys, List.map_cons, List.mem_cons]
      rw [show (List.map (fun p : Nat × Nat => p.1) tl) = mkeys tl from rfl, ih]
      simp [Ne.symm h]

theorem mlookup_eq_none_iff (m : Marks) (k : Nat) :
    mlookup m k = none ↔ k ∉ mkeys m := by
  induction m with
  | nil => simp [mlookup, mkeys]
  | cons hd tl ih =>
    by_cases h : hd.1 = k
    · simp [mlookup, mkeys, h]
    · rw [show mlookup (hd :: tl) k = mlookup tl k by simp [mlookup, h], ih]
      simp only [mkeys, List.map_cons, List.mem_cons, not_or]
      constructor
      · intro hk
        exact ⟨fun he => h he.symm, hk⟩
      · intro hk
        exact hk.2

theorem mlookup_append_some (m l : Marks) (k v : Nat) (h : mlookup m k = some v) :
    mlookup (m ++ l) k = some v := by
  induction m with
  | nil => simp [mlookup] at h
  | cons hd tl ih =>
    simp only [mlookup, List.cons_append] at *
    by_cases hhd : hd.1 == k
    · simpa [hhd] using h
    · simp only [hhd, if_false] at *
      exact ih h

/-! Lemmas about the page-jump pass and mark resolution. -/

/-- A sweep that reports no change leaves instructions and marks
    untouched. -/
theorem disc_pass_no_change :
    ∀ (l : List Instruction) (i : Nat) (marks : Marks) (l2 : List Instruction) (marks2 : Marks),
      disc_pass i marks l = .ok (l2, marks2, false) → l2 = l ∧ marks2 = marks := by
  intro l
  induction l with
  | nil =>
    intro i marks l2 marks2 h
    simp only [disc_pass] at h
    cases h
    exact ⟨rfl, rfl⟩
  | cons instr rest ih =>
    intro i marks l2 marks2 h
    simp only [disc_pass] at h
    by_cases hj : (instr.variant.is_jump && !instr.variant.disc_jump) = true
    · rw [if_pos hj] at h
      cases harg : instr.arg with
      | none => simp only [harg] at h; cases h
      | some mark =>
        simp only [harg] at h
        cases hl : mlookup marks mark with
        | none => simp only [hl] at h; cases h
        | some target =>
          simp only [hl] at h
          by_cases hpg : i / 64 ≠ target / 64
          · rw [if_pos hpg] at h
            cases hrec : disc_pass (i + 2) (move_jump_marks marks (i % 256) 1) rest with
            | error s => simp only [hrec] at h; cases h
            | ok tri => simp only [hrec] at h; cases h
          · rw [if_neg hpg] at h
            cases hrec : disc_pass (i + 1) marks rest with
            | error s => simp only [hrec] at h; cases h
            | ok tri =>
              obtain ⟨rest2, marks3, changed⟩ := tri
              simp only [hrec] at h
              cases h
              obtain ⟨h1, h2⟩ := ih _ _ _ _ hrec
              exact ⟨by rw [h1], h2⟩
    · rw [if_neg hj] at h
      cases hrec : disc_pass (i + 1) marks rest with
      | error s => simp only [hrec] at h; cases h
      | ok tri =>
        obtain ⟨rest2, marks3, changed⟩ := tri
        simp only [hrec] at h
        cases h
        obtain ⟨h1, h2⟩ := ih _ _ _ _ hrec
        exact ⟨by rw [h1], h2⟩

/-- After a sweep with no change, every plain jump's target page equals
    its own page. -/
theorem disc_pass_fixpoint_pages :
    ∀ (l : List Instruction) (i : Nat) (marks : Marks) (l2 : List Instruction) (marks2 : Marks),
      disc_pass i marks l = .ok (l2, marks2, false) →
      ∀ (j : Nat) (instr : Instruction) (mark : Nat), l[j]? = some instr →
        instr.variant.is_jump = true → instr.variant.disc_jump = false →
        instr.arg = some mark →
        ∃ t, mlookup marks mark = some t ∧ t / 64 = (i + j) / 64 := by
  intro l
  induction l with
  | nil =>
    intro i marks l2 marks2 _ j instr mark hget
    simp at hget
  | cons head rest ih =>
    intro i marks l2 marks2 h j instr mark hget hjump hdisc harg
    simp only [disc_pass] at h
    by_cases hj : (head.variant.is_jump && !head.variant.disc_jump) = true
    · rw [if_pos hj] at h
      cases harg0 : head.arg with
      | none => simp only [harg0] at h; cases h
      | some mark0 =>
        simp only [harg0] at h
        cases hl : mlookup marks mark0 with
        | none => simp only [hl] at h; cases h
        | some target =>
          simp only [hl] at h
          by_cases hpg : i / 64 ≠ target / 64
          · rw [if_pos hpg] at h
            cases hrec : disc_pass (i + 2) (move_jump_marks marks (i % 256) 1) rest with
            | error s => simp only [hrec] at h; cases h
            | ok tri => simp only [hrec] at h; cases h
          · rw [if_neg hpg] at h
            cases hrec : disc_pass (i + 1) marks rest with
            | error s => simp only [hrec] at h; cases h
            | ok tri =>
              obtain ⟨rest2, marks3, changed⟩ := tri
              simp only [hrec] at h
              cases h
              cases j with
              | zero =>
                simp only [List.getElem?_cons_zero, Option.some.injEq] at hget
                subst hget
                rw [harg0] at harg
                cases harg
                refine ⟨target, hl, ?_⟩
                simp only [Nat.add_zero]
                exact (not_ne_iff.mp hpg).symm
              | succ j2 =>
                simp only [List.getElem?_cons_succ] at hget
                obtain ⟨t, ht, hpage⟩ := ih _ _ _ _ hrec j2 instr mark hget hjump hdisc harg
                refine ⟨t, ht, ?_⟩
                rw [hpage]
                congr 1
                omega
    · rw [if_neg hj] at h
      cases hrec : disc_pass (i + 1) marks rest with
      | error s => simp only [hrec] at h; cases h
      | ok tri =>
        obtain ⟨rest2, marks3, changed⟩ := tri
        simp only [hrec] at h
        cases h
        cases j with
        | zero =>
          simp only [List.getElem?_cons_zero, Option.some.injEq] at hget
          subst hget
          rw [hjump, hdisc] at hj
          simp at hj
        | succ j2 =>
          simp only [List.getElem?_cons_succ] at hget
          obtain ⟨t, ht, hpage⟩ := ih _ _ _ _ hrec j2 instr mark hget hjump hdisc harg
          refine ⟨t, ht, ?_⟩
          rw [hpage]
          congr 1
          omega

/-- The fixed-point loop ends in a state on which a sweep reports no
    change. -/
theorem insert_disc_jumps_fixpoint :
    ∀ (fuel : Nat) (l : List Instruction) (marks : Marks) (l2 : List Instruction) (marks2 : Marks),
      insert_disc_jumps fuel l marks = .ok (l2, marks2) →
      disc_pass 0 marks2 l2 = .ok (l2, marks2, false) := by
  intro fuel
  induction fuel with
  | zero => intro l marks l2 marks2 h; simp [insert_disc_jumps] at h
  | succ fuel ih =>
    intro l marks l2 marks2 h
    simp only [insert_disc_jumps] at h
    cases hp : disc_pass 0 marks l with
    | error s => simp only [hp] at h; cases h
    | ok tri =>
      obtain ⟨l3, marks3, changed⟩ := tri
      simp only [hp] at h
      cases changed with
      | true => exact ih _ _ _ _ h
      | false =>
        cases h
        obtain ⟨h1, h2⟩ := disc_pass_no_change _ _ _ _ _ hp
        subst h1
        subst h2
        exact hp

/-- Pointwise description of `replace_jump_marks`. -/
theorem replace_jump_marks_spec :
    ∀ (l : List Instruction) (marks : Marks) (r : List Instruction),
      replace_jump_marks l marks = .ok r →
      r.length = l.length ∧
      ∀ (j : Nat) (instr2 : Instruction), r[j]? = some instr2 →
        ∃ instr, l[j]? = some instr ∧ instr2.variant = instr.variant ∧
          (instr.variant.is_jump = false → instr2 = instr) ∧
          (instr.variant.is_jump = true →
            ∃ mark t, instr.arg = some mark ∧ mlookup marks mark = some t ∧
              instr2.arg = some t) := by
  intro l
  induction l with
  | nil =>
    intro marks r h
    simp only [replace_jump_marks] at h
    cases h
    exact ⟨rfl, by intro j instr2 hget; simp at hget⟩
  | cons instr rest ih =>
    intro marks r h
    simp only [replace_jump_marks] at h
    by_cases hj : instr.variant.is_jump = true
    · rw [if_pos hj] at h
      cases harg : instr.arg with
      | none => simp only [harg] at h; cases h
      | some mark =>
        simp only [harg] at h
        cases hl : mlookup marks mark with
        | none => simp only [hl] at h; cases h
        | some v =>
          simp only [hl] at h
          cases hrec : replace_jump_marks rest marks with
          | error s => simp only [hrec] at h; cases h
          | ok rest2 =>
            simp only [hrec] at h
            cases h
            obtain ⟨hlen, hspec⟩ := ih marks rest2 hrec
            refine ⟨by simp [hlen], ?_⟩
            intro j instr2 hget
            cases j with
            | zero =>
              simp only [List.getElem?_cons_zero, Option.some.injEq] at hget
              subst hget
              refine ⟨instr, by simp, rfl, ?_, fun _ => ⟨mark, v, harg, hl, rfl⟩⟩
              intro hf
              rw [hf] at hj
              exact Bool.noConfusion hj
            | succ j2 =>
              simp only [List.getElem?_cons_succ] at hget ⊢
              exact hspec j2 instr2 hget
    · rw [if_neg hj] at h
      cases hrec : replace_jump_marks rest marks with
      | error s => simp only [hrec] at h; cases h
      | ok rest2 =>
        simp only [hrec] at h
        cases h
        obtain ⟨hlen, hspec⟩ := ih marks rest2 hrec
        refine ⟨by simp [hlen], ?_⟩
        intro j instr2 hget
        cases j with
        | zero =>
          simp only [List.getElem?_cons_zero, Option.some.injEq] at hget
          subst hget
          refine ⟨instr, by simp, rfl, fun _ => rfl, fun ht => absurd ht hj⟩
        | succ j2 =>
          simp only [List.getElem?_cons_succ] at hget ⊢
          exact hspec j2 instr2 hget

/-- C1: after finalization, every plain (non-discontinuous) jump in the
    final stream at index `i` with resolved target `t` satisfies
    `floor(t/64) = floor(i/64)`: the fixed point of the page pass leaves
    no cross-page plain jump, and mark resolution substitutes exactly the
    mark values the pass checked. -/
theorem C1_page_invariant :
    ∀ (fuel : Nat) (c : Compiler) (final : List Instruction),
      get_instructions fuel c = .ok final →
      ∀ (i : Nat) (instr : Instruction) (t : Nat), final[i]? = some instr →
        instr.variant.is_jump = true → instr.variant.disc_jump = false →
        instr.arg = some t → t / 64 = i / 64 := by
  intro fuel c final hget i instr t hidx hjump hdisc harg
  unfold get_instructions at hget
  cases hd : insert_disc_jumps fuel
      (flatten_scope (c.main_scope ++ [Instr.scope c.global.instructions])) c.jump_marks with
  | error s => simp only [hd] at hget; cases hget
  | ok pair =>
    obtain ⟨l2, marks2⟩ := pair
    simp only [hd] at hget
    have hfix := insert_disc_jumps_fixpoint fuel _ _ _ _ hd
    obtain ⟨hlen, hspec⟩ := replace_jump_marks_spec l2 marks2 final hget
    obtain ⟨instr0, hidx0, hvar, _, hjcase⟩ := hspec i instr hidx
    have hjump0 : instr0.variant.is_jump = true := by rw [← hvar]; exact hjump
    have hdisc0 : instr0.variant.disc_jump = false := by rw [← hvar]; exact hdisc
    obtain ⟨mark, t0, harg0, hl0, harg2⟩ := hjcase hjump0
    have ht : t0 = t := by
      rw [harg2] at harg
      exact Option.some.inj harg
    subst ht
    obtain ⟨t1, hl1, hpage⟩ :=
      disc_pass_fixpoint_pages l2 0 marks2 l2 marks2 hfix i instr0 mark hidx0
        hjump0 hdisc0 harg0
    have : t1 = t0 := by
      rw [hl0] at hl1
      exact (Option.some.inj hl1).symm
    subst this
    simpa using hpage

/-! Lemmas and claim for jump-mark iteration-order independence. -/

/-- `move_jump_marks` changes lookups pointwise. -/
theorem mlookup_move_jump_marks (m : Marks) (frm by_ k : Nat) :
    mlookup (move_jump_marks m frm by_) k
      = Option.map (fun v => if v ≥ frm then (v + by_) % 256 else v) (mlookup m k) := by
  induction m with
  | nil => simp [move_jump_marks, mlookup]
  | cons hd tl ih =>
    by_cases hv : hd.2 ≥ frm <;> by_cases h : hd.1 = k <;>
      simp [move_jump_marks, mlookup, h, hv, ← ih]

/-- A sweep depends on the marks only through lookups: pointwise-equal
    tables yield the same instructions and change flag, and remain
    pointwise equal. -/
theorem disc_pass_ext :
    ∀ (l : List Instruction) (i : Nat) (m m' : Marks),
      (∀ k, mlookup m k = mlookup m' k) →
      (match disc_pass i m l, disc_pass i m' l with
       | .ok (l2, m2, ch), .ok (l2', m2', ch') =>
         l2 = l2' ∧ ch = ch' ∧ ∀ k, mlookup m2 k = mlookup m2' k
       | .error s, .error s' => s = s'
       | _, _ => False) := by
  intro l
  induction l with
  | nil =>
    intro i m m' hext
    simpa [disc_pass] using hext
  | cons instr rest ih =>
    intro i m m' hext
    simp only [disc_pass]
    by_cases hj : (instr.variant.is_jump && !instr.variant.disc_jump) = true
    · rw [if_pos hj, if_pos hj]
      cases harg : instr.arg with
      | none => simp
      | some mark =>
        dsimp only
        rw [hext mark]
        cases hl : mlookup m' mark with
        | none => simp
        | some target =>
          dsimp only
          by_cases hpg : i / 64 ≠ target / 64
          · rw [if_pos hpg, if_pos hpg]
            have hext2 : ∀ k, mlookup (move_jump_marks m (i % 256) 1) k
                = mlookup (move_jump_marks m' (i % 256) 1) k := by
              intro k
              rw [mlookup_move_jump_marks, mlookup_move_jump_marks, hext k]
            have := ih (i + 2) _ _ hext2
            cases h1 : disc_pass (i + 2) (move_jump_marks m (i % 256) 1) rest with
            | error s =>
              cases h2 : disc_pass (i + 2) (move_jump_marks m' (i % 256) 1) rest with
              | error s2 => rw [h1, h2] at this; simp only []; rw [this]
              | ok tri => rw [h1, h2] at this; exact absurd this (by simp)
            | ok tri =>
              obtain ⟨l2, m2, ch⟩ := tri
              cases h2 : disc_pass (i + 2) (move_jump_marks m' (i % 256) 1) rest with
              | error s2 => rw [h1, h2] at this; exact absurd this (by simp)
              | ok tri2 =>
                obtain ⟨l2', m2', ch'⟩ := tri2
                rw [h1, h2] at this
                obtain ⟨he1, _, he3⟩ := this
                subst he1
                exact ⟨rfl, rfl, he3⟩
          · rw [if_neg hpg, if_neg hpg]
            have := ih (i + 1) m m' hext
            cases h1 : disc_pass (i + 1) m rest with
            | error s =>
              cases h2 : disc_pass (i + 1) m' rest with
              | error s2 => rw [h1, h2] at this; simp only []; rw [this]
              | ok tri => rw [h1, h2] at this; exact absurd this (by simp)
            | ok tri =>
              obtain ⟨l2, m2, ch⟩ := tri
              cases h2 : disc_pass (i + 1) m' rest with
              | error s2 => rw [h1, h2] at this; exact absurd this (by simp)
              | ok tri2 =>
                obtain ⟨l2', m2', ch'⟩ := tri2
                rw [h1, h2] at this
                obtain ⟨he1, he2, he3⟩ := this
                subst he1
                subst he2
                exact ⟨rfl, rfl, he3⟩
    · rw [if_neg hj, if_neg hj]
      have := ih (i + 1) m m' hext
      cases h1 : disc_pass (i + 1) m rest with
      | error s =>
        cases h2 : disc_pass (i + 1) m' rest with
        | error s2 => rw [h1, h2] at this; simp only []; rw [this]
        | ok tri => rw [h1, h2] at this; exact absurd this (by simp)
      | ok tri =>
        obtain ⟨l2, m2, ch⟩ := tri
        cases h2 : disc_pass (i + 1) m' rest with
        | error s2 => rw [h1, h2] at this; exact absurd this (by simp)
        | ok tri2 =>
          obtain ⟨l2', m2', ch'⟩ := tri2
          rw [h1, h2] at this
          obtain ⟨he1, he2, he3⟩ := this
          subst he1
          subst he2
          exact ⟨rfl, rfl, he3⟩

/-- The fixed-point loop depends on the marks only through lookups. -/
theorem insert_disc_jumps_ext :
    ∀ (fuel : Nat) (l : List Instruction) (m m' : Marks),
      (∀ k, mlookup m k = mlookup m' k) →
      (match insert_disc_jumps fuel l m, insert_disc_jumps fuel l m' with
       | .ok (l2, m2), .ok (l2', m2') => l2 = l2' ∧ ∀ k, mlookup m2 k = mlookup m2' k
       | .error s, .error s' => s = s'
       | _, _ => False) := by
  intro fuel
  induction fuel with
  | zero => intro l m m' _; simp [insert_disc_jumps]
  | succ fuel ih =>
    intro l m m' hext
    simp only [insert_disc_jumps]
    have := disc_pass_ext l 0 m m' hext
    cases h1 : disc_pass 0 m l with
    | error s =>
      cases h2 : disc_pass 0 m' l with
      | error s2 => rw [h1, h2] at this; simp only []; rw [this]
      | ok tri => rw [h1, h2] at this; exact absurd this (by simp)
    | ok tri =>
      obtain ⟨l2, m2, ch⟩ := tri
      cases h2 : disc_pass 0 m' l with
      | error s2 => rw [h1, h2] at this; exact absurd this (by simp)
      | ok tri2 =>
        obtain ⟨l2', m2', ch'⟩ := tri2
        rw [h1, h2] at this
        obtain ⟨he1, he2, he3⟩ := this
        subst he1
        subst he2
        cases ch with
        | true => exact ih l2 m2 m2' he3
        | false => exact ⟨rfl, he3⟩

/-- Mark resolution depends on the marks only through lookups. -/
theorem replace_jump_marks_ext :
    ∀ (l : List Instruction) (m m' : Marks),
      (∀ k, mlookup m k = mlookup m' k) →
      replace_jump_marks l m = replace_jump_marks l m' := by
  intro l
  induction l with
  | nil => intro m m' _; rfl
  | cons instr rest ih =>
    intro m m' hext
    simp only [replace_jump_marks]
    by_cases hj : instr.variant.is_jump = true
    · rw [if_pos hj, if_pos hj]
      cases harg : instr.arg with
      | none => rfl
      | some mark =>
        dsimp only
        rw [hext mark, ih m m' hext]
    · rw [if_neg hj, if_neg hj, ih m m' hext]

/-- With no duplicate keys, lookup finds exactly the unique entry. -/
theorem mlookup_eq_some_iff (m : Marks) (k v : Nat) (hnd : (mkeys m).Nodup) :
    mlookup m k = some v ↔ (k, v) ∈ m := by
  induction m with
  | nil => simp [mlookup]
  | cons hd tl ih =>
    simp only [mkeys, List.map_cons, List.nodup_cons] at hnd
    by_cases h : hd.1 = k
    · subst h
      rw [show mlookup (hd :: tl) hd.1 = some hd.2 by simp [mlookup]]
      simp only [Option.some.injEq, List.mem_cons]
      constructor
      · intro hv
        subst hv
        exact Or.inl rfl
      · rintro (hv | hv)
        · exact (congrArg Prod.snd hv).symm
        · exfalso
          exact hnd.1 (by simpa using List.mem_map_of_mem (fun p : Nat × Nat => p.1) hv)
    · have hbeq : (hd.1 == k) = false := by simp [h]
      rw [show mlookup (hd :: tl) k = mlookup tl k by simp [mlookup, hbeq]]
      rw [ih hnd.2]
      simp only [List.mem_cons]
      constructor
      · exact fun hv => Or.inr hv
      · rintro (hv | hv)
        · exact absurd (congrArg Prod.fst hv).symm h
        · exact hv

/-- Lookup is invariant under permutation of a table with no duplicate
    keys: this is the sense in which the jump-mark hash map's iteration
    order cannot matter. -/
theorem mlookup_perm (m m' : Marks) (hp : m.Perm m') (hnd : (mkeys m).Nodup) :
    ∀ k, mlookup m k = mlookup m' k := by
  intro k
  have hnd' : (mkeys m').Nodup := ((hp.map (fun p : Nat × Nat => p.1)).nodup_iff).mp hnd
  cases hv : mlookup m k with
  | some v =>
    have : (k, v) ∈ m := (mlookup_eq_some_iff m k v hnd).mp hv
    exact ((mlookup_eq_some_iff m' k v hnd').mpr (hp.mem_iff.mp this)).symm
  | none =>
    have : k ∉ mkeys m := (mlookup_eq_none_iff m k).mp hv
    have h2 : k ∉ mkeys m' := fun hc =>
      this ((hp.map (fun p : Nat × Nat => p.1)).mem_iff.mpr hc)
    exact ((mlookup_eq_none_iff m' k).mpr h2).symm

/-- Modelled from the spec: the textual form of an instruction (spec
    section 6): the upper-case mnemonic matching the variant name (the
    `Display` impl lives in a backend file not under src/). -/
def InstructionVariant.mnemonic : InstructionVariant → String
  | .LAL => "LAL" | .LAH => "LAH" | .LBL => "LBL" | .LBH => "LBH"
  | .LA => "LA" | .LB => "LB" | .LCL => "LCL" | .SVA => "SVA"
  | .ADD => "ADD" | .SUB => "SUB" | .MUL => "MUL"
  | .AND => "AND" | .OR => "OR" | .XOR => "XOR"
  | .JMP => "JMP" | .JEQ => "JEQ" | .JNE => "JNE" | .JLT => "JLT"
  | .JGT => "JGT" | .JLE => "JLE" | .JGE => "JGE"
  | .JMPD => "JMPD" | .JEQD => "JEQD" | .JNED => "JNED" | .JLTD => "JLTD"
  | .JGTD => "JGTD" | .JLED => "JLED" | .JGED => "JGED"

/-- Modelled from the spec: one output line per instruction, `MNEMONIC`
    or `MNEMONIC ARG` (spec section 6). -/
def Instruction.line (i : Instruction) : String :=
  match i.arg with
  | some a => i.variant.mnemonic ++ " " ++ toString a
  | none => i.variant.mnemonic

/-- The assembly string built by `mcn-ls compile`: each line followed by
    a newline. -/
def asm_string (l : List Instruction) : String :=
  String.join (l.map (fun i => Instruction.line i ++ "\n"))

/-- C9: the emitted output is deterministic and independent of the
    iteration order of the `jump_marks` map: replacing the table by any
    permutation of it (the keys are unique) leaves `get_instructions`,
    and hence the emitted byte string, unchanged.  (`compile` itself is a
    function of the source text, so two runs on the same input are
    definitionally identical; the only order-sensitive state is this
    map.) -/
theorem C9_marks_order_irrelevant :
    ∀ (fuel : Nat) (c : Compiler) (m' : Marks),
      c.jump_marks.Perm m' → (mkeys c.jump_marks).Nodup →
      get_instructions fuel { c with jump_marks := m' } = get_instructions fuel c ∧
      (get_instructions fuel { c with jump_marks := m' }).map asm_string
        = (get_instructions fuel c).map asm_string := by
  intro fuel c m' hp hnd
  have hext : ∀ k, mlookup m' k = mlookup c.jump_marks k := by
    intro k
    exact (mlookup_perm c.jump_marks m' hp hnd k).symm
  have hmain : get_instructions fuel { c with jump_marks := m' } = get_instructions fuel c := by
    unfold get_instructions
    have hflat : flatten_scope ({ c with jump_marks := m' }.main_scope
        ++ [Instr.scope ({ c with jump_marks := m' }.global).instructions])
        = flatten_scope (c.main_scope ++ [Instr.scope c.global.instructions]) := by
      simp [Compiler.global]
    rw [hflat]
    have := insert_disc_jumps_ext fuel
      (flatten_scope (c.main_scope ++ [Instr.scope c.global.instructions])) m' c.jump_marks hext
    cases h1 : insert_disc_jumps fuel
        (flatten_scope (c.main_scope ++ [Instr.scope c.global.instructions])) m' with
    | error s =>
      cases h2 : insert_disc_jumps fuel
          (flatten_scope (c.main_scope ++ [Instr.scope c.global.instructions])) c.jump_marks with
      | error s2 => rw [h1, h2] at this; simp only []; rw [this]
      | ok pair => rw [h1, h2] at this; exact absurd this (by simp)
    | ok pair =>
      obtain ⟨l2, m2⟩ := pair
      cases h2 : insert_disc_jumps fuel
          (flatten_scope (c.main_scope ++ [Instr.scope c.global.instructions])) c.jump_marks with
      | error s2 => rw [h1, h2] at this; exact absurd this (by simp)
      | ok pair2 =>
        obtain ⟨l2', m2'⟩ := pair2
        rw [h1, h2] at this
        obtain ⟨he1, he2⟩ := this
        subst he1
        simp only []
        exact replace_jump_marks_ext l2 m2 m2' he2
  exact ⟨hmain, by rw [hmain]⟩

/-- The compiler state after evaluating `if 1 == 2 debug end`. -/
def c1_compiler : Compiler :=
  match run_statements 400 prog_if_debug Compiler.new with
  | .ok (_, c) => c
  | .error _ => Compiler.new

/-- C1 witness: on the finalized stream of `if 1 == 2 debug end` the
    plain `JNE` at index 2 resolves to 4, and page(4) = page(2). -/
theorem C1_witness : (4 : Nat) / 64 = (2 : Nat) / 64 :=
  C1_page_invariant 400 c1_compiler
    [⟨.LAL, some 1, rdef⟩, ⟨.LBL, some 2, rdef⟩, ⟨.JNE, some 4, rdef⟩, ⟨.LAL, some 17, rdef⟩]
    (by decide) 2 ⟨.JNE, some 4, rdef⟩ 4 (by decide) (by decide) (by decide) (by decide)

/-- C9 witness: presenting the two jump marks of `if 1 == 2 debug end`
    in the opposite order leaves the finalized stream and its assembly
    text unchanged. -/
theorem C9_witness :
    get_instructions 400 { c1_compiler with jump_marks := [(1, 4), (0, 4)] }
      = get_instructions 400 c1_compiler ∧
    (get_instructions 400 { c1_compiler with jump_marks := [(1, 4), (0, 4)] }).map asm_string
      = (get_instructions 400 c1_compiler).map asm_string :=
  C9_marks_order_irrelevant 400 c1_compiler [(1, 4), (0, 4)]
    (by rw [show c1_compiler.jump_marks = [(0, 4), (1, 4)] from by decide]
        exact List.Perm.swap (1, 4) (0, 4) [])
    (by decide)

/-- Updating other keys does not change a lookup. -/
theorem map_update_lookup_ne :
    ∀ (m : Marks) (k v k2 : Nat), k2 ≠ k →
      mlookup (m.map (fun p => if p.1 == k then (k, v) else p)) k2 = mlookup m k2 := by
  intro m k v k2 hne
  induction m with
  | nil => simp [mlookup]
  | cons hd tl ih =>
    by_cases hhd : hd.1 = k
    · simp only [List.map_cons, if_pos (by simp [hhd] : (hd.1 == k) = true)]
      rw [show mlookup ((k, v) :: tl.map (fun p => if p.1 == k then (k, v) else p)) k2
          = mlookup (tl.map (fun p => if p.1 == k then (k, v) else p)) k2 by
        simp only [mlookup]
        rw [if_neg (by simp; exact fun hc => hne hc.symm)]]
      rw [ih]
      simp only [mlookup]
      rw [if_neg (by simp [hhd]; exact fun hc => hne hc.symm)]
    · simp only [List.map_cons, if_neg (by simp [hhd] : ¬(hd.1 == k) = true)]
      by_cases h2 : hd.1 = k2
      · simp [mlookup, h2]
      · rw [show mlookup (hd :: tl.map (fun p => if p.1 == k then (k, v) else p)) k2
            = mlookup (tl.map (fun p => if p.1 == k then (k, v) else p)) k2 by
          simp [mlookup, h2]]
        rw [ih]
        simp [mlookup, h2]

/-- Updating a present key makes its lookup the new value. -/
theorem map_update_lookup_self :
    ∀ (m : Marks) (k v : Nat), k ∈ mkeys m →
      mlookup (m.map (fun p => if p.1 == k then (k, v) else p)) k = some v := by
  intro m k v hmem
  induction m with
  | nil => simp [mkeys] at hmem
  | cons hd tl ih =>
    by_cases hhd : hd.1 = k
    · simp only [List.map_cons, if_pos (by simp [hhd] : (hd.1 == k) = true)]
      simp [mlookup]
    · simp only [List.map_cons, if_neg (by simp [hhd] : ¬(hd.1 == k) = true)]
      have : k ∈ mkeys tl := by
        simp only [mkeys, List.map_cons, List.mem_cons] at hmem
        rcases hmem with h | h
        · exact absurd h.symm hhd
        · exact h
      rw [show mlookup (hd :: tl.map (fun p => if p.1 == k then (k, v) else p)) k
          = mlookup (tl.map (fun p => if p.1 == k then (k, v) else p)) k by
        simp [mlookup, hhd]]
      exact ih this

/-- Appending a fresh binding resolves its key. -/
theorem append_single_lookup_self :
    ∀ (m : Marks) (k v : Nat), mlookup m k = none → mlookup (m ++ [(k, v)]) k = some v := by
  intro m k v hnone
  induction m with
  | nil => simp [mlookup]
  | cons hd tl ih =>
    by_cases hhd : hd.1 = k
    · simp [mlookup, hhd] at hnone
    · simp only [mlookup, List.cons_append] at *
      rw [if_neg (by simp [hhd])] at *
      exact ih hnone

/-- Appending a binding does not change other keys. -/
theorem append_single_lookup_ne :
    ∀ (m : Marks) (k v k2 : Nat), k2 ≠ k → mlookup (m ++ [(k, v)]) k2 = mlookup m k2 := by
  intro m k v k2 hne
  induction m with
  | nil => simp [mlookup]; intro hc; exact absurd hc.symm hne
  | cons hd tl ih =>
    by_cases hhd : hd.1 = k2
    · simp [mlookup, hhd]
    · simp only [mlookup, List.cons_append]
      rw [if_neg (by simp [hhd]), if_neg (by simp [hhd])]
      exact ih

/-- Lookup after `minsert`. -/
theorem mlookup_minsert (m : Marks) (k v k2 : Nat) :
    mlookup (minsert m k v) k2 = if k2 = k then some v else mlookup m k2 := by
  unfold minsert
  by_cases hany : (m.any (fun p => p.1 == k)) = true
  · rw [if_pos hany]
    by_cases h2 : k2 = k
    · subst h2
      rw [if_pos rfl]
      exact map_update_lookup_self m k2 v ((many_iff_mem_mkeys m k2).mp hany)
    · rw [if_neg h2]
      exact map_update_lookup_ne m k v k2 h2
  · rw [if_neg hany]
    by_cases h2 : k2 = k
    · subst h2
      rw [if_pos rfl]
      apply append_single_lookup_self
      rw [mlookup_eq_none_iff]
      exact fun hc => hany ((many_iff_mem_mkeys m k2).mpr hc)
    · rw [if_neg h2]
      exact append_single_lookup_ne m k v k2 h2

/-- Values after `minsert` are the new value or old values. -/
theorem mvalues_minsert_sub (m : Marks) (k v : Nat) :
    ∀ x ∈ mvalues (minsert m k v), x = v ∨ x ∈ mvalues m := by
  intro x hx
  unfold minsert at hx
  by_cases hany : (m.any (fun p => p.1 == k)) = true
  · rw [if_pos hany] at hx
    simp only [mvalues, List.map_map, List.mem_map] at hx
    obtain ⟨p, hp, hval⟩ := hx
    by_cases hpk : p.1 = k
    · left
      rw [← hval]
      simp [hpk]
    · right
      rw [← hval]
      simp only [Function.comp_apply, if_neg (by simp [hpk] : ¬(p.1 == k) = true)]
      exact List.mem_map_of_mem (fun q : Nat × Nat => q.2) hp
  · rw [if_neg hany] at hx
    simp only [mvalues, List.map_append, List.mem_append, List.map_cons, List.map_nil,
      List.mem_cons] at hx
    rcases hx with h | h
    · right
      exact h
    · rcases h with h | h
      · left; exact h
      · cases h

/-! Compiler-wide invariants: every emitted jump carries a bound mark id,
    mark values never exceed the global instruction count, and the slot
    bitmap is exactly the bound slots plus the live temporaries. -/

/-- Every jump in an instruction list carries a mark id bound in the
    table. -/
def jumps_arg_ok (marks : Marks) (l : List Instruction) : Prop :=
  ∀ instr ∈ l, instr.variant.is_jump = true →
    ∃ mk, instr.arg = some mk ∧ mlookup marks mk ≠ none

/-- All scope trees (and the pending main scope) have mark-resolvable
    jumps. -/
def comp_jumps_ok (c : Compiler) : Prop :=
  (∀ s ∈ c.scope_list, jumps_arg_ok c.jump_marks (flatten_scope s.instructions)) ∧
  jumps_arg_ok c.jump_marks (flatten_scope c.main_scope)

/-- Every mark value is at most the global instruction count. -/
def marks_vals_ok (c : Compiler) : Prop :=
  ∀ v ∈ mvalues c.jump_marks, v ≤ scope_count c.global.instructions

/-- Slots bound across the scope stack, innermost first. -/
def bound_slots (c : Compiler) : List Nat :=
  (c.scope_list.map (fun s => s.vars.map (fun kv => kv.2))).join

/-- The slot-occupancy bitmap is exactly the bound slots plus the live
    temporaries `temps`, all distinct and in range. -/
def slots_inv (c : Compiler) (temps : List Nat) : Prop :=
  (bound_slots c ++ temps).Nodup ∧
  (∀ s ∈ bound_slots c ++ temps, s < VAR_SLOTS) ∧
  c.vars.length = VAR_SLOTS ∧
  (∀ i, i < VAR_SLOTS → (c.vars.getD i false = true ↔ i ∈ bound_slots c ++ temps))

/-- What one evaluator step preserves: the enclosing scopes, the pending
    main scope, mark-id bindings (monotonically), the global instruction
    count (monotonically), and the three invariants. -/
def EvalPres (c c2 : Compiler) : Prop :=
  c2.outer = c.outer ∧
  c2.main_scope = c.main_scope ∧
  (∀ k, mlookup c.jump_marks k ≠ none → mlookup c2.jump_marks k ≠ none) ∧
  scope_count c.global.instructions ≤ scope_count c2.global.instructions ∧
  (comp_jumps_ok c → comp_jumps_ok c2) ∧
  (marks_vals_ok c → marks_vals_ok c2) ∧
  (∀ T, slots_inv c T → slots_inv c2 T)

/-- What `push_scope` establishes: one new innermost frame, everything
    else as in `EvalPres`. -/
def PushPres (c c2 : Compiler) : Prop :=
  c2.outer = c.cur :: c.outer ∧
  c2.main_scope = c.main_scope ∧
  (∀ k, mlookup c.jump_marks k ≠ none → mlookup c2.jump_marks k ≠ none) ∧
  scope_count c.global.instructions ≤ scope_count c2.global.instructions ∧
  (comp_jumps_ok c → comp_jumps_ok c2) ∧
  (marks_vals_ok c → marks_vals_ok c2) ∧
  (∀ T, slots_inv c T → slots_inv c2 T)

theorem evalPres_refl (c : Compiler) : EvalPres c c :=
  ⟨rfl, rfl, fun _ h => h, Nat.le_refl _, id, id, fun _ h => h⟩

theorem evalPres_trans {a b c : Compiler} (h1 : EvalPres a b) (h2 : EvalPres b c) :
    EvalPres a c := by
  obtain ⟨o1, m1, k1, n1, j1, v1, s1⟩ := h1
  obtain ⟨o2, m2, k2, n2, j2, v2, s2⟩ := h2
  exact ⟨o2.trans o1, m2.trans m1, fun k h => k2 k (k1 k h), n1.trans n2,
    fun h => j2 (j1 h), fun h => v2 (v1 h), fun T h => s2 T (s1 T h)⟩

theorem scope_count_append :
    ∀ (l1 l2 : List Instr), scope_count (l1 ++ l2) = scope_count l1 + scope_count l2 := by
  intro l1 l2
  induction l1 with
  | nil => simp [scope_count]
  | cons hd tl ih =>
    show scope_count (hd :: (tl ++ l2)) = scope_count (hd :: tl) + scope_count l2
    simp only [scope_count]
    rw [ih]
    omega

theorem flatten_scope_append :
    ∀ (l1 l2 : List Instr), flatten_scope (l1 ++ l2) = flatten_scope l1 ++ flatten_scope l2 := by
  intro l1 l2
  induction l1 with
  | nil => simp [flatten_scope]
  | cons hd tl ih =>
    show flatten_scope (hd :: (tl ++ l2)) = flatten_scope (hd :: tl) ++ flatten_scope l2
    simp only [flatten_scope]
    rw [ih, List.append_assoc]

mutual

/-- Flattening one tree node produces exactly `instr_count` leaves. -/
theorem instr_flatten_length : ∀ (i : Instr), (instr_flatten i).length = instr_count i
  | .code _ => rfl
  | .scope s => flatten_scope_length s

/-- Flattening produces exactly `scope_count` instructions. -/
theorem flatten_scope_length : ∀ (l : List Instr), (flatten_scope l).length = scope_count l
  | [] => rfl
  | i :: rest => by
    simp only [flatten_scope, scope_count, List.length_append]
    rw [instr_flatten_length i, flatten_scope_length rest]

end

/-- The global scope survives a `cur`-only record update when the stack
    has more than one scope. -/
theorem global_update_cur (c : Compiler) (x : Scope) :
    ({ cur := x, outer := c.outer, main_scope := c.main_scope, modules := c.modules,
       jump_marks := c.jump_marks, vars := c.vars } : Compiler).global
      = (match c.outer with | [] => x | _ :: _ => c.global) := by
  cases h : c.outer with
  | nil => simp only [Compiler.global, h]; rfl
  | cons o rest => simp only [Compiler.global, h, List.getLastD_cons]

theorem getLastD_indep : ∀ (l : List Scope) (a b : Scope), l ≠ [] → l.getLastD a = l.getLastD b := by
  intro l a b h
  cases l with
  | nil => exact absurd rfl h
  | cons x rest => rw [List.getLastD_cons, List.getLastD_cons]

theorem jumps_arg_ok_mono {m m2 : Marks}
    (hmono : ∀ k, mlookup m k ≠ none → mlookup m2 k ≠ none)
    {l : List Instruction} (h : jumps_arg_ok m l) : jumps_arg_ok m2 l := by
  intro instr hins hj
  obtain ⟨mk, h1, h2⟩ := h instr hins hj
  exact ⟨mk, h1, hmono mk h2⟩

theorem jumps_arg_ok_append {m : Marks} {l1 l2 : List Instruction}
    (h1 : jumps_arg_ok m l1) (h2 : jumps_arg_ok m l2) : jumps_arg_ok m (l1 ++ l2) := by
  intro instr hins hj
  rcases List.mem_append.mp hins with h | h
  · exact h1 instr h hj
  · exact h2 instr h hj

theorem jumps_arg_ok_nil {m : Marks} : jumps_arg_ok m [] := by
  intro instr hins
  cases hins

theorem mlookup_minsert_mono (m : Marks) (k v : Nat) :
    ∀ k2, mlookup m k2 ≠ none → mlookup (minsert m k v) k2 ≠ none := by
  intro k2 h
  rw [mlookup_minsert]
  by_cases h2 : k2 = k
  · simp [h2]
  · simpa [h2] using h

theorem lowest_free_spec :
    ∀ (l : List Bool) (i : Nat), lowest_free l = some i →
      i < l.length ∧ l.getD i false = false := by
  intro l
  induction l with
  | nil => intro i h; simp [lowest_free] at h
  | cons hd tl ih =>
    intro i h
    by_cases hb : hd = false
    · simp only [lowest_free, if_pos hb, Option.some.injEq] at h
      subst h
      simp [List.getD, hb]
    · simp only [lowest_free, if_neg hb] at h
      cases hrec : lowest_free tl with
      | none => rw [hrec] at h; cases h
      | some j =>
        rw [hrec] at h
        cases h
        obtain ⟨hlt, hval⟩ := ih j hrec
        exact ⟨by simpa using Nat.succ_lt_succ hlt, by simpa [List.getD] using hval⟩

theorem alookup_none_iff_any_false {α : Type} (l : List (String × α)) (k : String) :
    alookup l k = none ↔ (l.any (fun p => p.1 == k)) = false := by
  induction l with
  | nil => simp [alookup]
  | cons hd tl ih =>
    by_cases h : hd.1 = k
    · simp [alookup, h]
    · have hbeq : (hd.1 == k) = false := by simp [h]
      simp only [alookup, hbeq, Bool.false_eq_true, if_false, List.any_cons, Bool.false_or]
      exact ih

theorem ainsert_of_none {α : Type} (l : List (String × α)) (k : String) (v : α)
    (h : alookup l k = none) : ainsert l k v = l ++ [(k, v)] := by
  unfold ainsert
  rw [if_neg]
  rw [alookup_none_iff_any_false] at h
  simp [h]

/-- A record update that leaves the instructions and variable bindings of
    the innermost scope (and every other invariant-relevant field)
    unchanged is invisible to `EvalPres`. -/
theorem cur_update_pres (c : Compiler) (x : Scope)
    (hins : x.instructions = c.cur.instructions) (hvars : x.vars = c.cur.vars) :
    EvalPres c { c with cur := x } := by
  have hglobal : ({ c with cur := x } : Compiler).global.instructions
      = c.global.instructions := by
    show (c.outer.getLastD x).instructions = (c.outer.getLastD c.cur).instructions
    cases c.outer with
    | nil => exact hins
    | cons o rest => rw [getLastD_indep (o :: rest) x c.cur (by simp)]
  refine ⟨rfl, rfl, fun _ h => h, by rw [hglobal], ?_, ?_, ?_⟩
  · intro h
    obtain ⟨hsc, hmain⟩ := h
    refine ⟨?_, hmain⟩
    intro s hs
    simp only [Compiler.scope_list, List.mem_cons] at hs
    rcases hs with hs | hs
    · rw [hs]
      show jumps_arg_ok c.jump_marks (flatten_scope x.instructions)
      rw [hins]
      exact hsc c.cur (List.mem_cons_self c.cur c.outer)
    · exact hsc s (List.mem_cons_of_mem c.cur hs)
  · intro h v hv
    rw [hglobal]
    exact h v hv
  · intro T h
    have hbound : bound_slots { c with cur := x } = bound_slots c := by
      simp [bound_slots, Compiler.scope_list, hvars]
    obtain ⟨h1, h2, h3, h4⟩ := h
    exact ⟨by rw [hbound]; exact h1, by rw [hbound]; exact h2, h3,
      by intro i hi; rw [hbound]; exact h4 i hi⟩

/-- Pushing one instruction whose jump argument (if any) is bound
    preserves everything. -/
theorem push_instr_pres (c : Compiler) (instr : Instruction)
    (hins : instr.variant.is_jump = true →
      ∃ mk, instr.arg = some mk ∧ mlookup c.jump_marks mk ≠ none) :
    EvalPres c (push_instr c instr) := by
  have hflat : flatten_scope (c.cur.instructions ++ [Instr.code instr])
      = flatten_scope c.cur.instructions ++ [instr] := by
    rw [flatten_scope_append]
    rfl
  have hcount : scope_count (c.cur.instructions ++ [Instr.code instr])
      = scope_count c.cur.instructions + 1 := by
    rw [scope_count_append]
    rfl
  have hglobal : scope_count ((push_instr c instr).global).instructions
      = scope_count c.global.instructions + (match c.outer with | [] => 1 | _ :: _ => 0) := by
    show scope_count ((c.outer.getLastD (push_instr c instr).cur).instructions)
        = scope_count ((c.outer.getLastD c.cur).instructions)
          + (match c.outer with | [] => 1 | _ :: _ => 0)
    cases c.outer with
    | nil =>
      show scope_count (c.cur.instructions ++ [Instr.code instr])
          = scope_count c.cur.instructions + 1
      rw [hcount]
    | cons o rest =>
      rw [getLastD_indep (o :: rest) _ c.cur (by simp)]
      rfl
  refine ⟨rfl, rfl, fun _ h => h, ?_, ?_, ?_, ?_⟩
  · rw [hglobal]
    cases c.outer <;> simp
  · intro h
    obtain ⟨hsc, hmain⟩ := h
    refine ⟨?_, hmain⟩
    intro s hs
    simp only [Compiler.scope_list, List.mem_cons] at hs
    rcases hs with hs | hs
    · subst hs
      show jumps_arg_ok (push_instr c instr).jump_marks
        (flatten_scope (c.cur.instructions ++ [Instr.code instr]))
      rw [hflat]
      apply jumps_arg_ok_append
      · exact hsc c.cur (List.mem_cons_self c.cur c.outer)
      · intro ins2 hins2 hj2
        simp only [List.mem_singleton] at hins2
        subst hins2
        exact hins hj2
    · exact hsc s (List.mem_cons_of_mem c.cur hs)
  · intro h v hv
    rw [hglobal]
    have := h v hv
    cases c.outer <;> omega
  · intro T h
    have hbound : bound_slots (push_instr c instr) = bound_slots c := by
      simp [bound_slots, Compiler.scope_list, push_instr]
    obtain ⟨h1, h2, h3, h4⟩ := h
    exact ⟨by rw [hbound]; exact h1, by rw [hbound]; exact h2, h3,
      by intro i hi; rw [hbound]; exact h4 i hi⟩

theorem push_instr_nonjump_pres (c : Compiler) (instr : Instruction)
    (hnj : instr.variant.is_jump = false) : EvalPres c (push_instr c instr) :=
  push_instr_pres c instr (fun hj => absurd hj (by simp [hnj]))

/-- Inserting or rebinding a mark whose value is at most the global count
    preserves everything. -/
theorem marks_insert_pres (c : Compiler) (k v : Nat)
    (hv : v ≤ scope_count c.global.instructions) :
    EvalPres c { c with jump_marks := minsert c.jump_marks k v } := by
  refine ⟨rfl, rfl, mlookup_minsert_mono c.jump_marks k v, Nat.le_refl _, ?_, ?_, ?_⟩
  · intro h
    obtain ⟨hsc, hmain⟩ := h
    refine ⟨?_, jumps_arg_ok_mono (mlookup_minsert_mono c.jump_marks k v) hmain⟩
    intro s hs
    simp only [Compiler.scope_list, List.mem_cons] at hs
    apply jumps_arg_ok_mono (mlookup_minsert_mono c.jump_marks k v)
    rcases hs with hs | hs
    · subst hs
      exact hsc c.cur (List.mem_cons_self c.cur c.outer)
    · exact hsc s (List.mem_cons_of_mem c.cur hs)
  · intro h x hx
    rcases mvalues_minsert_sub c.jump_marks k v x hx with hx2 | hx2
    · subst hx2
      exact hv
    · exact h x hx2
  · intro T h
    exact h

theorem bound_slots_eq (c : Compiler) :
    bound_slots c = c.cur.vars.map (fun kv => kv.2)
      ++ (c.outer.map (fun s => s.vars.map (fun kv => kv.2))).join := by
  simp [bound_slots, Compiler.scope_list]

/-- The global instruction list survives updates of the innermost
    scope's non-instruction fields and of the bitmap. -/
theorem global_instr_cur_vars (c : Compiler) (x : Scope) (bm : List Bool)
    (hx : x.instructions = c.cur.instructions) :
    ({ c with cur := x, vars := bm } : Compiler).global.instructions
      = c.global.instructions := by
  show (c.outer.getLastD x).instructions = (c.outer.getLastD c.cur).instructions
  cases c.outer with
  | nil => exact hx
  | cons o rest => rw [getLastD_indep (o :: rest) x c.cur (by simp)]

theorem comp_jumps_ok_cur_vars (c : Compiler) (x : Scope) (bm : List Bool)
    (hx : x.instructions = c.cur.instructions) (hok : comp_jumps_ok c) :
    comp_jumps_ok { c with cur := x, vars := bm } := by
  obtain ⟨hsc, hmain⟩ := hok
  refine ⟨?_, hmain⟩
  intro s hs
  simp only [Compiler.scope_list, List.mem_cons] at hs
  rcases hs with hs | hs
  · rw [hs]
    show jumps_arg_ok c.jump_marks (flatten_scope x.instructions)
    rw [hx]
    exact hsc c.cur (List.mem_cons_self c.cur c.outer)
  · exact hsc s (List.mem_cons_of_mem c.cur hs)

theorem marks_vals_ok_cur_vars (c : Compiler) (x : Scope) (bm : List Bool)
    (hx : x.instructions = c.cur.instructions) (hok : marks_vals_ok c) :
    marks_vals_ok { c with cur := x, vars := bm } := by
  intro v hv
  show v ≤ scope_count (({ c with cur := x, vars := bm } : Compiler).global).instructions
  rw [global_instr_cur_vars c x bm hx]
  exact hok v hv

/-- Binding a fresh name to a fresh slot extends the slot invariant. -/
theorem slots_inv_insert (c : Compiler) (sym : String) (idx : Nat)
    (hidx : idx < c.vars.length) (hfree : c.vars.getD idx false = false)
    (hain : ainsert c.cur.vars sym idx = c.cur.vars ++ [(sym, idx)]) :
    ∀ T, slots_inv c T →
      slots_inv { c with
        cur := { c.cur with vars := ainsert c.cur.vars sym idx },
        vars := c.vars.set idx true } T := by
  intro T hs
  obtain ⟨h1, h2, h3, h4⟩ := hs
  have hfresh : idx ∉ bound_slots c ++ T := by
    intro hc
    have := (h4 idx (by rw [← h3]; exact hidx)).mpr hc
    rw [hfree] at this
    cases this
  have hboundold : bound_slots c = c.cur.vars.map (fun kv => kv.2)
      ++ (c.outer.map (fun s => s.vars.map (fun kv => kv.2))).join := bound_slots_eq c
  have hboundnew : bound_slots { c with
        cur := { c.cur with vars := ainsert c.cur.vars sym idx },
        vars := c.vars.set idx true }
      = (c.cur.vars.map (fun kv => kv.2) ++ [idx])
        ++ (c.outer.map (fun s => s.vars.map (fun kv => kv.2))).join := by
    rw [bound_slots_eq]
    simp [hain]
  set curS := c.cur.vars.map (fun kv => kv.2) with hcurS
  set restJ := (c.outer.map (fun s => s.vars.map (fun kv => kv.2))).join with hrestJ
  have hperm : (((curS ++ [idx]) ++ restJ) ++ T).Perm (idx :: ((curS ++ restJ) ++ T)) := by
    have he1 : ((curS ++ [idx]) ++ restJ) ++ T = curS ++ idx :: (restJ ++ T) := by simp
    have he2 : (curS ++ restJ) ++ T = curS ++ (restJ ++ T) := by simp
    rw [he1, he2]
    exact List.perm_middle
  have hmem : ∀ i, i ∈ ((curS ++ [idx]) ++ restJ) ++ T ↔
      i = idx ∨ i ∈ (curS ++ restJ) ++ T := by
    intro i
    exact (hperm.mem_iff).trans (List.mem_cons)
  refine ⟨?_, ?_, ?_, ?_⟩
  · rw [hboundnew, hperm.nodup_iff]
    refine List.nodup_cons.mpr ⟨?_, ?_⟩
    · rw [← hboundold]
      exact hfresh
    · rw [← hboundold]
      exact h1
  · intro s2 hs2
    rw [hboundnew] at hs2
    rcases (hmem s2).mp hs2 with hc | hc
    · rw [hc, ← h3]
      exact hidx
    · rw [← hboundold] at hc
      exact h2 s2 hc
  · show (c.vars.set idx true).length = VAR_SLOTS
    rw [List.length_set]
    exact h3
  · intro i hi
    rw [hboundnew]
    show (c.vars.set idx true).getD i false = true ↔ _
    by_cases hii : i = idx
    · rw [hii, getD_set_true_self c.vars idx hidx]
      simp only [true_iff]
      exact (hmem idx).mpr (Or.inl rfl)
    · rw [getD_set_ne c.vars idx i true (fun hc => hii hc.symm)]
      rw [h4 i hi]
      rw [hmem i, ← hboundold]
      simp [hii]

/-- `insert_var` preserves all the invariants: it either reuses a visible
    binding or binds a fresh slot in the innermost scope. -/
theorem insert_var_pres (c : Compiler) (sym : String) (loc : Range) (slot : Nat) (c2 : Compiler)
    (h : insert_var c sym loc = .ok (slot, c2)) : EvalPres c c2 := by
  unfold insert_var at h
  cases hv : get_var_noerror c sym with
  | some v =>
    simp only [hv] at h
    cases h
    exact evalPres_refl c
  | none =>
    simp only [hv] at h
    unfold get_next_available_slot at h
    cases hlf : lowest_free c.vars with
    | none => simp only [hlf] at h; cases h
    | some idx =>
      simp only [hlf] at h
      cases h
      obtain ⟨hidx, hfree⟩ := lowest_free_spec c.vars slot hlf
      have hcurnone : alookup c.cur.vars sym = none := by
        unfold get_var_noerror lookup_var_scopes at hv
        cases halk : alookup c.cur.vars sym with
        | none => rfl
        | some w =>
          rw [show Compiler.scope_list c = c.cur :: c.outer from rfl] at hv
          simp only [lookup_var_scopes, halk] at hv
          cases hv
      have hain : ainsert c.cur.vars sym slot = c.cur.vars ++ [(sym, slot)] :=
        ainsert_of_none c.cur.vars sym slot hcurnone
      refine ⟨rfl, rfl, fun _ h => h, ?_, ?_, ?_, ?_⟩
      · exact Nat.le_of_eq (congrArg scope_count (global_instr_cur_vars c
          { c.cur with vars := ainsert c.cur.vars sym slot } (c.vars.set slot true) rfl).symm)
      · exact comp_jumps_ok_cur_vars c
          { c.cur with vars := ainsert c.cur.vars sym slot } (c.vars.set slot true) rfl
      · exact marks_vals_ok_cur_vars c
          { c.cur with vars := ainsert c.cur.vars sym slot } (c.vars.set slot true) rfl
      · exact slots_inv_insert c sym slot hidx hfree hain

/-! Temporary-slot lemmas: a temp slot is fresh, usable while live, and
    its release restores the bitmap to the bound-plus-temps shape. -/

theorem set_false_of_false : ∀ (l : List Bool) (i : Nat),
    l.getD i false = false → l.set i false = l
  | [], _, _ => rfl
  | b :: rest, 0, h => by
    cases b with
    | false => rfl
    | true => simp [List.getD] at h
  | b :: rest, i + 1, h => by
    simp only [List.set]
    rw [set_false_of_false rest i (by simpa [List.getD] using h)]

theorem insert_temp_var_spec (c : Compiler) (loc : Range) (temp : Nat) (c1 : Compiler)
    (h : insert_temp_var c loc = .ok (temp, c1)) :
    c1 = { c with vars := c.vars.set temp true } ∧
      temp < c.vars.length ∧ c.vars.getD temp false = false := by
  unfold insert_temp_var get_next_available_slot at h
  cases hlf : lowest_free c.vars with
  | none => simp only [hlf] at h; cases h
  | some idx =>
    simp only [hlf] at h
    cases h
    exact ⟨rfl, lowest_free_spec c.vars temp hlf⟩

/-- Acquiring a fresh slot extends the live-temporaries list. -/
theorem slots_inv_temp (c : Compiler) (temp : Nat)
    (hlt : temp < c.vars.length) (hfree : c.vars.getD temp false = false) :
    ∀ T, slots_inv c T → slots_inv { c with vars := c.vars.set temp true } (temp :: T) := by
  intro T hs
  obtain ⟨h1, h2, h3, h4⟩ := hs
  have hfresh : temp ∉ bound_slots c ++ T := fun hc => by
    have := (h4 temp (by rw [← h3]; exact hlt)).mpr hc
    rw [hfree] at this
    cases this
  have hbound : bound_slots { c with vars := c.vars.set temp true } = bound_slots c := by
    simp [bound_slots, Compiler.scope_list]
  have hperm : (bound_slots c ++ (temp :: T)).Perm (temp :: (bound_slots c ++ T)) :=
    List.perm_middle
  refine ⟨?_, ?_, ?_, ?_⟩
  · rw [hbound, hperm.nodup_iff]
    exact List.nodup_cons.mpr ⟨hfresh, h1⟩
  · intro s hs2
    rw [hbound] at hs2
    rcases (hperm.mem_iff.trans List.mem_cons).mp hs2 with hc | hc
    · rw [hc, ← h3]
      exact hlt
    · exact h2 s hc
  · show (c.vars.set temp true).length = VAR_SLOTS
    rw [List.length_set]
    exact h3
  · intro i hi
    rw [hbound]
    show (c.vars.set temp true).getD i false = true ↔ i ∈ bound_slots c ++ temp :: T
    by_cases hit : i = temp
    · subst hit
      rw [getD_set_true_self c.vars i hlt]
      simp only [true_iff]
      exact hperm.mem_iff.mpr (List.mem_cons_self _ _)
    · rw [getD_set_ne c.vars temp i true (fun hc => hit hc.symm), h4 i hi]
      have hmm : i ∈ bound_slots c ++ temp :: T ↔ i ∈ bound_slots c ++ T := by
        rw [hperm.mem_iff, List.mem_cons]
        simp [hit]
      rw [hmm]

/-- Releasing the most recent live temporary restores the invariant. -/
theorem cleanup_temp_pres (c : Compiler) (temp : Nat) (T : List Nat)
    (hs : slots_inv c (temp :: T)) : slots_inv (cleanup_temp_var c temp) T := by
  obtain ⟨h1, h2, h3, h4⟩ := hs
  have hperm : (bound_slots c ++ (temp :: T)).Perm (temp :: (bound_slots c ++ T)) :=
    List.perm_middle
  have hnd : (temp :: (bound_slots c ++ T)).Nodup := hperm.nodup_iff.mp h1
  have htemp_not : temp ∉ bound_slots c ++ T := (List.nodup_cons.mp hnd).1
  have hbound : bound_slots (cleanup_temp_var c temp) = bound_slots c := by
    simp [bound_slots, Compiler.scope_list, cleanup_temp_var]
  refine ⟨?_, ?_, ?_, ?_⟩
  · rw [hbound]
    exact (List.nodup_cons.mp hnd).2
  · intro s hs2
    rw [hbound] at hs2
    exact h2 s (by rw [hperm.mem_iff]; exact List.mem_cons_of_mem _ hs2)
  · show (c.vars.set temp false).length = VAR_SLOTS
    rw [List.length_set]
    exact h3
  · intro i hi
    rw [hbound]
    show (c.vars.set temp false).getD i false = true ↔ i ∈ bound_slots c ++ T
    by_cases hit : i = temp
    · subst hit
      rw [getD_set_false_self]
      constructor
      · intro hc
        cases hc
      · intro hc
        exact absurd hc htemp_not
    · rw [getD_set_ne c.vars temp i false (fun hc => hit hc.symm), h4 i hi]
      have hmm : i ∈ bound_slots c ++ temp :: T ↔ i ∈ bound_slots c ++ T := by
        rw [hperm.mem_iff, List.mem_cons]
        simp [hit]
      rw [hmm]

/-- The acquire/use/release bracket around a temporary slot preserves
    everything, for any use that itself preserves everything. -/
theorem temp_bracket_pres (c c1 cmid : Compiler) (loc : Range) (temp : Nat)
    (h1 : insert_temp_var c loc = .ok (temp, c1))
    (hmid : EvalPres c1 cmid) :
    EvalPres c (cleanup_temp_var cmid temp) := by
  obtain ⟨hc1, hlt, hfree⟩ := insert_temp_var_spec c loc temp c1 h1
  subst hc1
  obtain ⟨o, m, k, n, j, v, s⟩ := hmid
  refine ⟨o, m, k, n, fun h => j h, fun h => v h, ?_⟩
  intro T hs2
  exact cleanup_temp_pres cmid temp T (s (temp :: T) (slots_inv_temp c temp hlt hfree T hs2))

theorem save_to_pres (c : Compiler) (slot : Nat) (loc : Range) :
    EvalPres c (save_to c slot loc) := push_instr_nonjump_pres c _ rfl

theorem put_op_pres (c : Compiler) (op : Operator) (loc : Range) :
    EvalPres c (put_op c op loc) := by
  cases op <;> exact push_instr_nonjump_pres c _ rfl

theorem switch_pres (c : Compiler) (loc : Range) (c2 : Compiler)
    (h : switch c loc = .ok c2) : EvalPres c c2 := by
  unfold switch at h
  cases hins : insert_temp_var c loc with
  | error e => simp only [hins] at h; cases h
  | ok pr =>
    obtain ⟨temp, c1⟩ := pr
    simp only [hins] at h
    cases h
    apply temp_bracket_pres c c1 _ loc temp hins
    exact evalPres_trans (push_instr_nonjump_pres c1 ⟨.SVA, some temp, loc⟩ rfl)
      (push_instr_nonjump_pres _ ⟨.LB, some temp, loc⟩ rfl)

theorem put_a_number_pres (c : Compiler) (v : Int) (loc : Range) :
    EvalPres c (put_a_number c v loc) := by
  simp only [put_a_number]
  by_cases h : c.cur.state.a = RegisterContents.Number v
  · rw [if_pos h]
    exact evalPres_refl c
  · rw [if_neg h]
    by_cases h2 : highByte v ≠ 0
    · rw [if_pos h2]
      exact evalPres_trans (push_instr_nonjump_pres c ⟨.LAL, some (lowByte v), loc⟩ rfl)
        (push_instr_nonjump_pres _ ⟨.LAH, some (highByte v), loc⟩ rfl)
    · rw [if_neg h2]
      exact push_instr_nonjump_pres c ⟨.LAL, some (lowByte v), loc⟩ rfl

theorem put_b_number_pres (c : Compiler) (v : Int) (loc : Range) :
    EvalPres c (put_b_number c v loc) := by
  simp only [put_b_number]
  by_cases h : c.cur.state.b = RegisterContents.Number v
  · rw [if_pos h]
    exact evalPres_refl c
  · rw [if_neg h]
    by_cases h2 : highByte v ≠ 0
    · rw [if_pos h2]
      exact evalPres_trans (push_instr_nonjump_pres c ⟨.LBL, some (lowByte v), loc⟩ rfl)
        (push_instr_nonjump_pres _ ⟨.LBH, some (highByte v), loc⟩ rfl)
    · rw [if_neg h2]
      exact push_instr_nonjump_pres c ⟨.LBL, some (lowByte v), loc⟩ rfl

theorem put_into_b_pres (c : Compiler) (e : Expression) (c2 : Compiler)
    (h : put_into_b c e = .ok c2) : EvalPres c c2 := by
  obtain ⟨typ, loc⟩ := e
  cases typ
  case NumericLiteral v =>
    simp only [put_into_b] at h
    cases h
    exact put_b_number_pres c v loc
  case Identifier sym =>
    simp only [put_into_b] at h
    cases hgi : get_inline_var c sym loc with
    | ok value =>
      simp only [hgi] at h
      cases h
      exact put_b_number_pres c value loc
    | error e1 =>
      simp only [hgi] at h
      cases hgv : get_var c sym loc with
      | error e2 => simp only [hgv] at h; cases h
      | ok var =>
        simp only [hgv] at h
        by_cases hb : c.cur.state.b = RegisterContents.Variable var
        · rw [if_pos hb] at h
          cases h
          exact evalPres_refl c
        · rw [if_neg hb] at h
          cases h
          exact push_instr_nonjump_pres c ⟨.LB, some var, loc⟩ rfl
  all_goals simp only [put_into_b] at h
  all_goals cases h

theorem insert_inline_pres (c : Compiler) (s : String) (v : Int) :
    EvalPres c (insert_inline_var c s v) :=
  cur_update_pres c _ rfl rfl

theorem use_loop_ok_eq : ∀ (l : List Ident) (loc : Range) (c c2 : Compiler),
    use_loop l loc c = .ok c2 → c2 = c := by
  intro l loc c c2 h
  cases l with
  | nil =>
    simp only [use_loop] at h
    cases h
    rfl
  | cons m rest =>
    simp only [use_loop] at h
    by_cases hr : (!c.is_root_scope) = true
    · rw [if_pos hr] at h
      cases h
    · rw [if_neg hr] at h
      rw [if_pos (show (!module_exist m.symbol) = true from rfl)] at h
      cases h

theorem eval_call_no_ok (c : Compiler) (f : Expression) (args : List Expression)
    (c2 : Compiler) (h : eval_call c f args = .ok c2) : False := by
  obtain ⟨typ, loc⟩ := f
  cases typ
  case Member object property =>
    simp only [eval_call] at h
    cases hot : object.typ
    case Identifier sym =>
      simp only [hot] at h
      by_cases hm : c.modules.contains sym = true
      · rw [if_pos hm] at h
        cases h
      · rw [if_neg hm] at h
        cases h
    all_goals simp only [hot] at h
    all_goals cases h
  all_goals simp only [eval_call] at h
  all_goals cases h

/-! Scope brackets: push a frame, evaluate, pop. -/

theorem getLastD_mem_cons : ∀ (l : List Scope) (d : Scope), l.getLastD d ∈ d :: l := by
  intro l
  induction l with
  | nil =>
    intro d
    simp [List.getLastD]
  | cons x rest ih =>
    intro d
    rw [List.getLastD_cons]
    exact List.mem_cons_of_mem d (ih x)

theorem global_in_scope_list (c : Compiler) : c.global ∈ c.scope_list :=
  getLastD_mem_cons c.outer c.cur

/-- Pushing a fresh frame preserves everything below it. -/
theorem push_frame_pres (c : Compiler) (st : ComputerState) :
    PushPres c (push_frame c st) := by
  have hglobal : (push_frame c st).global = c.global := by
    show (c.cur :: c.outer).getLastD (Scope.with_state st) = c.outer.getLastD c.cur
    rw [List.getLastD_cons]
  refine ⟨rfl, rfl, fun _ h => h, by rw [hglobal], ?_, ?_, ?_⟩
  · intro h
    obtain ⟨hsc, hmain⟩ := h
    refine ⟨?_, hmain⟩
    intro s hs
    simp only [Compiler.scope_list, List.mem_cons] at hs
    rcases hs with hs | hs
    · rw [hs]
      exact jumps_arg_ok_nil
    · exact hsc s hs
  · intro h v hv
    rw [hglobal]
    exact h v hv
  · intro T hinv
    obtain ⟨h1, h2, h3, h4⟩ := hinv
    have hbound : bound_slots (push_frame c st) = bound_slots c := by
      simp [bound_slots, Compiler.scope_list, push_frame, Scope.with_state]
    exact ⟨by rw [hbound]; exact h1, by rw [hbound]; exact h2, h3,
      by intro i hi; rw [hbound]; exact h4 i hi⟩

theorem pushPres_trans_eval {a b c : Compiler} (h1 : PushPres a b) (h2 : EvalPres b c) :
    PushPres a c := by
  obtain ⟨o1, m1, k1, n1, j1, v1, s1⟩ := h1
  obtain ⟨o2, m2, k2, n2, j2, v2, s2⟩ := h2
  exact ⟨o2.trans o1, m2.trans m1, fun k h => k2 k (k1 k h), n1.trans n2,
    fun h => j2 (j1 h), fun h => v2 (v1 h), fun T h => s2 T (s1 T h)⟩

/-- Popping a frame that was pushed over `c` re-establishes `EvalPres`
    from `c`: the popped instructions nest into the parent and the popped
    bindings release their slots. -/
theorem scope_pop_pres (c cmid c3 : Compiler)
    (hmid : PushPres c cmid) (hpop : pop_scope cmid = .ok c3) : EvalPres c c3 := by
  obtain ⟨ho, hm, hk, hn, hj, hv, hs⟩ := hmid
  unfold pop_scope at hpop
  simp only [ho] at hpop
  cases hpop
  have hgmid : cmid.global = c.global := by
    show cmid.outer.getLastD cmid.cur = c.outer.getLastD c.cur
    rw [ho, List.getLastD_cons]
  have hcount : scope_count c.global.instructions ≤ scope_count
      ((c.outer.getLastD { c.cur with
        instructions := c.cur.instructions ++ [Instr.scope cmid.cur.instructions] }).instructions) := by
    cases houter : c.outer with
    | nil =>
      show scope_count ((c.outer.getLastD c.cur).instructions) ≤ _
      rw [houter]
      show scope_count c.cur.instructions
        ≤ scope_count (c.cur.instructions ++ [Instr.scope cmid.cur.instructions])
      rw [scope_count_append]
      exact Nat.le_add_right _ _
    | cons o rest =>
      show scope_count ((c.outer.getLastD c.cur).instructions) ≤ _
      rw [houter, getLastD_indep (o :: rest) { c.cur with
        instructions := c.cur.instructions ++ [Instr.scope cmid.cur.instructions] } c.cur (by simp)]
  refine ⟨rfl, hm, hk, hcount, ?_, ?_, ?_⟩
  · intro h
    obtain ⟨hsc, hmain⟩ := hj h
    refine ⟨?_, hmain⟩
    intro s hs2
    simp only [Compiler.scope_list, List.mem_cons] at hs2
    rcases hs2 with hs2 | hs2
    · rw [hs2]
      show jumps_arg_ok cmid.jump_marks
        (flatten_scope (c.cur.instructions ++ [Instr.scope cmid.cur.instructions]))
      rw [flatten_scope_append]
      apply jumps_arg_ok_append
      · exact hsc c.cur (by rw [show cmid.scope_list = cmid.cur :: cmid.outer from rfl, ho]; simp)
      · show jumps_arg_ok cmid.jump_marks (flatten_scope cmid.cur.instructions ++ [])
        rw [List.append_nil]
        exact hsc cmid.cur (List.mem_cons_self cmid.cur cmid.outer)
    · exact hsc s (by rw [show cmid.scope_list = cmid.cur :: cmid.outer from rfl, ho]; simp [hs2])
  · intro h v2 hv2
    have := hv h v2 hv2
    rw [hgmid] at this
    exact this.trans hcount
  · intro T h
    have hsm := hs T h
    obtain ⟨h1, h2, h3, h4⟩ := hsm
    have hbmid : bound_slots cmid
        = cmid.cur.vars.map (fun kv => kv.2) ++ bound_slots c := by
      rw [bound_slots_eq cmid, bound_slots_eq c, ho]
      simp
    have hb3 : bound_slots { cmid with
        cur := { c.cur with
          instructions := c.cur.instructions ++ [Instr.scope cmid.cur.instructions] },
        outer := c.outer,
        vars := cmid.cur.vars.foldl (fun bm kv => bm.set kv.2 false) cmid.vars }
        = bound_slots c := by
      rw [bound_slots_eq, bound_slots_eq c]
    rw [hbmid] at h1 h2 h4
    have h1b : (cmid.cur.vars.map (fun kv => kv.2) ++ (bound_slots c ++ T)).Nodup := by
      rw [← List.append_assoc]
      exact h1
    refine ⟨?_, ?_, ?_, ?_⟩
    · rw [hb3]
      exact h1b.of_append_right
    · intro s hs2
      rw [hb3] at hs2
      apply h2
      rw [List.append_assoc]
      exact List.mem_append_right _ hs2
    · show (cmid.cur.vars.foldl (fun bm kv => bm.set kv.2 false) cmid.vars).length = VAR_SLOTS
      rw [clear_many_length]
      exact h3
    · intro i hi
      rw [hb3]
      show (cmid.cur.vars.foldl (fun bm kv => bm.set kv.2 false) cmid.vars).getD i false
          = true ↔ i ∈ bound_slots c ++ T
      rw [getD_clear_many]
      by_cases hip : i ∈ cmid.cur.vars.map (fun kv => kv.2)
      · rw [if_pos hip]
        constructor
        · intro hc
          cases hc
        · intro hc
          exact absurd hc (List.disjoint_of_nodup_append h1b hip)
      · rw [if_neg hip, h4 i hi, List.append_assoc, List.mem_append]
        simp [hip]

/-! The master preservation theorem over the mutual evaluator. -/

theorem from_op_is_jump : ∀ op : EqualityOperator,
    (InstructionVariant.from_op op).is_jump = true := by
  intro op
  cases op <;> rfl

theorem mlookup_minsert_self (m : Marks) (k v : Nat) :
    mlookup (minsert m k v) k ≠ none := by
  rw [mlookup_minsert]
  simp

theorem bind_jump_mark_pres (c : Compiler) (k v : Nat)
    (hv : v ≤ scope_count c.global.instructions) : EvalPres c (bind_jump_mark c k v) :=
  marks_insert_pres c k v hv

theorem insert_jump_mark_pres (c : Compiler) :
    EvalPres c (insert_jump_mark c).2 :=
  marks_insert_pres c (mlen c.jump_marks % 256) 0 (Nat.zero_le _)

theorem scope_len_le (s : List Instr) : scope_len s ≤ scope_count s :=
  Nat.mod_le _ _

/-- Every evaluator function preserves the enclosing scopes, the pending
    main scope, bound mark ids, the global instruction count and the
    three compiler invariants; `push_scope` additionally pushes exactly
    one frame.  `cond_paths` and `put_comparison` require their jump
    target to be a bound mark. -/
theorem eval_pres_all : ∀ fuel : Nat,
    (∀ e c c2, eval_statement fuel e c = .ok c2 → EvalPres c c2) ∧
    (∀ condition body paths alternate c c2,
      eval_conditional fuel condition body paths alternate c = .ok c2 → EvalPres c c2) ∧
    (∀ paths eid halt st st2 c c2,
      cond_paths fuel paths eid halt st c = .ok (st2, c2) →
      mlookup c.jump_marks eid ≠ none → EvalPres c c2) ∧
    (∀ body st c c2, push_scope fuel body st c = .ok c2 → PushPres c c2) ∧
    (∀ body c c2, run_body fuel body c = .ok c2 → EvalPres c c2) ∧
    (∀ left right op loc jt c c2, put_comparison fuel left right op loc jt c = .ok c2 →
      mlookup c.jump_marks jt ≠ none → EvalPres c c2) ∧
    (∀ e c c2, eval_expr fuel e c = .ok c2 → EvalPres c c2) ∧
    (∀ left right op loc c c2, eval_binary_expr fuel left right op loc c = .ok c2 →
      EvalPres c c2) ∧
    (∀ left right comm c sw c2, put_ab fuel left right comm c = .ok (sw, c2) →
      EvalPres c c2) ∧
    (∀ sym v c c2, eval_assignment fuel sym v c = .ok c2 → EvalPres c c2) ∧
    (∀ ident v op c c2, eval_iassignment fuel ident v op c = .ok c2 → EvalPres c c2) ∧
    (∀ e c c2, put_into_a fuel e c = .ok c2 → EvalPres c c2) := by
  intro fuel
  induction fuel with
  | zero =>
    refine ⟨fun e c c2 h => ?_, fun condition body paths alternate c c2 h => ?_,
      fun paths eid halt st st2 c c2 h hb => ?_, fun body st c c2 h => ?_,
      fun body c c2 h => ?_, fun left right op loc jt c c2 h hb => ?_,
      fun e c c2 h => ?_, fun left right op loc c c2 h => ?_,
      fun left right comm c sw c2 h => ?_, fun sym v c c2 h => ?_,
      fun ident v op c c2 h => ?_, fun e c c2 h => ?_⟩
    · simp only [eval_statement] at h
      cases h
    · simp only [eval_conditional] at h
      cases h
    · simp only [cond_paths] at h
      cases h
    · simp only [push_scope] at h
      cases h
    · simp only [run_body] at h
      cases h
    · simp only [put_comparison] at h
      cases h
    · simp only [eval_expr] at h
      cases h
    · simp only [eval_binary_expr] at h
      cases h
    · simp only [put_ab] at h
      cases h
    · simp only [eval_assignment] at h
      cases h
    · simp only [eval_iassignment] at h
      cases h
    · simp only [put_into_a] at h
      cases h
  | succ fuel ih =>
    obtain ⟨ihst, ihcond, ihpaths, ihpush, ihbody, ihcomp, ihexpr, ihbin, ihab,
      ihassign, ihiassign, ihputa⟩ := ih
    refine ⟨?_, ?_, ?_, ?_, ?_, ?_, ?_, ?_, ?_, ?_, ?_, ?_⟩
    · intro e c c2 h
      obtain ⟨typ, location⟩ := e
      cases typ
      case InlineDeclaration ident value =>
        simp only [eval_statement] at h
        cases htc : try_eval_const c value with
        | error loc => simp only [htc] at h; cases h
        | ok v =>
          simp only [htc] at h
          cases h
          exact insert_inline_pres c ident.symbol v
      case Use modules =>
        simp only [eval_statement] at h
        have he := use_loop_ok_eq modules location c c2 h
        rw [he]
        exact evalPres_refl c
      case VarDeclaration ident =>
        simp only [eval_statement] at h
        cases hiv : insert_var c ident.symbol location with
        | error e1 => simp only [hiv] at h; cases h
        | ok pr =>
          obtain ⟨slot, c1⟩ := pr
          simp only [hiv] at h
          cases h
          exact insert_var_pres c ident.symbol location slot c2 hiv
      case Pass =>
        simp only [eval_statement] at h
        cases h
        exact evalPres_refl c
      case EndlessLoop body =>
        simp only [eval_statement] at h
        cases hps : push_scope fuel body ComputerState.default
            (bind_jump_mark (insert_jump_mark c).2 (insert_jump_mark c).1
              (scope_len c.global.instructions)) with
        | error e1 => simp only [hps] at h; cases h
        | ok c3 =>
          simp only [hps] at h
          cases hpp : pop_scope c3 with
          | error e1 => simp only [hpp] at h; cases h
          | ok c4 =>
            simp only [hpp] at h
            cases h
            have h01 : EvalPres c (insert_jump_mark c).2 := insert_jump_mark_pres c
            have h12 : EvalPres (insert_jump_mark c).2
                (bind_jump_mark (insert_jump_mark c).2 (insert_jump_mark c).1
                  (scope_len c.global.instructions)) :=
              bind_jump_mark_pres _ _ _ (scope_len_le c.global.instructions)
            have h24 : EvalPres (bind_jump_mark (insert_jump_mark c).2 (insert_jump_mark c).1
                (scope_len c.global.instructions)) c4 :=
              scope_pop_pres _ c3 c4 (ihpush body ComputerState.default _ c3 hps) hpp
            have hb4 : mlookup c4.jump_marks (insert_jump_mark c).1 ≠ none :=
              h24.2.2.1 _ (mlookup_minsert_self _ _ _)
            exact evalPres_trans h01 (evalPres_trans h12 (evalPres_trans h24
              (push_instr_pres c4 ⟨.JMP, some (insert_jump_mark c).1, location⟩
                (fun _ => ⟨(insert_jump_mark c).1, rfl, hb4⟩))))
      case WhileLoop condition body =>
        simp only [eval_statement] at h
        cases hec : eval_condition condition with
        | error e1 => simp only [hec] at h; cases h
        | ok tri =>
          obtain ⟨left, tri2⟩ := tri
          obtain ⟨right, operator⟩ := tri2
          simp only [hec] at h
          set sic := insert_jump_mark c with hsic
          set eic := insert_jump_mark sic.2 with heic
          cases hpc : put_comparison fuel left right operator.opposite location eic.1 eic.2 with
          | error e1 => simp only [hpc] at h; cases h
          | ok c3 =>
            simp only [hpc] at h
            cases hps : push_scope fuel body
                (bind_jump_mark c3 sic.1 (scope_len c3.global.instructions)).cur.state
                (bind_jump_mark c3 sic.1 (scope_len c3.global.instructions)) with
            | error e1 => simp only [hps] at h; cases h
            | ok c5 =>
              simp only [hps] at h
              cases hpc2 : put_comparison fuel left right operator location sic.1 c5 with
              | error e1 => simp only [hpc2] at h; cases h
              | ok c6 =>
                simp only [hpc2] at h
                cases hpp : pop_scope c6 with
                | error e1 => simp only [hpp] at h; cases h
                | ok c7 =>
                  simp only [hpp] at h
                  cases h
                  have h01 : EvalPres c sic.2 := insert_jump_mark_pres c
                  have h12 : EvalPres sic.2 eic.2 := insert_jump_mark_pres sic.2
                  have hjt : mlookup eic.2.jump_marks eic.1 ≠ none :=
                    mlookup_minsert_self _ _ _
                  have h23 : EvalPres eic.2 c3 :=
                    ihcomp left right operator.opposite location eic.1 eic.2 c3 hpc hjt
                  have h34 : EvalPres c3
                      (bind_jump_mark c3 sic.1 (scope_len c3.global.instructions)) :=
                    bind_jump_mark_pres c3 sic.1 _ (scope_len_le c3.global.instructions)
                  have hpush : PushPres
                      (bind_jump_mark c3 sic.1 (scope_len c3.global.instructions)) c5 :=
                    ihpush body _ _ c5 hps
                  have hsic5 : mlookup c5.jump_marks sic.1 ≠ none :=
                    hpush.2.2.1 sic.1 (mlookup_minsert_self c3.jump_marks sic.1 _)
                  have h56 : EvalPres c5 c6 :=
                    ihcomp left right operator location sic.1 c5 c6 hpc2 hsic5
                  have h47 : EvalPres
                      (bind_jump_mark c3 sic.1 (scope_len c3.global.instructions)) c7 :=
                    scope_pop_pres _ c6 c7 (pushPres_trans_eval hpush h56) hpp
                  exact evalPres_trans h01 (evalPres_trans h12 (evalPres_trans h23
                    (evalPres_trans h34 (evalPres_trans h47
                      (bind_jump_mark_pres c7 eic.1 _ (scope_len_le _))))))
      case Conditional condition body paths alternate =>
        simp only [eval_statement] at h
        exact ihcond condition body paths alternate c c2 h
      case NumericLiteral v =>
        simp only [eval_statement] at h
        exact ihexpr (.mk (.NumericLiteral v) location) c c2 h
      case Identifier s =>
        simp only [eval_statement] at h
        exact ihexpr (.mk (.Identifier s) location) c c2 h
      case Debug =>
        simp only [eval_statement] at h
        exact ihexpr (.mk .Debug location) c c2 h
      case BinaryExpr a b o =>
        simp only [eval_statement] at h
        exact ihexpr (.mk (.BinaryExpr a b o) location) c c2 h
      case EqExpr a b o =>
        simp only [eval_statement] at h
        exact ihexpr (.mk (.EqExpr a b o) location) c c2 h
      case Assignment a b =>
        simp only [eval_statement] at h
        exact ihexpr (.mk (.Assignment a b) location) c c2 h
      case IAssignment a b o =>
        simp only [eval_statement] at h
        exact ihexpr (.mk (.IAssignment a b o) location) c c2 h
      case Call a b =>
        simp only [eval_statement] at h
        exact ihexpr (.mk (.Call a b) location) c c2 h
      case Member a b =>
        simp only [eval_statement] at h
        exact ihexpr (.mk (.Member a b) location) c c2 h
    · intro condition body paths alternate c c2 h
      simp only [eval_conditional] at h
      cases hec : eval_condition condition with
      | error e1 => simp only [hec] at h; cases h
      | ok tri =>
        obtain ⟨left, tri2⟩ := tri
        obtain ⟨right, operator⟩ := tri2
        simp only [hec] at h
        set eic := insert_jump_mark c with heic
        set nic := insert_jump_mark eic.2 with hnic
        cases hpc : put_comparison fuel left right operator.opposite condition.location
            nic.1 nic.2 with
        | error e1 => simp only [hpc] at h; cases h
        | ok c3 =>
          simp only [hpc] at h
          cases hps : push_scope fuel body c3.cur.state c3 with
          | error e1 => simp only [hps] at h; cases h
          | ok c4 =>
            simp only [hps] at h
            have h02 : EvalPres c nic.2 :=
              evalPres_trans (insert_jump_mark_pres c) (insert_jump_mark_pres eic.2)
            have hnicb : mlookup nic.2.jump_marks nic.1 ≠ none := mlookup_minsert_self _ _ _
            have h23 : EvalPres nic.2 c3 :=
              ihcomp left right operator.opposite condition.location nic.1 nic.2 c3 hpc hnicb
            have hpush : PushPres c3 c4 := ihpush body c3.cur.state c3 c4 hps
            have heic4 : mlookup c4.jump_marks eic.1 ≠ none := by
              apply hpush.2.2.1
              apply h23.2.2.1
              exact (insert_jump_mark_pres eic.2).2.2.1 eic.1 (mlookup_minsert_self _ _ _)
            set c5 := if !paths.isEmpty || alternate.isSome then
                push_instr c4 ⟨.JMP, some eic.1, condition.location⟩
              else c4 with hc5
            have h45 : EvalPres c4 c5 := by
              rw [hc5]
              by_cases hcond : (!paths.isEmpty || alternate.isSome) = true
              · rw [if_pos hcond]
                exact push_instr_pres c4 _ (fun _ => ⟨eic.1, rfl, heic4⟩)
              · rw [if_neg hcond]
                exact evalPres_refl c4
            cases hpp : pop_scope c5 with
            | error e1 => simp only [hpp] at h; cases h
            | ok c6 =>
              simp only [hpp] at h
              have h36 : EvalPres c3 c6 :=
                scope_pop_pres c3 c5 c6 (pushPres_trans_eval hpush h45) hpp
              set c7 := bind_jump_mark c6 nic.1 (scope_len c6.global.instructions) with hc7
              have h67 : EvalPres c6 c7 := bind_jump_mark_pres c6 nic.1 _ (scope_len_le _)
              have hpre7 : EvalPres c c7 :=
                evalPres_trans h02 (evalPres_trans h23 (evalPres_trans h36 h67))
              have heic7 : mlookup c7.jump_marks eic.1 ≠ none := by
                apply h67.2.2.1
                apply h36.2.2.1
                apply h23.2.2.1
                exact (insert_jump_mark_pres eic.2).2.2.1 eic.1 (mlookup_minsert_self _ _ _)
              cases hcp : cond_paths fuel paths eic.1 alternate.isSome c3.cur.state c7 with
              | error e1 => simp only [hcp] at h; cases h
              | ok pr =>
                obtain ⟨last_state2, c8⟩ := pr
                simp only [hcp] at h
                have h78 : EvalPres c7 c8 :=
                  ihpaths paths eic.1 alternate.isSome c3.cur.state last_state2 c7 c8 hcp heic7
                have hpre8 : EvalPres c c8 := evalPres_trans hpre7 h78
                cases alternate with
                | none =>
                  cases h
                  exact evalPres_trans hpre8
                    (bind_jump_mark_pres c8 eic.1 _ (scope_len_le _))
                | some abody =>
                  cases hps2 : push_scope fuel abody last_state2 c8 with
                  | error e1 => simp only [hps2] at h; cases h
                  | ok c9 =>
                    simp only [hps2] at h
                    cases hpp2 : pop_scope c9 with
                    | error e1 => simp only [hpp2] at h; cases h
                    | ok c10 =>
                      simp only [hpp2] at h
                      cases h
                      have h810 : EvalPres c8 c10 :=
                        scope_pop_pres c8 c9 c10 (ihpush abody last_state2 c8 c9 hps2) hpp2
                      exact evalPres_trans hpre8 (evalPres_trans h810
                        (bind_jump_mark_pres c10 eic.1 _ (scope_len_le _)))
    · intro paths eid halt st st2 c c2 h heid
      cases paths with
      | nil =>
        simp only [cond_paths] at h
        cases h
        exact evalPres_refl c
      | cons p rest =>
        obtain ⟨condition, body⟩ := p
        simp only [cond_paths] at h
        cases hec : eval_condition condition with
        | error e1 => simp only [hec] at h; cases h
        | ok tri =>
          obtain ⟨left, tri2⟩ := tri
          obtain ⟨right, operator⟩ := tri2
          simp only [hec] at h
          set nic := insert_jump_mark c with hnic
          cases hpc : put_comparison fuel left right operator.opposite condition.location
              nic.1 nic.2 with
          | error e1 => simp only [hpc] at h; cases h
          | ok cc2 =>
            simp only [hpc] at h
            cases hps : push_scope fuel body cc2.cur.state cc2 with
            | error e1 => simp only [hps] at h; cases h
            | ok c3 =>
              simp only [hps] at h
              set c4 := if !rest.isEmpty || halt then
                  push_instr c3 ⟨.JMP, some eid, condition.location⟩
                else c3 with hc4
              have h01 : EvalPres c nic.2 := insert_jump_mark_pres c
              have hnicb : mlookup nic.2.jump_marks nic.1 ≠ none := mlookup_minsert_self _ _ _
              have h12 : EvalPres nic.2 cc2 :=
                ihcomp left right operator.opposite condition.location nic.1 nic.2 cc2 hpc hnicb
              have hpush : PushPres cc2 c3 := ihpush body cc2.cur.state cc2 c3 hps
              have heid3 : mlookup c3.jump_marks eid ≠ none :=
                hpush.2.2.1 eid (h12.2.2.1 eid (h01.2.2.1 eid heid))
              have h34 : EvalPres c3 c4 := by
                rw [hc4]
                by_cases hcond : (!rest.isEmpty || halt) = true
                · rw [if_pos hcond]
                  exact push_instr_pres c3 _ (fun _ => ⟨eid, rfl, heid3⟩)
                · rw [if_neg hcond]
                  exact evalPres_refl c3
              cases hpp : pop_scope c4 with
              | error e1 => simp only [hpp] at h; cases h
              | ok c5 =>
                simp only [hpp] at h
                have h25 : EvalPres cc2 c5 :=
                  scope_pop_pres cc2 c4 c5 (pushPres_trans_eval hpush h34) hpp
                have hpre6 : EvalPres c (bind_jump_mark c5 nic.1
                    (scope_len c5.global.instructions)) :=
                  evalPres_trans h01 (evalPres_trans h12 (evalPres_trans h25
                    (bind_jump_mark_pres c5 nic.1 _ (scope_len_le _))))
                have heid6 : mlookup (bind_jump_mark c5 nic.1
                    (scope_len c5.global.instructions)).jump_marks eid ≠ none :=
                  hpre6.2.2.1 eid heid
                exact evalPres_trans hpre6
                  (ihpaths rest eid halt cc2.cur.state st2 _ c2 h heid6)
    · intro body st c c2 h
      simp only [push_scope] at h
      exact pushPres_trans_eval (push_frame_pres c st) (ihbody body (push_frame c st) c2 h)
    · intro body c c2 h
      cases body with
      | nil =>
        simp only [run_body] at h
        cases h
        exact evalPres_refl c
      | cons line rest =>
        simp only [run_body] at h
        cases hst : eval_statement fuel line c with
        | error e1 => simp only [hst] at h; cases h
        | ok c1 =>
          simp only [hst] at h
          exact evalPres_trans (ihst line c c1 hst) (ihbody rest c1 c2 h)
    · intro left right op loc jt c c2 h hjt
      simp only [put_comparison] at h
      cases hab : put_ab fuel left right true c with
      | error e1 => simp only [hab] at h; cases h
      | ok pr =>
        obtain ⟨swapped, c1⟩ := pr
        simp only [hab] at h
        cases h
        have h01 : EvalPres c c1 := ihab left right true c swapped c1 hab
        exact evalPres_trans h01 (push_instr_pres c1
          ⟨InstructionVariant.from_op (if swapped then op.turnaround else op), some jt, loc⟩
          (fun _ => ⟨jt, rfl, h01.2.2.1 jt hjt⟩))
    · intro e c c2 h
      obtain ⟨typ, location⟩ := e
      cases typ
      case NumericLiteral v =>
        simp only [eval_expr] at h
        exact ihputa (.mk (.NumericLiteral v) location) c c2 h
      case Identifier s =>
        simp only [eval_expr] at h
        exact ihputa (.mk (.Identifier s) location) c c2 h
      case BinaryExpr left right operator =>
        simp only [eval_expr] at h
        exact ihbin left right operator location c c2 h
      case Assignment ident value =>
        simp only [eval_expr] at h
        exact ihassign ident.symbol value c c2 h
      case IAssignment ident value operator =>
        simp only [eval_expr] at h
        exact ihiassign ident value operator c c2 h
      case Call function args =>
        simp only [eval_expr] at h
        exact (eval_call_no_ok c function args c2 h).elim
      case EqExpr a b o =>
        simp only [eval_expr] at h
        cases h
      case Debug =>
        simp only [eval_expr] at h
        cases h
        exact push_instr_nonjump_pres c ⟨.LAL, some 17, location⟩ rfl
      case Member a b =>
        simp only [eval_expr] at h
        cases h
      case InlineDeclaration a b =>
        simp only [eval_expr] at h
        cases h
      case VarDeclaration a =>
        simp only [eval_expr] at h
        cases h
      case Use a =>
        simp only [eval_expr] at h
        cases h
      case Pass =>
        simp only [eval_expr] at h
        cases h
      case EndlessLoop a =>
        simp only [eval_expr] at h
        cases h
      case WhileLoop a b =>
        simp only [eval_expr] at h
        cases h
      case Conditional a b d e2 =>
        simp only [eval_expr] at h
        cases h
    · intro left right op loc c c2 h
      simp only [eval_binary_expr] at h
      cases hab : put_ab fuel left right op.is_commutative c with
      | error e1 => simp only [hab] at h; cases h
      | ok pr =>
        obtain ⟨sw2, c1⟩ := pr
        simp only [hab] at h
        cases h
        exact evalPres_trans (ihab left right op.is_commutative c sw2 c1 hab)
          (put_op_pres c1 op loc)
    · intro left right comm c sw c2 h
      obtain ⟨rtyp, rloc⟩ := right
      simp only [put_ab] at h
      cases hca : can_put_into_a left with
      | true =>
        cases hcb : can_put_into_b (.mk rtyp rloc) with
        | true =>
          simp only [hca, hcb] at h
          by_cases hsw2 : (comm && (is_in_a c (.mk rtyp rloc) || is_in_b c left ||
              (is_identifier_expr (.mk rtyp rloc) && is_literal_expr left))) = true
          · rw [if_pos hsw2] at h
            cases hpa : put_into_a fuel (.mk rtyp rloc) c with
            | error e1 => simp only [hpa] at h; cases h
            | ok c1 =>
              simp only [hpa] at h
              cases hpb : put_into_b c1 left with
              | error e1 => simp only [hpb] at h; cases h
              | ok cc2 =>
                simp only [hpb] at h
                cases h
                exact evalPres_trans (ihputa (.mk rtyp rloc) c c1 hpa)
                  (put_into_b_pres c1 left c2 hpb)
          · rw [if_neg hsw2] at h
            cases hpa : put_into_a fuel left c with
            | error e1 => simp only [hpa] at h; cases h
            | ok c1 =>
              simp only [hpa] at h
              cases hpb : put_into_b c1 (.mk rtyp rloc) with
              | error e1 => simp only [hpb] at h; cases h
              | ok cc2 =>
                simp only [hpb] at h
                cases h
                exact evalPres_trans (ihputa left c c1 hpa)
                  (put_into_b_pres c1 (.mk rtyp rloc) c2 hpb)
        | false =>
          simp only [hca, hcb] at h
          cases hee : eval_expr fuel (.mk rtyp rloc) c with
          | error e1 => simp only [hee] at h; cases h
          | ok c1 =>
            simp only [hee] at h
            have h01 : EvalPres c c1 := ihexpr (.mk rtyp rloc) c c1 hee
            by_cases hbl : (comm && can_put_into_b left) = true
            · rw [if_pos hbl] at h
              cases hpb : put_into_b c1 left with
              | error e1 => simp only [hpb] at h; cases h
              | ok cc2 =>
                simp only [hpb] at h
                cases h
                exact evalPres_trans h01 (put_into_b_pres c1 left c2 hpb)
            · rw [if_neg hbl] at h
              cases rtyp with
              | Assignment ident value =>
                cases hgv : get_var c1 ident.symbol Range.default with
                | ok v =>
                  simp only [hgv] at h
                  cases hpa : put_into_a fuel left (push_instr c1 ⟨.LB, some v, rloc⟩) with
                  | error e1 => simp only [hpa] at h; cases h
                  | ok c3 =>
                    simp only [hpa] at h
                    cases h
                    exact evalPres_trans h01 (evalPres_trans
                      (push_instr_nonjump_pres c1 ⟨.LB, some v, rloc⟩ rfl)
                      (ihputa left _ c2 hpa))
                | error e1 => simp only [hgv] at h; cases h
              | NumericLiteral v =>
                cases hsw3 : switch c1 left.location with
                | error e1 => simp only [hsw3] at h; cases h
                | ok cs =>
                  simp only [hsw3] at h
                  cases hpa : put_into_a fuel left cs with
                  | error e1 => simp only [hpa] at h; cases h
                  | ok c3 =>
                    simp only [hpa] at h
                    cases h
                    exact evalPres_trans h01 (evalPres_trans
                      (switch_pres c1 left.location cs hsw3) (ihputa left cs c2 hpa))
              | Identifier s2 =>
                cases hsw3 : switch c1 left.location with
                | error e1 => simp only [hsw3] at h; cases h
                | ok cs =>
                  simp only [hsw3] at h
                  cases hpa : put_into_a fuel left cs with
                  | error e1 => simp only [hpa] at h; cases h
                  | ok c3 =>
                    simp only [hpa] at h
                    cases h
                    exact evalPres_trans h01 (evalPres_trans
                      (switch_pres c1 left.location cs hsw3) (ihputa left cs c2 hpa))
              | Debug =>
                cases hsw3 : switch c1 left.location with
                | error e1 => simp only [hsw3] at h; cases h
                | ok cs =>
                  simp only [hsw3] at h
                  cases hpa : put_into_a fuel left cs with
                  | error e1 => simp only [hpa] at h; cases h
                  | ok c3 =>
                    simp only [hpa] at h
                    cases h
                    exact evalPres_trans h01 (evalPres_trans
                      (switch_pres c1 left.location cs hsw3) (ihputa left cs c2 hpa))
              | Pass =>
                cases hsw3 : switch c1 left.location with
                | error e1 => simp only [hsw3] at h; cases h
                | ok cs =>
                  simp only [hsw3] at h
                  cases hpa : put_into_a fuel left cs with
                  | error e1 => simp only [hpa] at h; cases h
                  | ok c3 =>
                    simp only [hpa] at h
                    cases h
                    exact evalPres_trans h01 (evalPres_trans
                      (switch_pres c1 left.location cs hsw3) (ihputa left cs c2 hpa))
              | BinaryExpr a b o =>
                cases hsw3 : switch c1 left.location with
                | error e1 => simp only [hsw3] at h; cases h
                | ok cs =>
                  simp only [hsw3] at h
                  cases hpa : put_into_a fuel left cs with
                  | error e1 => simp only [hpa] at h; cases h
                  | ok c3 =>
                    simp only [hpa] at h
                    cases h
                    exact evalPres_trans h01 (evalPres_trans
                      (switch_pres c1 left.location cs hsw3) (ihputa left cs c2 hpa))
              | EqExpr a b o =>
                cases hsw3 : switch c1 left.location with
                | error e1 => simp only [hsw3] at h; cases h
                | ok cs =>
                  simp only [hsw3] at h
                  cases hpa : put_into_a fuel left cs with
                  | error e1 => simp only [hpa] at h; cases h
                  | ok c3 =>
                    simp only [hpa] at h
                    cases h
                    exact evalPres_trans h01 (evalPres_trans
                      (switch_pres c1 left.location cs hsw3) (ihputa left cs c2 hpa))
              | IAssignment a b o =>
                cases hsw3 : switch c1 left.location with
                | error e1 => simp only [hsw3] at h; cases h
                | ok cs =>
                  simp only [hsw3] at h
                  cases hpa : put_into_a fuel left cs with
                  | error e1 => simp only [hpa] at h; cases h
                  | ok c3 =>
                    simp only [hpa] at h
                    cases h
                    exact evalPres_trans h01 (evalPres_trans
                      (switch_pres c1 left.location cs hsw3) (ihputa left cs c2 hpa))
              | Call a b =>
                cases hsw3 : switch c1 left.location with
                | error e1 => simp only [hsw3] at h; cases h
                | ok cs =>
                  simp only [hsw3] at h
                  cases hpa : put_into_a fuel left cs with
                  | error e1 => simp only [hpa] at h; cases h
                  | ok c3 =>
                    simp only [hpa] at h
                    cases h
                    exact evalPres_trans h01 (evalPres_trans
                      (switch_pres c1 left.location cs hsw3) (ihputa left cs c2 hpa))
              | Member a b =>
                cases hsw3 : switch c1 left.location with
                | error e1 => simp only [hsw3] at h; cases h
                | ok cs =>
                  simp only [hsw3] at h
                  cases hpa : put_into_a fuel left cs with
                  | error e1 => simp only [hpa] at h; cases h
                  | ok c3 =>
                    simp only [hpa] at h
                    cases h
                    exact evalPres_trans h01 (evalPres_trans
                      (switch_pres c1 left.location cs hsw3) (ihputa left cs c2 hpa))
              | VarDeclaration a =>
                cases hsw3 : switch c1 left.location with
                | error e1 => simp only [hsw3] at h; cases h
                | ok cs =>
                  simp only [hsw3] at h
                  cases hpa : put_into_a fuel left cs with
                  | error e1 => simp only [hpa] at h; cases h
                  | ok c3 =>
                    simp only [hpa] at h
                    cases h
                    exact evalPres_trans h01 (evalPres_trans
                      (switch_pres c1 left.location cs hsw3) (ihputa left cs c2 hpa))
              | InlineDeclaration a b =>
                cases hsw3 : switch c1 left.location with
                | error e1 => simp only [hsw3] at h; cases h
                | ok cs =>
                  simp only [hsw3] at h
                  cases hpa : put_into_a fuel left cs with
                  | error e1 => simp only [hpa] at h; cases h
                  | ok c3 =>
                    simp only [hpa] at h
                    cases h
                    exact evalPres_trans h01 (evalPres_trans
                      (switch_pres c1 left.location cs hsw3) (ihputa left cs c2 hpa))
              | Use a =>
                cases hsw3 : switch c1 left.location with
                | error e1 => simp only [hsw3] at h; cases h
                | ok cs =>
                  simp only [hsw3] at h
                  cases hpa : put_into_a fuel left cs with
                  | error e1 => simp only [hpa] at h; cases h
                  | ok c3 =>
                    simp only [hpa] at h
                    cases h
                    exact evalPres_trans h01 (evalPres_trans
                      (switch_pres c1 left.location cs hsw3) (ihputa left cs c2 hpa))
              | Conditional a b d e2 =>
                cases hsw3 : switch c1 left.location with
                | error e1 => simp only [hsw3] at h; cases h
                | ok cs =>
                  simp only [hsw3] at h
                  cases hpa : put_into_a fuel left cs with
                  | error e1 => simp only [hpa] at h; cases h
                  | ok c3 =>
                    simp only [hpa] at h
                    cases h
                    exact evalPres_trans h01 (evalPres_trans
                      (switch_pres c1 left.location cs hsw3) (ihputa left cs c2 hpa))
              | EndlessLoop a =>
                cases hsw3 : switch c1 left.location with
                | error e1 => simp only [hsw3] at h; cases h
                | ok cs =>
                  simp only [hsw3] at h
                  cases hpa : put_into_a fuel left cs with
                  | error e1 => simp only [hpa] at h; cases h
                  | ok c3 =>
                    simp only [hpa] at h
                    cases h
                    exact evalPres_trans h01 (evalPres_trans
                      (switch_pres c1 left.location cs hsw3) (ihputa left cs c2 hpa))
              | WhileLoop a b =>
                cases hsw3 : switch c1 left.location with
                | error e1 => simp only [hsw3] at h; cases h
                | ok cs =>
                  simp only [hsw3] at h
                  cases hpa : put_into_a fuel left cs with
                  | error e1 => simp only [hpa] at h; cases h
                  | ok c3 =>
                    simp only [hpa] at h
                    cases h
                    exact evalPres_trans h01 (evalPres_trans
                      (switch_pres c1 left.location cs hsw3) (ihputa left cs c2 hpa))
      | false =>
        cases hcb : can_put_into_b (.mk rtyp rloc) with
        | true =>
          simp only [hca, hcb] at h
          cases hee : eval_expr fuel left c with
          | error e1 => simp only [hee] at h; cases h
          | ok c1 =>
            simp only [hee] at h
            cases hpb : put_into_b c1 (.mk rtyp rloc) with
            | error e1 => simp only [hpb] at h; cases h
            | ok cc2 =>
              simp only [hpb] at h
              cases h
              exact evalPres_trans (ihexpr left c c1 hee)
                (put_into_b_pres c1 (.mk rtyp rloc) c2 hpb)
        | false =>
          simp only [hca, hcb] at h
          cases hee : eval_expr fuel (.mk rtyp rloc) c with
          | error e1 => simp only [hee] at h; cases h
          | ok c1 =>
            simp only [hee] at h
            have h01 : EvalPres c c1 := ihexpr (.mk rtyp rloc) c c1 hee
            cases rtyp with
            | Assignment ident value =>
              cases hee2 : eval_expr fuel left c1 with
              | error e1 => simp only [hee2] at h; cases h
              | ok cc2 =>
                simp only [hee2] at h
                cases hgv : get_var cc2 ident.symbol Range.default with
                | ok v =>
                  simp only [hgv] at h
                  cases h
                  exact evalPres_trans h01 (evalPres_trans (ihexpr left c1 cc2 hee2)
                    (push_instr_nonjump_pres cc2 ⟨.LB, some v, rloc⟩ rfl))
                | error e1 => simp only [hgv] at h; cases h
            | NumericLiteral v =>
                cases hit : insert_temp_var c1 left.location with
                | error e1 => simp only [hit] at h; cases h
                | ok pr2 =>
                  obtain ⟨temp, ct⟩ := pr2
                  simp only [hit] at h
                  cases hee2 : eval_expr fuel left
                      (push_instr ct ⟨.SVA, some temp, left.location⟩) with
                  | error e1 => simp only [hee2] at h; cases h
                  | ok c4 =>
                    simp only [hee2] at h
                    cases h
                    exact evalPres_trans h01 (temp_bracket_pres c1 ct _ left.location temp hit
                      (evalPres_trans (push_instr_nonjump_pres ct ⟨.SVA, some temp,
                          left.location⟩ rfl)
                        (evalPres_trans (ihexpr left _ c4 hee2)
                          (push_instr_nonjump_pres c4 ⟨.LB, some temp,
                            left.location⟩ rfl))))
            | Identifier s2 =>
                cases hit : insert_temp_var c1 left.location with
                | error e1 => simp only [hit] at h; cases h
                | ok pr2 =>
                  obtain ⟨temp, ct⟩ := pr2
                  simp only [hit] at h
                  cases hee2 : eval_expr fuel left
                      (push_instr ct ⟨.SVA, some temp, left.location⟩) with
                  | error e1 => simp only [hee2] at h; cases h
                  | ok c4 =>
                    simp only [hee2] at h
                    cases h
                    exact evalPres_trans h01 (temp_bracket_pres c1 ct _ left.location temp hit
                      (evalPres_trans (push_instr_nonjump_pres ct ⟨.SVA, some temp,
                          left.location⟩ rfl)
                        (evalPres_trans (ihexpr left _ c4 hee2)
                          (push_instr_nonjump_pres c4 ⟨.LB, some temp,
                            left.location⟩ rfl))))
            | Debug =>
                cases hit : insert_temp_var c1 left.location with
                | error e1 => simp only [hit] at h; cases h
                | ok pr2 =>
                  obtain ⟨temp, ct⟩ := pr2
                  simp only [hit] at h
                  cases hee2 : eval_expr fuel left
                      (push_instr ct ⟨.SVA, some temp, left.location⟩) with
                  | error e1 => simp only [hee2] at h; cases h
                  | ok c4 =>
                    simp only [hee2] at h
                    cases h
                    exact evalPres_trans h01 (temp_bracket_pres c1 ct _ left.location temp hit
                      (evalPres_trans (push_instr_nonjump_pres ct ⟨.SVA, some temp,
                          left.location⟩ rfl)
                        (evalPres_trans (ihexpr left _ c4 hee2)
                          (push_instr_nonjump_pres c4 ⟨.LB, some temp,
                            left.location⟩ rfl))))
            | Pass =>
                cases hit : insert_temp_var c1 left.location with
                | error e1 => simp only [hit] at h; cases h
                | ok pr2 =>
                  obtain ⟨temp, ct⟩ := pr2
                  simp only [hit] at h
                  cases hee2 : eval_expr fuel left
                      (push_instr ct ⟨.SVA, some temp, left.location⟩) with
                  | error e1 => simp only [hee2] at h; cases h
                  | ok c4 =>
                    simp only [hee2] at h
                    cases h
                    exact evalPres_trans h01 (temp_bracket_pres c1 ct _ left.location temp hit
                      (evalPres_trans (push_instr_nonjump_pres ct ⟨.SVA, some temp,
                          left.location⟩ rfl)
                        (evalPres_trans (ihexpr left _ c4 hee2)
                          (push_instr_nonjump_pres c4 ⟨.LB, some temp,
                            left.location⟩ rfl))))
            | BinaryExpr a b o =>
                cases hit : insert_temp_var c1 left.location with
                | error e1 => simp only [hit] at h; cases h
                | ok pr2 =>
                  obtain ⟨temp, ct⟩ := pr2
                  simp only [hit] at h
                  cases hee2 : eval_expr fuel left
                      (push_instr ct ⟨.SVA, some temp, left.location⟩) with
                  | error e1 => simp only [hee2] at h; cases h
                  | ok c4 =>
                    simp only [hee2] at h
                    cases h
                    exact evalPres_trans h01 (temp_bracket_pres c1 ct _ left.location temp hit
                      (evalPres_trans (push_instr_nonjump_pres ct ⟨.SVA, some temp,
                          left.location⟩ rfl)
                        (evalPres_trans (ihexpr left _ c4 hee2)
                          (push_instr_nonjump_pres c4 ⟨.LB, some temp,
                            left.location⟩ rfl))))
            | EqExpr a b o =>
                cases hit : insert_temp_var c1 left.location with
                | error e1 => simp only [hit] at h; cases h
                | ok pr2 =>
                  obtain ⟨temp, ct⟩ := pr2
                  simp only [hit] at h
                  cases hee2 : eval_expr fuel left
                      (push_instr ct ⟨.SVA, some temp, left.location⟩) with
                  | error e1 => simp only [hee2] at h; cases h
                  | ok c4 =>
                    simp only [hee2] at h
                    cases h
                    exact evalPres_trans h01 (temp_bracket_pres c1 ct _ left.location temp hit
                      (evalPres_trans (push_instr_nonjump_pres ct ⟨.SVA, some temp,
                          left.location⟩ rfl)
                        (evalPres_trans (ihexpr left _ c4 hee2)
                          (push_instr_nonjump_pres c4 ⟨.LB, some temp,
                            left.location⟩ rfl))))
            | IAssignment a b o =>
                cases hit : insert_temp_var c1 left.location with
                | error e1 => simp only [hit] at h; cases h
                | ok pr2 =>
                  obtain ⟨temp, ct⟩ := pr2
                  simp only [hit] at h
                  cases hee2 : eval_expr fuel left
                      (push_instr ct ⟨.SVA, some temp, left.location⟩) with
                  | error e1 => simp only [hee2] at h; cases h
                  | ok c4 =>
                    simp only [hee2] at h
                    cases h
                    exact evalPres_trans h01 (temp_bracket_pres c1 ct _ left.location temp hit
                      (evalPres_trans (push_instr_nonjump_pres ct ⟨.SVA, some temp,
                          left.location⟩ rfl)
                        (evalPres_trans (ihexpr left _ c4 hee2)
                          (push_instr_nonjump_pres c4 ⟨.LB, some temp,
                            left.location⟩ rfl))))
            | Call a b =>
                cases hit : insert_temp_var c1 left.location with
                | error e1 => simp only [hit] at h; cases h
                | ok pr2 =>
                  obtain ⟨temp, ct⟩ := pr2
                  simp only [hit] at h
                  cases hee2 : eval_expr fuel left
                      (push_instr ct ⟨.SVA, some temp, left.location⟩) with
                  | error e1 => simp only [hee2] at h; cases h
                  | ok c4 =>
                    simp only [hee2] at h
                    cases h
                    exact evalPres_trans h01 (temp_bracket_pres c1 ct _ left.location temp hit
                      (evalPres_trans (push_instr_nonjump_pres ct ⟨.SVA, some temp,
                          left.location⟩ rfl)
                        (evalPres_trans (ihexpr left _ c4 hee2)
                          (push_instr_nonjump_pres c4 ⟨.LB, some temp,
                            left.location⟩ rfl))))
            | Member a b =>
                cases hit : insert_temp_var c1 left.location with
                | error e1 => simp only [hit] at h; cases h
                | ok pr2 =>
                  obtain ⟨temp, ct⟩ := pr2
                  simp only [hit] at h
                  cases hee2 : eval_expr fuel left
                      (push_instr ct ⟨.SVA, some temp, left.location⟩) with
                  | error e1 => simp only [hee2] at h; cases h
                  | ok c4 =>
                    simp only [hee2] at h
                    cases h
                    exact evalPres_trans h01 (temp_bracket_pres c1 ct _ left.location temp hit
                      (evalPres_trans (push_instr_nonjump_pres ct ⟨.SVA, some temp,
                          left.location⟩ rfl)
                        (evalPres_trans (ihexpr left _ c4 hee2)
                          (push_instr_nonjump_pres c4 ⟨.LB, some temp,
                            left.location⟩ rfl))))
            | VarDeclaration a =>
                cases hit : insert_temp_var c1 left.location with
                | error e1 => simp only [hit] at h; cases h
                | ok pr2 =>
                  obtain ⟨temp, ct⟩ := pr2
                  simp only [hit] at h
                  cases hee2 : eval_expr fuel left
                      (push_instr ct ⟨.SVA, some temp, left.location⟩) with
                  | error e1 => simp only [hee2] at h; cases h
                  | ok c4 =>
                    simp only [hee2] at h
                    cases h
                    exact evalPres_trans h01 (temp_bracket_pres c1 ct _ left.location temp hit
                      (evalPres_trans (push_instr_nonjump_pres ct ⟨.SVA, some temp,
                          left.location⟩ rfl)
                        (evalPres_trans (ihexpr left _ c4 hee2)
                          (push_instr_nonjump_pres c4 ⟨.LB, some temp,
                            left.location⟩ rfl))))
            | InlineDeclaration a b =>
                cases hit : insert_temp_var c1 left.location with
                | error e1 => simp only [hit] at h; cases h
                | ok pr2 =>
                  obtain ⟨temp, ct⟩ := pr2
                  simp only [hit] at h
                  cases hee2 : eval_expr fuel left
                      (push_instr ct ⟨.SVA, some temp, left.location⟩) with
                  | error e1 => simp only [hee2] at h; cases h
                  | ok c4 =>
                    simp only [hee2] at h
                    cases h
                    exact evalPres_trans h01 (temp_bracket_pres c1 ct _ left.location temp hit
                      (evalPres_trans (push_instr_nonjump_pres ct ⟨.SVA, some temp,
                          left.location⟩ rfl)
                        (evalPres_trans (ihexpr left _ c4 hee2)
                          (push_instr_nonjump_pres c4 ⟨.LB, some temp,
                            left.location⟩ rfl))))
            | Use a =>
                cases hit : insert_temp_var c1 left.location with
                | error e1 => simp only [hit] at h; cases h
                | ok pr2 =>
                  obtain ⟨temp, ct⟩ := pr2
                  simp only [hit] at h
                  cases hee2 : eval_expr fuel left
                      (push_instr ct ⟨.SVA, some temp, left.location⟩) with
                  | error e1 => simp only [hee2] at h; cases h
                  | ok c4 =>
                    simp only [hee2] at h
                    cases h
                    exact evalPres_trans h01 (temp_bracket_pres c1 ct _ left.location temp hit
                      (evalPres_trans (push_instr_nonjump_pres ct ⟨.SVA, some temp,
                          left.location⟩ rfl)
                        (evalPres_trans (ihexpr left _ c4 hee2)
                          (push_instr_nonjump_pres c4 ⟨.LB, some temp,
                            left.location⟩ rfl))))
            | Conditional a b d e2 =>
                cases hit : insert_temp_var c1 left.location with
                | error e1 => simp only [hit] at h; cases h
                | ok pr2 =>
                  obtain ⟨temp, ct⟩ := pr2
                  simp only [hit] at h
                  cases hee2 : eval_expr fuel left
                      (push_instr ct ⟨.SVA, some temp, left.location⟩) with
                  | error e1 => simp only [hee2] at h; cases h
                  | ok c4 =>
                    simp only [hee2] at h
                    cases h
                    exact evalPres_trans h01 (temp_bracket_pres c1 ct _ left.location temp hit
                      (evalPres_trans (push_instr_nonjump_pres ct ⟨.SVA, some temp,
                          left.location⟩ rfl)
                        (evalPres_trans (ihexpr left _ c4 hee2)
                          (push_instr_nonjump_pres c4 ⟨.LB, some temp,
                            left.location⟩ rfl))))
            | EndlessLoop a =>
                cases hit : insert_temp_var c1 left.location with
                | error e1 => simp only [hit] at h; cases h
                | ok pr2 =>
                  obtain ⟨temp, ct⟩ := pr2
                  simp only [hit] at h
                  cases hee2 : eval_expr fuel left
                      (push_instr ct ⟨.SVA, some temp, left.location⟩) with
                  | error e1 => simp only [hee2] at h; cases h
                  | ok c4 =>
                    simp only [hee2] at h
                    cases h
                    exact evalPres_trans h01 (temp_bracket_pres c1 ct _ left.location temp hit
                      (evalPres_trans (push_instr_nonjump_pres ct ⟨.SVA, some temp,
                          left.location⟩ rfl)
                        (evalPres_trans (ihexpr left _ c4 hee2)
                          (push_instr_nonjump_pres c4 ⟨.LB, some temp,
                            left.location⟩ rfl))))
            | WhileLoop a b =>
                cases hit : insert_temp_var c1 left.location with
                | error e1 => simp only [hit] at h; cases h
                | ok pr2 =>
                  obtain ⟨temp, ct⟩ := pr2
                  simp only [hit] at h
                  cases hee2 : eval_expr fuel left
                      (push_instr ct ⟨.SVA, some temp, left.location⟩) with
                  | error e1 => simp only [hee2] at h; cases h
                  | ok c4 =>
                    simp only [hee2] at h
                    cases h
                    exact evalPres_trans h01 (temp_bracket_pres c1 ct _ left.location temp hit
                      (evalPres_trans (push_instr_nonjump_pres ct ⟨.SVA, some temp,
                          left.location⟩ rfl)
                        (evalPres_trans (ihexpr left _ c4 hee2)
                          (push_instr_nonjump_pres c4 ⟨.LB, some temp,
                            left.location⟩ rfl))))
    · intro sym v c c2 h
      simp only [eval_assignment] at h
      cases hee : eval_expr fuel v c with
      | error e1 => simp only [hee] at h; cases h
      | ok c1 =>
        simp only [hee] at h
        cases hiv : insert_var c1 sym v.location with
        | error e1 => simp only [hiv] at h; cases h
        | ok pr =>
          obtain ⟨slot, cc2⟩ := pr
          simp only [hiv] at h
          cases h
          exact evalPres_trans (ihexpr v c c1 hee)
            (evalPres_trans (insert_var_pres c1 sym v.location slot cc2 hiv)
              (push_instr_nonjump_pres cc2 ⟨.SVA, some slot, v.location⟩ rfl))
    · intro ident v op c c2 h
      simp only [eval_iassignment] at h
      cases hee : eval_expr fuel v c with
      | error e1 => simp only [hee] at h; cases h
      | ok c1 =>
        simp only [hee] at h
        cases hpb : put_into_b c1 (.mk (.Identifier ident.symbol) v.location) with
        | error e1 => simp only [hpb] at h; cases h
        | ok cc2 =>
          simp only [hpb] at h
          cases hgv : get_var (put_op cc2 op v.location) ident.symbol v.location with
          | error e1 => simp only [hgv] at h; cases h
          | ok slot =>
            simp only [hgv] at h
            cases h
            exact evalPres_trans (ihexpr v c c1 hee)
              (evalPres_trans (put_into_b_pres c1 _ cc2 hpb)
                (evalPres_trans (put_op_pres cc2 op v.location)
                  (save_to_pres (put_op cc2 op v.location) slot v.location)))
    · intro e c c2 h
      obtain ⟨typ, location⟩ := e
      cases typ
      case NumericLiteral v =>
        simp only [put_into_a] at h
        cases h
        exact put_a_number_pres c v location
      case Identifier sym =>
        simp only [put_into_a] at h
        cases hgi : get_inline_var c sym location with
        | ok value =>
          simp only [hgi] at h
          cases h
          exact put_a_number_pres c value location
        | error e1 =>
          simp only [hgi] at h
          cases hgv : get_var c sym location with
          | error e2 => simp only [hgv] at h; cases h
          | ok var =>
            simp only [hgv] at h
            by_cases hb : c.cur.state.a = RegisterContents.Variable var
            · rw [if_pos hb] at h
              cases h
              exact evalPres_refl c
            · rw [if_neg hb] at h
              cases h
              exact push_instr_nonjump_pres c ⟨.LA, some var, location⟩ rfl
      case Assignment ident value =>
        simp only [put_into_a] at h
        by_cases hcp : can_put_into_a (.mk (.Assignment ident value) location) = true
        · rw [if_pos hcp] at h
          exact ihexpr (.mk (.Assignment ident value) location) c c2 h
        · rw [if_neg hcp] at h
          cases h
      all_goals simp only [put_into_a] at h
      all_goals cases h

/-- The top-level statement loop preserves everything when no error is
    collected. -/
theorem run_statements_pres : ∀ (fuel : Nat) (ast : List Expression) (c c2 : Compiler),
    run_statements fuel ast c = .ok ([], c2) → EvalPres c c2 := by
  intro fuel
  induction fuel with
  | zero =>
    intro ast c c2 h
    simp only [run_statements] at h
    cases h
  | succ fuel ih =>
    intro ast c c2 h
    cases ast with
    | nil =>
      simp only [run_statements] at h
      cases h
      exact evalPres_refl c
    | cons line rest =>
      simp only [run_statements] at h
      cases hst : eval_statement fuel line c with
      | ok c1 =>
        simp only [hst] at h
        cases hrec : run_statements fuel rest c1 with
        | error s2 => simp only [hrec] at h; cases h
        | ok pr =>
          obtain ⟨errs, c3⟩ := pr
          simp only [hrec] at h
          cases h
          exact evalPres_trans ((eval_pres_all fuel).1 line c c1 hst) (ih rest c1 c2 hrec)
      | error e1 =>
        cases e1 with
        | err t r =>
          simp only [hst] at h
          cases hrec : run_statements fuel rest c with
          | error s2 => simp only [hrec] at h; cases h
          | ok pr =>
            obtain ⟨errs, c3⟩ := pr
            simp only [hrec] at h
            cases h
        | panicked s2 =>
          simp only [hst] at h
          cases h

theorem slots_inv_new : slots_inv Compiler.new [] := by
  refine ⟨by simp [bound_slots, Compiler.scope_list, Compiler.new, Scope.default], ?_, ?_, ?_⟩
  · intro s hs
    simp [bound_slots, Compiler.scope_list, Compiler.new, Scope.default] at hs
  · simp [Compiler.new, VAR_SLOTS]
  · intro i hi
    show (List.replicate VAR_SLOTS false).getD i false = true ↔ _
    rw [getD_replicate_false]
    simp [bound_slots, Compiler.scope_list, Compiler.new, Scope.default]

theorem comp_jumps_ok_new : comp_jumps_ok Compiler.new := by
  constructor
  · intro s hs
    simp only [Compiler.scope_list, Compiler.new, List.mem_cons, List.not_mem_nil,
      or_false] at hs
    rw [hs]
    exact jumps_arg_ok_nil
  · exact jumps_arg_ok_nil

theorem marks_vals_ok_new : marks_vals_ok Compiler.new := by
  intro v hv
  simp [mvalues, Compiler.new] at hv

/-- C7: after a full successful compilation (no collected errors) the
    number of `true` entries in the 32-slot occupancy bitmap equals the
    number of variables bound in the root (global) scope, the statement
    loop having returned to the root: `pop_scope` frees the slot of
    every binding of the popped scope and every temporary acquired
    during expression lowering is released before evaluation proceeds. -/
theorem C7_slot_conservation (fuel : Nat) (ast : List Expression) (c2 : Compiler)
    (h : run_statements fuel ast Compiler.new = .ok ([], c2)) :
    c2.vars.count true = c2.cur.vars.length ∧ c2.outer = [] := by
  have hp := run_statements_pres fuel ast Compiler.new c2 h
  obtain ⟨ho, hm, hk, hn, hj, hv, hs⟩ := hp
  have houter : c2.outer = [] := ho
  refine ⟨?_, houter⟩
  obtain ⟨h1, h2, h3, h4⟩ := hs [] slots_inv_new
  have hbound : bound_slots c2 = c2.cur.vars.map (fun kv => kv.2) := by
    rw [bound_slots_eq, houter]
    simp
  have hcount := count_true_of_slots (bound_slots c2 ++ []) c2.vars h1
      (by intro s2 hs2; rw [h3]; exact h2 s2 hs2)
      (by intro i hi; rw [h3] at hi; exact h4 i hi)
  rw [hcount, List.append_nil, hbound, List.length_map]

def c7_compiler : Compiler :=
  match run_statements 20 prog_scenario3 Compiler.new with
  | .ok (_, c) => c
  | .error _ => Compiler.new

/-- C7 witness: the five-statement example program compiles with no
    errors and leaves exactly its two root bindings occupied. -/
theorem C7_witness :
    run_statements 20 prog_scenario3 Compiler.new = .ok ([], c7_compiler) ∧
    (c7_compiler.vars.count true = c7_compiler.cur.vars.length ∧ c7_compiler.outer = []) :=
  ⟨rfl, C7_slot_conservation 20 prog_scenario3 c7_compiler rfl⟩

/-! Mark resolution for C2: jump arguments through the page pass and the
    final substitution. -/

theorem mlookup_some_mem_mvalues : ∀ (m : Marks) (k v : Nat),
    mlookup m k = some v → v ∈ mvalues m := by
  intro m
  induction m with
  | nil => intro k v h; simp [mlookup] at h
  | cons hd tl ih =>
    intro k v h
    by_cases hk : (hd.1 == k) = true
    · simp only [mlookup, if_pos hk, Option.some.injEq] at h
      subst h
      exact List.mem_map_of_mem _ (List.mem_cons_self hd tl)
    · simp only [mlookup, if_neg hk] at h
      exact List.mem_cons_of_mem _ (ih k v h)

theorem mlookup_move_ne_none (m : Marks) (f b k : Nat)
    (h : mlookup m k ≠ none) : mlookup (move_jump_marks m f b) k ≠ none := by
  rw [mlookup_move_jump_marks]
  cases hl : mlookup m k with
  | none => exact absurd hl h
  | some v => simp

theorem mvalues_move (m : Marks) (f b : Nat) :
    ∀ x ∈ mvalues (move_jump_marks m f b), ∃ v ∈ mvalues m, x ≤ v + b := by
  intro x hx
  simp only [move_jump_marks, mvalues, List.map_map, List.mem_map] at hx
  obtain ⟨kv, hkv, hval⟩ := hx
  refine ⟨kv.2, List.mem_map_of_mem _ hkv, ?_⟩
  by_cases hge : kv.2 ≥ f
  · rw [← hval]
    simp only [Function.comp_apply, if_pos hge]
    exact Nat.mod_le _ _
  · rw [← hval]
    simp only [Function.comp_apply, if_neg hge]
    exact Nat.le_add_right _ _

theorem to_disc_is_jump (v : InstructionVariant) (h : v.is_jump = true) :
    (v.to_disc_jump).is_jump = true := by
  cases v <;> first | rfl | (cases h)

/-- One sweep keeps every jump argument a bound mark and does not drop
    mark bindings. -/
theorem disc_pass_jumps_ok :
    ∀ (l : List Instruction) (i : Nat) (marks : Marks) (l2 : List Instruction)
      (marks2 : Marks) (ch : Bool),
      disc_pass i marks l = .ok (l2, marks2, ch) →
      jumps_arg_ok marks l →
      jumps_arg_ok marks2 l2 ∧ (∀ k, mlookup marks k ≠ none → mlookup marks2 k ≠ none) := by
  intro l
  induction l with
  | nil =>
    intro i marks l2 marks2 ch h hjok
    simp only [disc_pass] at h
    cases h
    exact ⟨jumps_arg_ok_nil, fun k hk => hk⟩
  | cons instr rest ih =>
    intro i marks l2 marks2 ch h hjok
    have hjtail : jumps_arg_ok marks rest :=
      fun i2 h2 hj => hjok i2 (List.mem_cons_of_mem instr h2) hj
    simp only [disc_pass] at h
    by_cases hj : (instr.variant.is_jump && !instr.variant.disc_jump) = true
    · rw [if_pos hj] at h
      cases harg : instr.arg with
      | none => simp only [harg] at h; cases h
      | some mark =>
        simp only [harg] at h
        cases hl : mlookup marks mark with
        | none => simp only [hl] at h; cases h
        | some target =>
          simp only [hl] at h
          by_cases hpg : i / 64 ≠ target / 64
          · rw [if_pos hpg] at h
            cases hrec : disc_pass (i + 2) (move_jump_marks marks (i % 256) 1) rest with
            | error s2 => simp only [hrec] at h; cases h
            | ok tri =>
              obtain ⟨rest2, marks3, ch2⟩ := tri
              simp only [hrec] at h
              cases h
              have hmoved : jumps_arg_ok (move_jump_marks marks (i % 256) 1) rest :=
                jumps_arg_ok_mono (fun k => mlookup_move_ne_none marks (i % 256) 1 k) hjtail
              obtain ⟨hjok2, hmono2⟩ := ih _ _ _ _ _ hrec hmoved
              refine ⟨?_, fun k hk =>
                hmono2 k (mlookup_move_ne_none marks (i % 256) 1 k hk)⟩
              intro i2 h2 hj2
              simp only [List.mem_cons] at h2
              rcases h2 with h2 | h2 | h2
              · subst h2
                cases hj2
              · subst h2
                refine ⟨mark, rfl, ?_⟩
                apply hmono2
                apply mlookup_move_ne_none
                rw [hl]
                exact fun hc => Option.noConfusion hc
              · exact hjok2 i2 h2 hj2
          · rw [if_neg hpg] at h
            cases hrec : disc_pass (i + 1) marks rest with
            | error s2 => simp only [hrec] at h; cases h
            | ok tri =>
              obtain ⟨rest2, marks3, ch2⟩ := tri
              simp only [hrec] at h
              cases h
              obtain ⟨hjok2, hmono2⟩ := ih _ _ _ _ _ hrec hjtail
              refine ⟨?_, hmono2⟩
              intro i2 h2 hj2
              simp only [List.mem_cons] at h2
              rcases h2 with h2 | h2
              · subst h2
                refine ⟨mark, harg, ?_⟩
                apply hmono2
                rw [hl]
                exact fun hc => Option.noConfusion hc
              · exact hjok2 i2 h2 hj2
    · rw [if_neg hj] at h
      cases hrec : disc_pass (i + 1) marks rest with
      | error s2 => simp only [hrec] at h; cases h
      | ok tri =>
        obtain ⟨rest2, marks3, ch2⟩ := tri
        simp only [hrec] at h
        cases h
        obtain ⟨hjok2, hmono2⟩ := ih _ _ _ _ _ hrec hjtail
        refine ⟨?_, hmono2⟩
        intro i2 h2 hj2
        simp only [List.mem_cons] at h2
        rcases h2 with h2 | h2
        · subst h2
          obtain ⟨mk2, harg2, hlk2⟩ := hjok i2 (List.mem_cons_self i2 rest) hj2
          exact ⟨mk2, harg2, hmono2 mk2 hlk2⟩
        · exact hjok2 i2 h2 hj2

/-- One sweep keeps every mark value at most the running index plus the
    remaining length (mark shifts never outrun the inserted `LCL`s). -/
theorem disc_pass_vals_le :
    ∀ (l : List Instruction) (i : Nat) (marks : Marks) (l2 : List Instruction)
      (marks2 : Marks) (ch : Bool),
      disc_pass i marks l = .ok (l2, marks2, ch) →
      (∀ v ∈ mvalues marks, v ≤ i + l.length) →
      ∀ v ∈ mvalues marks2, v ≤ i + l2.length := by
  intro l
  induction l with
  | nil =>
    intro i marks l2 marks2 ch h hval
    simp only [disc_pass] at h
    cases h
    exact hval
  | cons instr rest ih =>
    intro i marks l2 marks2 ch h hval
    simp only [disc_pass] at h
    by_cases hj : (instr.variant.is_jump && !instr.variant.disc_jump) = true
    · rw [if_pos hj] at h
      cases harg : instr.arg with
      | none => simp only [harg] at h; cases h
      | some mark =>
        simp only [harg] at h
        cases hl : mlookup marks mark with
        | none => simp only [hl] at h; cases h
        | some target =>
          simp only [hl] at h
          by_cases hpg : i / 64 ≠ target / 64
          · rw [if_pos hpg] at h
            cases hrec : disc_pass (i + 2) (move_jump_marks marks (i % 256) 1) rest with
            | error s2 => simp only [hrec] at h; cases h
            | ok tri =>
              obtain ⟨rest2, marks3, ch2⟩ := tri
              simp only [hrec] at h
              cases h
              have hvmoved : ∀ v ∈ mvalues (move_jump_marks marks (i % 256) 1),
                  v ≤ (i + 2) + rest.length := by
                intro v hv
                obtain ⟨v0, hv0, hle⟩ := mvalues_move marks (i % 256) 1 v hv
                have := hval v0 hv0
                simp only [List.length_cons] at this
                omega
              have := ih _ _ _ _ _ hrec hvmoved
              intro v hv
              have h2 := this v hv
              simp only [List.length_cons]
              omega
          · rw [if_neg hpg] at h
            cases hrec : disc_pass (i + 1) marks rest with
            | error s2 => simp only [hrec] at h; cases h
            | ok tri =>
              obtain ⟨rest2, marks3, ch2⟩ := tri
              simp only [hrec] at h
              cases h
              have hvrest : ∀ v ∈ mvalues marks, v ≤ (i + 1) + rest.length := by
                intro v hv
                have := hval v hv
                simp only [List.length_cons] at this
                omega
              have := ih _ _ _ _ _ hrec hvrest
              intro v hv
              have h2 := this v hv
              simp only [List.length_cons]
              omega
    · rw [if_neg hj] at h
      cases hrec : disc_pass (i + 1) marks rest with
      | error s2 => simp only [hrec] at h; cases h
      | ok tri =>
        obtain ⟨rest2, marks3, ch2⟩ := tri
        simp only [hrec] at h
        cases h
        have hvrest : ∀ v ∈ mvalues marks, v ≤ (i + 1) + rest.length := by
          intro v hv
          have := hval v hv
          simp only [List.length_cons] at this
          omega
        have := ih _ _ _ _ _ hrec hvrest
        intro v hv
        have h2 := this v hv
        simp only [List.length_cons]
        omega

/-- The fixed-point pass keeps all jumps mark-resolvable and keeps all
    mark values at most the stream length. -/
theorem insert_disc_jumps_ok :
    ∀ (fuel : Nat) (l : List Instruction) (marks : Marks) (l2 : List Instruction)
      (marks2 : Marks),
      insert_disc_jumps fuel l marks = .ok (l2, marks2) →
      jumps_arg_ok marks l → (∀ v ∈ mvalues marks, v ≤ l.length) →
      jumps_arg_ok marks2 l2 ∧ (∀ v ∈ mvalues marks2, v ≤ l2.length) := by
  intro fuel
  induction fuel with
  | zero => intro l marks l2 marks2 h; simp [insert_disc_jumps] at h
  | succ fuel ih =>
    intro l marks l2 marks2 h hjok hval
    simp only [insert_disc_jumps] at h
    cases hp : disc_pass 0 marks l with
    | error s2 => simp only [hp] at h; cases h
    | ok tri =>
      obtain ⟨l3, marks3, changed⟩ := tri
      simp only [hp] at h
      obtain ⟨hjok3, _⟩ := disc_pass_jumps_ok l 0 marks l3 marks3 changed hp hjok
      have hval3 : ∀ v ∈ mvalues marks3, v ≤ l3.length := by
        have := disc_pass_vals_le l 0 marks l3 marks3 changed hp
          (by intro v hv; simpa using hval v hv)
        intro v hv
        simpa using this v hv
      cases changed with
      | true => exact ih l3 marks3 l2 marks2 h hjok3 hval3
      | false =>
        cases h
        exact ⟨hjok3, hval3⟩

/-- When every jump argument is a bound mark, `replace_jump_marks` never
    reaches its panic branches. -/
theorem replace_jump_marks_total :
    ∀ (l : List Instruction) (marks : Marks), jumps_arg_ok marks l →
      ∃ r, replace_jump_marks l marks = .ok r := by
  intro l
  induction l with
  | nil => intro marks _; exact ⟨[], rfl⟩
  | cons instr rest ih =>
    intro marks hjok
    obtain ⟨r2, hr2⟩ := ih marks (fun i2 h2 hj => hjok i2 (List.mem_cons_of_mem instr h2) hj)
    by_cases hj : instr.variant.is_jump = true
    · obtain ⟨mk2, harg, hlk⟩ := hjok instr (List.mem_cons_self instr rest) hj
      cases hlk2 : mlookup marks mk2 with
      | none => exact absurd hlk2 hlk
      | some v =>
        refine ⟨{ instr with arg := some v } :: r2, ?_⟩
        simp [replace_jump_marks, hj, harg, hlk2, hr2]
    · refine ⟨instr :: r2, ?_⟩
      simp [replace_jump_marks, hj, hr2]

/-- C2 (amended): for every AST whose statement evaluation collects no
    errors, every jump in the flattened pre-finalization stream carries
    an arg that is a mark id bound in `jump_marks` (so mark resolution
    never reaches its panic branch: `replace_jump_marks` succeeds on the
    page pass's output), and in the final stream every jump's arg is an
    instruction index `t` with `t ≤ len`.  The claim's strict bound
    `t < len` fails: a forward jump may resolve to the end of the
    program, one past the last instruction. -/
theorem C2_jump_args_amended (fuel fuel2 : Nat) (ast : List Expression) (c : Compiler)
    (h : run_statements fuel ast Compiler.new = .ok ([], c)) :
    jumps_arg_ok c.jump_marks
      (flatten_scope (c.main_scope ++ [Instr.scope c.global.instructions])) ∧
    ∀ l2 marks2,
      insert_disc_jumps fuel2
          (flatten_scope (c.main_scope ++ [Instr.scope c.global.instructions])) c.jump_marks
        = .ok (l2, marks2) →
      ∃ final, replace_jump_marks l2 marks2 = .ok final ∧
        ∀ instr ∈ final, instr.variant.is_jump = true →
          ∃ t, instr.arg = some t ∧ t ≤ final.length := by
  have hp := run_statements_pres fuel ast Compiler.new c h
  obtain ⟨ho, hm, hk, hn, hj, hv, hs⟩ := hp
  have hcj : comp_jumps_ok c := hj comp_jumps_ok_new
  have hmv : marks_vals_ok c := hv marks_vals_ok_new
  have hflat : flatten_scope (c.main_scope ++ [Instr.scope c.global.instructions])
      = flatten_scope c.main_scope ++ flatten_scope c.global.instructions := by
    rw [flatten_scope_append]
    simp [flatten_scope, instr_flatten]
  have hL : jumps_arg_ok c.jump_marks
      (flatten_scope (c.main_scope ++ [Instr.scope c.global.instructions])) := by
    rw [hflat]
    exact jumps_arg_ok_append hcj.2 (hcj.1 c.global (global_in_scope_list c))
  refine ⟨hL, ?_⟩
  intro l2 marks2 hins
  have hvalL : ∀ v ∈ mvalues c.jump_marks,
      v ≤ (flatten_scope (c.main_scope ++ [Instr.scope c.global.instructions])).length := by
    intro v hvv
    have h1 := hmv v hvv
    rw [hflat, List.length_append, flatten_scope_length, flatten_scope_length]
    omega
  obtain ⟨hjok2, hval2⟩ := insert_disc_jumps_ok fuel2 _ c.jump_marks l2 marks2 hins hL hvalL
  obtain ⟨final, hfin⟩ := replace_jump_marks_total l2 marks2 hjok2
  refine ⟨final, hfin, ?_⟩
  obtain ⟨hlen, hspec⟩ := replace_jump_marks_spec l2 marks2 final hfin
  intro instr2 hmem hj2
  obtain ⟨j, hjlt, hget⟩ := List.mem_iff_getElem.mp hmem
  have hget2 : final[j]? = some instr2 := by
    rw [List.getElem?_eq_getElem hjlt, hget]
  obtain ⟨instr0, hidx0, hvar, _, hjcase⟩ := hspec j instr2 hget2
  have hjump0 : instr0.variant.is_jump = true := by rw [← hvar]; exact hj2
  obtain ⟨mark, t, harg0, hl0, harg2⟩ := hjcase hjump0
  refine ⟨t, harg2, ?_⟩
  rw [hlen]
  exact hval2 t (mlookup_some_mem_mvalues marks2 mark t hl0)

def c2_compiler : Compiler :=
  match run_statements 30 prog_if_debug Compiler.new with
  | .ok (_, c) => c
  | .error _ => Compiler.new

/-- C2 witness: `if 1 == 2 debug end` evaluates with no errors, and the
    amended theorem applies to its compiler state. -/
theorem C2_witness :
    run_statements 30 prog_if_debug Compiler.new = .ok ([], c2_compiler) ∧
    (jumps_arg_ok c2_compiler.jump_marks
        (flatten_scope (c2_compiler.main_scope
          ++ [Instr.scope c2_compiler.global.instructions])) ∧
      ∀ l2 marks2,
        insert_disc_jumps 30
            (flatten_scope (c2_compiler.main_scope
              ++ [Instr.scope c2_compiler.global.instructions])) c2_compiler.jump_marks
          = .ok (l2, marks2) →
        ∃ final, replace_jump_marks l2 marks2 = .ok final ∧
          ∀ instr ∈ final, instr.variant.is_jump = true →
            ∃ t, instr.arg = some t ∧ t ≤ final.length) :=
  ⟨rfl, C2_jump_args_amended 30 30 prog_if_debug c2_compiler rfl⟩

/-! Claim theorems: concrete scenarios. -/

/-- C3: compiling `var a; var b; a = 1; b = 2; a = a + b` yields exactly
    `LAL 1, SVA 0, LAL 2, SVA 1, LA 0, LB 1, ADD, SVA 0` in that order,
    with `a` bound to slot 0 and `b` to slot 1. -/
theorem C3_example_sequence :
    compile_program 1000 prog_scenario3 = .ok
      [⟨.LAL, some 1, rdef⟩, ⟨.SVA, some 0, rdef⟩, ⟨.LAL, some 2, rdef⟩, ⟨.SVA, some 1, rdef⟩,
       ⟨.LA, some 0, rdef⟩, ⟨.LB, some 1, rdef⟩, ⟨.ADD, none, rdef⟩, ⟨.SVA, some 0, rdef⟩] ∧
    prog3_slots = (some 0, some 1) := by
  constructor
  · decide
  · decide

/-- C4: `try_eval_const` folds `Plus`, `Minus` and `Mult` with 16-bit
    two's complement wraparound: for `i16` operands `a`, `b`,
    `inline x = a op b` binds `x` to the wrapped result, which is again
    an `i16` value. -/
theorem C4_inline_fold_wraps :
    ∀ (fuel : Nat) (a b : Int) (x : Ident) (l0 l1 l2 l3 : Range) (c : Compiler) (op : Operator),
      -32768 ≤ a → a ≤ 32767 → -32768 ≤ b → b ≤ 32767 →
      (op = .Plus ∨ op = .Minus ∨ op = .Mult) →
      eval_statement (fuel + 1)
          (.mk (.InlineDeclaration x
            (.mk (.BinaryExpr (.mk (.NumericLiteral a) l1) (.mk (.NumericLiteral b) l2) op) l3))
            l0) c
        = .ok (insert_inline_var c x.symbol (wrap16 (arith_denote op a b))) ∧
      lookup_inline_scopes
          (insert_inline_var c x.symbol (wrap16 (arith_denote op a b))).scope_list x.symbol
        = some (wrap16 (arith_denote op a b)) ∧
      -32768 ≤ wrap16 (arith_denote op a b) ∧ wrap16 (arith_denote op a b) ≤ 32767 := by
  intro fuel a b x l0 l1 l2 l3 c op _ _ _ _ hop
  have hlook : ∀ v : Int,
      lookup_inline_scopes (insert_inline_var c x.symbol v).scope_list x.symbol = some v := by
    intro v
    simp [insert_inline_var, Compiler.scope_list, lookup_inline_scopes, alookup_ainsert_self]
  have hbound : ∀ y : Int, -32768 ≤ wrap16 y ∧ wrap16 y ≤ 32767 := by
    intro y
    unfold wrap16
    constructor
    · have := Int.emod_nonneg (y + 32768) (by norm_num : (65536 : ℤ) ≠ 0)
      omega
    · have := Int.emod_lt_of_pos (y + 32768) (by norm_num : (0 : ℤ) < 65536)
      omega
  rcases hop with h | h | h <;> subst h <;>
    exact ⟨rfl, hlook _, (hbound _).1, (hbound _).2⟩

/-- C4 witness: folding `inline x = 32767 + 1` binds `x` to `-32768`. -/
theorem C4_witness :
    eval_statement 10
        (.mk (.InlineDeclaration ⟨"x", rdef⟩
          (.mk (.BinaryExpr (.mk (.NumericLiteral 32767) rdef) (.mk (.NumericLiteral 1) rdef)
            .Plus) rdef)) rdef) Compiler.new
      = .ok (insert_inline_var Compiler.new "x" (wrap16 (arith_denote .Plus 32767 1))) ∧
    wrap16 (arith_denote .Plus 32767 1) = -32768 :=
  ⟨(C4_inline_fold_wraps 9 32767 1 ⟨"x", rdef⟩ rdef rdef rdef rdef Compiler.new .Plus
      (by decide) (by decide) (by decide) (by decide) (Or.inl rfl)).1,
   by decide⟩

/-- C6: when the innermost scope's state records `a = Variable s`, `s` is
    the slot of identifier `x`, and `x` is not an inline variable, then
    `put_into_a` on `x` emits nothing and leaves the compiler unchanged,
    so a consecutive second use of `x` does not re-emit `LA`. -/
theorem C6_no_reload :
    ∀ (fuel : Nat) (c : Compiler) (x : String) (loc : Range) (s : Nat),
      lookup_inline_scopes c.scope_list x = none →
      get_var_noerror c x = some s →
      c.cur.state.a = .Variable s →
      put_into_a (fuel + 1) (.mk (.Identifier x) loc) c = .ok c := by
  intro fuel c x loc s hinl hvar hst
  simp [put_into_a, get_inline_var, hinl, get_var, hvar, hst]

/-- A compiler state with `x` bound to slot 0 and A tracking slot 0. -/
def c6_compiler : Compiler :=
  { cur := { vars := [("x", 0)], inline_variables := [], instructions := [],
             state := ⟨.Variable 0, .Unknown⟩ },
    outer := [], main_scope := [], modules := [], jump_marks := [],
    vars := (List.replicate VAR_SLOTS false).set 0 true }

/-- C6 witness: a second use of `x` tracked in A emits nothing. -/
theorem C6_witness :
    put_into_a 5 (.mk (.Identifier "x") rdef) c6_compiler = .ok c6_compiler :=
  C6_no_reload 4 c6_compiler "x" rdef 0 (by decide) (by decide) (by decide)

/-- C8: the parser loop on an unterminated `if` (branch body ended by
    `Eof`, no `end`) consumes the `Eof` token in the `elif` loop and then
    panics (`Eof before Stream ends`) on the empty deque, rather than
    returning a `MissingEnd` error as the claim states. -/
theorem C8_unterminated_if_panics :
    produce_ast 100 c8_tokens = .panicked "Eof before Stream ends" := rfl

/-- C2 counterexample: compiling `if 1 == 2 debug end` produces a
    4-instruction stream whose jump resolves to index 4 = `len`, which is
    not within `[0, len)` as the claim states. -/
theorem C2_counterexample :
    compile_program 400 prog_if_debug = .ok
      [⟨.LAL, some 1, rdef⟩, ⟨.LBL, some 2, rdef⟩, ⟨.JNE, some 4, rdef⟩, ⟨.LAL, some 17, rdef⟩] ∧
    ¬ (4 < 4) :=
  ⟨by decide, by decide⟩

set_option maxRecDepth 4000 in
/-- C5: the final stream of `prog_if_page` has 128 instructions; the page
    pass emitted `LCL 1` (index 2) immediately before a discontinuous
    jump (index 3) whose resolved target is 128, and
    `floor(128 / 64) = 2 ≠ 1`: inserting the `LCL` itself shifted the
    target (127, the last index of page 1) past the page boundary, but
    the `LCL` argument had been computed before the shift, so the claim's
    `floor(t/64) = p` fails on the code. -/
theorem C5_stale_lcl_page :
    c5_output = some ([⟨.LAL, some 1, rdef⟩, ⟨.LBL, some 2, rdef⟩, ⟨.LCL, some 1, rdef⟩,
      ⟨.JNED, some 128, rdef⟩] ++ List.replicate 124 ⟨.LAL, some 17, rdef⟩) ∧
    (128 : Nat) / 64 ≠ 1 :=
  ⟨rfl, by decide⟩

/-! Jump-mark table lemmas. -/

/-- C10: `insert_jump_mark` returns an id equal to the current number of
    marks; while at most 256 marks have been allocated (keys are exactly
    `0..len` and `len < 256`) the returned id is fresh, no existing
    binding is overwritten, and the key set grows to `0..len+1`, so the
    ids of successive calls are pairwise distinct. -/
theorem C10_insert_jump_mark_fresh :
    ∀ c : Compiler,
      mkeys c.jump_marks = List.range (mlen c.jump_marks) →
      mlen c.jump_marks < 256 →
      (insert_jump_mark c).1 = mlen c.jump_marks ∧
      mlookup c.jump_marks (insert_jump_mark c).1 = none ∧
      mkeys (insert_jump_mark c).2.jump_marks = List.range (mlen c.jump_marks + 1) ∧
      (∀ k v, mlookup c.jump_marks k = some v →
        mlookup (insert_jump_mark c).2.jump_marks k = some v) := by
  intro c hkeys hlen
  have hid : mlen c.jump_marks % 256 = mlen c.jump_marks := Nat.mod_eq_of_lt hlen
  have hfresh : mlen c.jump_marks ∉ mkeys c.jump_marks := by
    rw [hkeys]
    simp [List.mem_range]
  have hany : (c.jump_marks.any (fun p => p.1 == mlen c.jump_marks)) = false := by
    rw [← Bool.not_eq_true]
    intro h
    exact hfresh ((many_iff_mem_mkeys _ _).mp h)
  have hins : (insert_jump_mark c).2.jump_marks
      = c.jump_marks ++ [(mlen c.jump_marks, 0)] := by
    simp [insert_jump_mark, minsert, hid, hany]
  refine ⟨by simp [insert_jump_mark, hid], ?_, ?_, ?_⟩
  · rw [show (insert_jump_mark c).1 = mlen c.jump_marks by simp [insert_jump_mark, hid]]
    rw [mlookup_eq_none_iff]
    exact hfresh
  · rw [hins]
    simp only [mkeys, List.map_append, List.map_cons, List.map_nil]
    rw [show List.map (fun p : Nat × Nat => p.1) c.jump_marks = mkeys c.jump_marks from rfl, hkeys]
    rw [List.range_succ]
  · intro k v h
    rw [hins]
    exact mlookup_append_some _ _ _ _ h

/-- C10 witness: on the fresh compiler the first mark id is 0, fresh, and
    the key set becomes `[0]`. -/
theorem C10_witness :
    (insert_jump_mark Compiler.new).1 = mlen Compiler.new.jump_marks ∧
    mlookup Compiler.new.jump_marks (insert_jump_mark Compiler.new).1 = none ∧
    mkeys (insert_jump_mark Compiler.new).2.jump_marks
      = List.range (mlen Compiler.new.jump_marks + 1) ∧
    (∀ k v, mlookup Compiler.new.jump_marks k = some v →
      mlookup (insert_jump_mark Compiler.new).2.jump_marks k = some v) :=
  C10_insert_jump_mark_fresh Compiler.new (by decide) (by decide)

end MCN
